import Mathlib

/-!
Markov Encryption (C version, `code3.c`): a shallow embedding

The definitions below follow the functions of `code3.c` one by one and keep
their names.  Conventions of the embedding:

* `raise` (which prints and aborts) is the value `none` of `Option`.
* A `byte` is a `Fin 256`; a `bytes` object is the list of its bytes, its
  `size` field being the length of the list.  Reference counting and the
  allocation counters are not modelled; `bytes_copy`, `list_copy` and
  `Key_copy` (which only add a reference) are the identity.
* Memory returned by `malloc` is unspecified until written; `bytes_call`
  models it as zero bytes, `dict_new` as zero values.
* `foreach (item, container)` is a left fold over the items of the container,
  paired with the iterator key where the body uses `iter_key`.
* Sizes, positions and loop counters are natural numbers or integers
  (`dword` and `sdword` are 64 bits wide, more than any size below needs).
  Where the source stores a value in a narrower type, the narrowing is
  explicit: a value stored in a `byte` is reduced modulo 256, and the field
  `finish` of the range iterator, a `sword`, is reduced to 16 bits in two's
  complement (`sword_of`), so that a range of `2 ^ 15` items or more is cut
  short as it is in the source.  `Key.prefix_len`, a `word`, is the number of
  blocks minus one: a list of more than `2 ^ 16` blocks, for which that field
  would wrap, is outside the embedding.
* The random source (`random_bytes`, read from the operating system) is a
  list of the bytes it will deliver, consumed from the front.
-/

namespace ME

/-! ## Objects -/

abbrev byte := Fin 256

abbrev bytes := List byte

abbrev list := List bytes

structure range where
  start : Int
  stop : Int
  step : Int
  deriving DecidableEq, Repr

structure set where
  member : byte → Bool

structure dict where
  keys : set
  values : byte → byte

structure deque where
  buffer : bytes
  offset : Nat
  deriving DecidableEq, Repr

structure Key where
  data : list
  prefix_len : Nat
  base : bytes
  size : Nat
  encoder : bytes
  axes : list
  order : bytes
  decoder : list
  deriving DecidableEq, Repr

structure Primer where
  data : bytes
  deriving DecidableEq, Repr

structure _Processor where
  primary : Key
  encoder : dict
  prefix_ : deque
  decoder : bytes

/-- The macro `assert(condition, text)`: raise unless the condition holds. -/
def assert (condition : Bool) : Option Unit :=
  if condition then some () else none

/-! ## Integers -/

/-- `int_ceildiv`: `ldiv` truncates toward zero; one is added when the
remainder is positive. -/
def int_ceildiv (dividend divisor : Int) : Int :=
  Int.tdiv dividend divisor + (if Int.tmod dividend divisor > 0 then 1 else 0)

/-- `int_mod`: `(dividend % divisor + divisor) % divisor` with the truncating
remainder of C. -/
def int_mod (dividend divisor : Int) : Int :=
  Int.tmod (Int.tmod dividend divisor + divisor) divisor

/-! ## bytes -/

def bytes_call (size : Nat) : bytes := List.replicate size 0

def bytes_bool (self : bytes) : Bool := decide (self.length > 0)

def bytes_len (self : bytes) : Nat := self.length

def bytes_deepcopy (self : bytes) : bytes := self

/-- `bytes_getitem` asserts `offset < self->size`. -/
def bytes_getitem (self : bytes) (offset : Nat) : Option byte :=
  self[offset]?

/-- `bytes_setitem` asserts `offset < self->size`. -/
def bytes_setitem (self : bytes) (offset : Nat) (value : byte) : Option bytes :=
  if offset < self.length then some (self.set offset value) else none

/-- `bytes_find`: the position of the first byte equal to `value`, when there
is one (the loop stops at the first hit). -/
def bytes_find : bytes → byte → Option Nat
  | [], _ => none
  | current :: rest, value =>
    if current = value then some 0 else (bytes_find rest value).map (· + 1)

/-- `bytes_index` asserts that `bytes_find` found the value. -/
def bytes_index (self : bytes) (value : byte) : Option Nat :=
  bytes_find self value

/-- `bytes_sort`: `qsort` with `byte_cmp`, that is ascending order of the byte
values (equal bytes are indistinguishable, so the result does not depend on
the sorting method). -/
def bytes_sort (self : bytes) : bytes :=
  self.insertionSort (fun x y => x ≤ y)

/-- The effect of `memcpy(dst + pos, src, |src|)` (or `memmove`) on a buffer,
for a source that has been read before the write. -/
def mem_write (dst : bytes) (pos : Nat) (src : bytes) : bytes :=
  dst.take pos ++ src ++ dst.drop (pos + src.length)

/-- `bytes_rotate`: asserts `offset < size`, then moves the two parts of the
buffer through a temporary copy of the shorter one. -/
def bytes_rotate (self : bytes) (offset : Nat) : Option bytes :=
  if offset < self.length then
    let tail_size := self.length - offset
    let tail_data := self.drop offset
    if offset > self.length / 2 then
      let buffer := tail_data.take tail_size
      let moved := mem_write self tail_size (self.take offset)
      some (mem_write moved 0 buffer)
    else
      let buffer := self.take offset
      let moved := mem_write self 0 (tail_data.take tail_size)
      some (mem_write moved tail_size buffer)
  else none

/-! ## range -/

/-- `range_start_stop`: the step is `-1` when `start > stop` and `+1`
otherwise, so the assertion of `range_init` holds. -/
def range_start_stop (start stop : Int) : range :=
  { start := start, stop := stop, step := if start > stop then -1 else 1 }

def range_stop (stop : Int) : range := range_start_stop 0 stop

/-- The narrowing of an integer to a `sword`: 16 bits, two's complement. -/
def sword_of (value : Int) : Int :=
  (value + 32768) % 65536 - 32768

/-- The field `finish` set by `iter_range_init`: `int_ceildiv(stop - start,
step)`, narrowed to the `sword` that holds it. -/
def iter_range_finish (data : range) : Int :=
  sword_of (int_ceildiv (data.stop - data.start) data.step)

/-- The values `iter_range_current` yields while `iter_range_valid` holds, in
order; the position in the list is `iter_range_key`.  The field `offset`, a
`sword` as well, runs from 0 up to `finish`, so it never leaves 16 bits. -/
def range_items (data : range) : List Int :=
  (List.range (iter_range_finish data).toNat).map
    (fun (offset : Nat) => data.start + data.step * (offset : Int))

/-! ## set -/

/-- `set_call`: `set_init` clears all 256 members. -/
def set_call : set := { member := fun _ => false }

def set_add (self : set) (elem : byte) : set :=
  { member := fun b => if b = elem then true else self.member b }

def set_from_bytes (data : bytes) : set :=
  data.foldl set_add set_call

def set_bool (self : set) : Bool :=
  (List.finRange 256).any self.member

/-- `set_len` adds up the 256 member flags. -/
def set_len (self : set) : Nat :=
  (List.finRange 256).countP self.member

def set_contains (self : set) (elem : byte) : Bool := self.member elem

/-- `set_issubset`: false as soon as a byte is a member of `self` and not of
`other`. -/
def set_issubset (self other : set) : Bool :=
  (List.finRange 256).all (fun b => !(!other.member b && self.member b))

def set_deepcopy (self : set) : set := { member := fun b => self.member b }

/-- `set_mutate`: a copy of `self` in which every member of `other` is set to
`add`. -/
def set_mutate (self other : set) (add : Bool) : set :=
  { member := fun b => if other.member b then add else (set_deepcopy self).member b }

def set_union (self other : set) : set := set_mutate self other true

def set_intersection (self other : set) : set :=
  { member := fun b => self.member b && other.member b }

def set_difference (self other : set) : set := set_mutate self other false

def set_symmetric_difference (self other : set) : set :=
  set_difference (set_union self other) (set_intersection self other)

/-- The bytes `iter_set_rewind_member` and `iter_set_next_member` stop at:
the members, in ascending order. -/
def set_members (self : set) : List byte :=
  (List.finRange 256).filter self.member

/-- `bytes_from_set`: the members in ascending order. -/
def bytes_from_set (group : set) : bytes := set_members group

/-! ## dict -/

def dict_call : dict := { keys := set_call, values := fun _ => 0 }

def dict_contains (self : dict) (key : byte) : Bool := set_contains self.keys key

/-- `dict_getitem` asserts that the key is in the dictionary. -/
def dict_getitem (self : dict) (key : byte) : Option byte :=
  if set_contains self.keys key then some (self.values key) else none

def dict_setitem (self : dict) (key value : byte) : dict :=
  { keys := set_add self.keys key,
    values := fun b => if b = key then value else self.values b }

/-- The pairs `(iter_dict_key, iter_dict_current)` of a `foreach` over a
dictionary: the keys in ascending order, each with its value. -/
def dict_items (self : dict) : List (byte × byte) :=
  (set_members self.keys).map (fun key => (key, self.values key))

/-- `dict_values`: the values in ascending order of their keys, written one
after the other into a buffer of `set_len(keys)` bytes; the write position is
a `byte`. -/
def dict_values (self : dict) : Option bytes :=
  ((dict_items self).foldlM
    (fun (state : bytes × Nat) (item : byte × byte) =>
      (bytes_setitem state.1 state.2 item.2).map
        (fun values => (values, (state.2 + 1) % 256)))
    (bytes_call (set_len self.keys), 0)).map Prod.fst

/-- `dict_reversed`: maps each value back to its key; the result is `NULL`
(here `none`) when two keys share a value. -/
def dict_reversed (self : dict) : Option dict :=
  (dict_items self).foldlM
    (fun (reversed : dict) (item : byte × byte) =>
      if set_contains reversed.keys item.2 then none
      else some (dict_setitem reversed item.2 item.1))
    dict_call

/-! ## list -/

/-- `list_call`: `size` slots, which `list_init` sets to `NULL`.  The empty
buffer stands for the unassigned slot: the code reads a slot it has not
assigned only through `bytes_getitem` and `bytes_len`, which assert that the
object is not `NULL`; `bytes_getitem` raises on the empty buffer as well, and
the one caller of `bytes_len` on such a slot, `Key_test_data`, raises on a
length below two. -/
def list_call (size : Nat) : list := List.replicate size []

def list_len (self : list) : Nat := self.length

/-- `list_getitem` asserts `offset < self->size`. -/
def list_getitem (self : list) (offset : Nat) : Option bytes :=
  self[offset]?

/-- `list_setitem` asserts `offset < self->size`. -/
def list_setitem (self : list) (offset : Nat) (value : bytes) : Option list :=
  if offset < self.length then some (self.set offset value) else none

/-! ## deque -/

/-- `deque_call`: `deque_init` keeps the buffer and starts at offset zero. -/
def deque_call (buffer : bytes) : deque := { buffer := buffer, offset := 0 }

def deque_bool (self : deque) : Bool := bytes_bool self.buffer

def deque_len (self : deque) : Nat := bytes_len self.buffer

/-- `deque_append`: on a non-empty buffer, writes at `offset` and advances
`offset` modulo the length; on an empty buffer it does nothing. -/
def deque_append (self : deque) (value : byte) : Option deque :=
  if bytes_bool self.buffer then
    (bytes_setitem self.buffer self.offset value).map
      (fun buffer => { buffer := buffer, offset := (self.offset + 1) % bytes_len buffer })
  else some self

/-- The values `iter_deque_current` yields in a `foreach` over a deque: for
each key `k` below the length, the byte at `(offset + k) % length`. -/
def deque_items (self : deque) : Option (List byte) :=
  (List.range (bytes_len self.buffer)).mapM
    (fun k => bytes_getitem self.buffer ((self.offset + k) % bytes_len self.buffer))

/-! ## Key -/

/-- `Key_test_data`: the assertions on the blocks of a key. -/
def Key_test_data (data : list) : Option Unit := do
  let list_size := list_len data
  assert (decide (list_size > 1))
  let item ← list_getitem data 0
  let bytes_size := bytes_len item
  assert (decide (bytes_size > 1))
  let group := set_from_bytes item
  assert (decide (set_len group = bytes_size))
  (range_items (range_start_stop 1 list_size)).foldlM
    (fun (_ : Unit) (offset : Int) => do
      let item ← list_getitem data offset.toNat
      let next_size := bytes_len item
      assert (decide (next_size = bytes_size))
      let next_group := set_from_bytes item
      assert (decide (set_len next_group = next_size))
      let sym_diff := set_symmetric_difference next_group group
      assert (!set_bool sym_diff))
    ()

/-- `Key_calculate_offset`: the positions in `base` of the first bytes of the
blocks `1 .. prefix_len - 1` are added up; the result is `int_mod(-sum, size)`
narrowed to a byte. -/
def Key_calculate_offset (data : list) (prefix_len : Nat) (base : bytes) (size : Nat) :
    Option Nat := do
  let sum ← (range_items (range_start_stop 1 prefix_len)).foldlM
    (fun (sum : Nat) (offset : Int) => do
      let block ← list_getitem data offset.toNat
      let first ← bytes_getitem block 0
      let index ← bytes_index base first
      pure (sum + index))
    0
  assert (decide (size ≠ 0))
  pure ((int_mod (-(sum : Int)) size).toNat % 256)

/-- `Key_calculate_axes`: the `j`-th value `v` of the range from `prefix_len`
down to `1` gives the table at position `j`; the table holds, at each position
of block `v`, the position in `base` of the byte found there. -/
def Key_calculate_axes (data : list) (prefix_len : Nat) (base : bytes) (size : Nat) :
    Option list :=
  (range_items (range_start_stop prefix_len 0)).enum.foldlM
    (fun (axes : list) (item : Nat × Int) => do
      let block ← list_getitem data item.2.toNat
      let table ← block.enum.foldlM
        (fun (table : bytes) (entry : Nat × byte) => do
          let index ← bytes_index base entry.2
          bytes_setitem table entry.1 (Fin.ofNat index))
        (bytes_call size)
      list_setitem axes item.1 table)
    (list_call prefix_len)

/-- `Key_calculate_decoder`: for each rotation, a row in which the byte at
position `i` of `order` is stored at the position in `order` of
`base[(rotation + i) % size]`; the row is stored at `(rotation + offset) % size`. -/
def Key_calculate_decoder (base : bytes) (size : Nat) (offset : Nat) (order : bytes) :
    Option list :=
  (range_items (range_stop size)).foldlM
    (fun (grid : list) (current : Int) => do
      let rotation := current.toNat % 256
      let row ← order.enum.foldlM
        (fun (row : bytes) (entry : Nat × byte) => do
          assert (decide (size ≠ 0))
          let source ← bytes_getitem base ((rotation + entry.1) % size)
          let index ← bytes_index order source
          bytes_setitem row index entry.2)
        (bytes_call size)
      assert (decide (size ≠ 0))
      list_setitem grid ((rotation + offset) % size) row)
    (list_call size)

/-- `Key_make_vars`: the cached tables of a key.  It runs after
`Key_test_data`, so the list has at least two blocks and the first block at
most 256 bytes.  `prefix_len` and `size` are `word`s in the source:
`prefix_len` is the number of blocks minus one, for a list of at most `2 ^ 16`
blocks. -/
def Key_make_vars (data : list) : Option Key := do
  let prefix_len := list_len data - 1
  let base ← list_getitem data 0
  let size := bytes_len base
  let offset ← Key_calculate_offset data prefix_len base size
  let encoder ← bytes_rotate (bytes_deepcopy base) offset
  let axes ← Key_calculate_axes data prefix_len base size
  let order := bytes_sort (bytes_deepcopy base)
  let decoder ← Key_calculate_decoder base size offset order
  pure { data := data, prefix_len := prefix_len, base := base, size := size,
         encoder := encoder, axes := axes, order := order, decoder := decoder }

/-- `Key_call`: `Key_init` tests the data, then builds the tables. -/
def Key_call (data : list) : Option Key := do
  Key_test_data data
  Key_make_vars data

def Key_get_data (self : Key) : list := self.data

def Key_get_prefix_len (self : Key) : Nat := self.prefix_len

def Key_get_base (self : Key) : bytes := self.base

def Key_get_order (self : Key) : bytes := self.order

/-- `Key_calculate_sum`: asserts that the deque has `prefix_len` entries, then
adds up `axes[k][probe]` over the entries `probe` of the deque, `k` being the
iterator key. -/
def Key_calculate_sum (self : Key) (prefix_ : deque) : Option Nat := do
  assert (decide (deque_len prefix_ = self.prefix_len))
  let probes ← deque_items prefix_
  probes.enum.foldlM
    (fun (sum : Nat) (entry : Nat × byte) => do
      let table ← list_getitem self.axes entry.1
      let value ← bytes_getitem table entry.2.val
      pure (sum + value.val))
    0

/-- `Key_encode`: `encoder[(sum + current) % size]`. -/
def Key_encode (self : Key) (prefix_ : deque) (current : byte) : Option byte := do
  let sum ← Key_calculate_sum self prefix_
  assert (decide (self.size ≠ 0))
  bytes_getitem self.encoder ((sum + current.val) % self.size)

/-- `Key_decode`: `decoder[sum % size][current]`. -/
def Key_decode (self : Key) (prefix_ : deque) (current : byte) : Option byte := do
  let sum ← Key_calculate_sum self prefix_
  assert (decide (self.size ≠ 0))
  let row ← list_getitem self.decoder (sum % self.size)
  bytes_getitem row current.val

/-! ## Primer -/

/-- `Primer_test_data`: the data must not be empty. -/
def Primer_test_data (data : bytes) : Option Unit :=
  assert (bytes_bool data)

/-- `Primer_call`: `Primer_init` tests the data and keeps it. -/
def Primer_call (data : bytes) : Option Primer := do
  Primer_test_data data
  pure { data := data }

def Primer_get_data (self : Primer) : bytes := self.data

/-- `Primer_test_key`: the primer has `prefix_len` bytes and its byte set is a
subset of the byte set of the base. -/
def Primer_test_key (self : Primer) (primary : Key) : Option Unit := do
  assert (decide (bytes_len self.data = Key_get_prefix_len primary))
  let data := set_from_bytes self.data
  let base := set_from_bytes (Key_get_base primary)
  assert (set_issubset data base)

def Key_test_primer (self : Key) (vector : Primer) : Option Unit :=
  Primer_test_key vector self

/-! ## Processor -/

/-- `_Processor_init`: tests the primer against the key, maps each byte of
`order` to its position, encodes the primer into the prefix and builds the
inverse table. -/
def _Processor_call (primary : Key) (vector : Primer) : Option _Processor := do
  Key_test_primer primary vector
  let encoder := (Key_get_order primary).enum.foldl
    (fun (encoder : dict) (entry : Nat × byte) =>
      dict_setitem encoder entry.2 (Fin.ofNat entry.1))
    dict_call
  let buffer ← (Primer_get_data vector).enum.foldlM
    (fun (buffer : bytes) (entry : Nat × byte) => do
      let code ← dict_getitem encoder entry.2
      bytes_setitem buffer entry.1 code)
    (bytes_call (Key_get_prefix_len primary))
  let reversed ← dict_reversed encoder
  let decoder ← dict_values reversed
  pure { primary := primary, encoder := encoder, prefix_ := deque_call buffer,
         decoder := decoder }

/-- The type of the converter passed to `_Processor_process`; the deque and
the cache, which the source updates in place, are returned. -/
abbrev Converter := dict → byte → Key → deque → bytes → Nat → Option (deque × bytes)

/-- `_Processor_process`: bytes that are keys of `encoder` go through the
converter, the others are copied to the cache at their position. -/
def _Processor_process (self : _Processor) (data : bytes) (converter : Converter) :
    Option (bytes × _Processor) := do
  let result ← data.enum.foldlM
    (fun (state : deque × bytes) (entry : Nat × byte) =>
      if dict_contains self.encoder entry.2 then
        converter self.encoder entry.2 self.primary state.1 state.2 entry.1
      else
        (bytes_setitem state.2 entry.1 entry.2).map (fun cache => (state.1, cache)))
    (self.prefix_, bytes_call (bytes_len data))
  pure (result.2, { self with prefix_ := result.1 })

/-- `_Processor_get_primer`: the entries of the prefix, oldest first, mapped
through `decoder`, as a new primer. -/
def _Processor_get_primer (self : _Processor) : Option Primer := do
  let entries ← deque_items self.prefix_
  let data ← entries.enum.foldlM
    (fun (data : bytes) (entry : Nat × byte) => do
      let value ← bytes_getitem self.decoder entry.2.val
      bytes_setitem data entry.1 value)
    (bytes_call (deque_len self.prefix_))
  Primer_call data

def Encrypter_call (primary : Key) (vector : Primer) : Option _Processor :=
  _Processor_call primary vector

def Decrypter_call (primary : Key) (vector : Primer) : Option _Processor :=
  _Processor_call primary vector

/-- `Encrypter_convert`: the code of the byte is encoded under the current
prefix, then appended to the prefix. -/
def Encrypter_convert : Converter := fun encoder value primary prefix_ cache offset => do
  let code ← dict_getitem encoder value
  let output ← Key_encode primary prefix_ code
  let cache ← bytes_setitem cache offset output
  let prefix_ ← deque_append prefix_ code
  pure (prefix_, cache)

def Encrypter_process (self : _Processor) (data : bytes) : Option (bytes × _Processor) :=
  _Processor_process self data Encrypter_convert

/-- `Decrypter_convert`: the code of the byte is decoded under the current
prefix; the code of the decoded byte is appended to the prefix. -/
def Decrypter_convert : Converter := fun encoder value primary prefix_ cache offset => do
  let index ← dict_getitem encoder value
  let code ← Key_decode primary prefix_ index
  let cache ← bytes_setitem cache offset code
  let next ← dict_getitem encoder code
  let prefix_ ← deque_append prefix_ next
  pure (prefix_, cache)

def Decrypter_process (self : _Processor) (data : bytes) : Option (bytes × _Processor) :=
  _Processor_process self data Decrypter_convert

/-! ## random -/

/-- The result of a function that draws from the random source: the value it
returns together with the bytes not yet consumed, or `raised` when an
assertion fails, or `starved` when the bytes listed for the source ran out
before the function returned (the rejection loop of `random_range` had not
accepted a candidate yet). -/
inductive Drawn (α : Type) where
  | value (result : α) (rest : List byte) : Drawn α
  | raised : Drawn α
  | starved : Drawn α
  deriving DecidableEq, Repr

/-- Sequencing of two steps that draw from the random source. -/
def Drawn.bind {α β : Type} (x : Drawn α) (f : α → List byte → Drawn β) : Drawn β :=
  match x with
  | Drawn.value result rest => f result rest
  | Drawn.raised => Drawn.raised
  | Drawn.starved => Drawn.starved

/-- A step that may raise and draws nothing. -/
def Drawn.ofOption {α : Type} (x : Option α) (source : List byte) : Drawn α :=
  match x with
  | some result => Drawn.value result source
  | none => Drawn.raised

/-- The loop of `int_bit_length`, which runs once for each bit of `number`
(at most `number` times). -/
def int_bit_length_loop : Nat → Nat → Nat → Nat
  | 0, _, length => length
  | fuel + 1, number, length =>
    if number > 0 then int_bit_length_loop fuel (number >>> 1) ((length + 1) % 256) else length

/-- `int_bit_length`: the number of bits of `number`, counted in a `byte`. -/
def int_bit_length (number : Nat) : Nat :=
  int_bit_length_loop number number 0

/-- `random_bytes`: fills a buffer of `size` bytes from the random source. -/
def random_bytes (source : List byte) (size : Nat) : Option (bytes × List byte) :=
  if size ≤ source.length then some (source.take size, source.drop size) else none

/-- The `do ... while (number >= stop)` loop of `random_range`: each round
draws `size` bytes, reads them as a big-endian number and masks it.  The first
argument bounds the number of rounds; `random_range` passes more rounds than
the source has bytes. -/
def random_range_loop (size mask stop : Nat) : Nat → List byte → Option (Nat × List byte)
  | 0, _ => none
  | fuel + 1, source =>
    match random_bytes source size with
    | none => none
    | some (buffer, rest) =>
      let number := buffer.foldl (fun (number : Nat) (value : byte) => (number <<< 8) + value.val) 0
      let number := number &&& mask
      if number ≥ stop then random_range_loop size mask stop fuel rest else some (number, rest)

/-- `random_range`: zero for `stop < 2`; otherwise rejection sampling of
`int_ceildiv(bits, 8)` bytes under a mask.  `none` when the source runs out
first.  The source computes the mask in `int`, as `(1 << bits) - 1`.  C
defines that shift for `bits ≤ 30`; for a larger count the value taken here is
the one the x86-64 build computes (the count is reduced modulo 32 and the
result wraps in 32 bits), which is `2 ^ (bits % 32) - 1`. -/
def random_range (source : List byte) (stop : Nat) : Option (Nat × List byte) :=
  if stop < 2 then some (0, source)
  else
    let bits := int_bit_length (stop - 1)
    let size := (int_ceildiv bits 8).toNat
    let mask := (1 <<< (bits % 32)) - 1
    random_range_loop size mask stop (source.length + 1) source

/-- `random_choice`: the byte at a random position of the buffer. -/
def random_choice (source : List byte) (buffer : bytes) : Drawn byte :=
  match random_range source (bytes_len buffer) with
  | none => Drawn.starved
  | some (index, rest) => Drawn.ofOption (bytes_getitem buffer index) rest

/-- The body of the loop of `random_shuffle` at position `offset`: the byte
there is exchanged with the byte at a random other position. -/
def random_shuffle_body (range offset : Nat) (buffer : bytes) (source : List byte) :
    Drawn bytes :=
  match bytes_getitem buffer offset with
  | none => Drawn.raised
  | some value =>
    match random_range source range with
    | none => Drawn.starved
    | some (drawn, rest) =>
      let choice := if drawn ≥ offset then drawn + 1 else drawn
      Drawn.ofOption
        ((bytes_getitem buffer choice).bind fun moved =>
          (bytes_setitem buffer offset moved).bind fun buffer =>
            bytes_setitem buffer choice value)
        rest

/-- The `foreach` of `random_shuffle` over the positions of the buffer. -/
def random_shuffle_loop (range : Nat) : List Nat → bytes → List byte → Drawn bytes
  | [], buffer, source => Drawn.value buffer source
  | offset :: offsets, buffer, source =>
    (random_shuffle_body range offset buffer source).bind
      (fun buffer rest => random_shuffle_loop range offsets buffer rest)

/-- `random_shuffle`: nothing for a buffer of at most two bytes; otherwise one
exchange for each position of the buffer, the other position drawn with
`random_range(len - 1)`. -/
def random_shuffle (source : List byte) (buffer : bytes) : Drawn bytes :=
  let range := bytes_len buffer
  if range > 2 then
    random_shuffle_loop (range - 1) (List.range (bytes_len buffer)) buffer source
  else Drawn.value buffer source

/-- The `foreach` of `Key_create`: for each position of `blocks`, the
selection is shuffled once more and a copy of it is stored there. -/
def Key_create_loop : List Int → bytes → list → List byte → Drawn list
  | [], _, blocks, source => Drawn.value blocks source
  | offset :: offsets, selection, blocks, source =>
    (random_shuffle source selection).bind fun selection rest =>
      (Drawn.ofOption (list_setitem blocks offset.toNat (bytes_deepcopy selection)) rest).bind
        fun blocks rest => Key_create_loop offsets selection blocks rest

/-- `Key_create`: `chain_size` successive shuffles of the distinct bytes of
`bytes_used`, passed to `Key_call`. -/
def Key_create (source : List byte) (bytes_used : bytes) (chain_size : Nat) : Drawn Key :=
  let group := set_from_bytes bytes_used
  let selection := bytes_from_set group
  let blocks := list_call chain_size
  (Key_create_loop (range_items (range_stop chain_size)) selection blocks source).bind
    fun blocks rest => Drawn.ofOption (Key_call blocks) rest

/-- The `foreach` of `Primer_create`: a random byte of the base for each
position of the data. -/
def Primer_create_loop (base : bytes) : List Int → bytes → List byte → Drawn bytes
  | [], data, source => Drawn.value data source
  | offset :: offsets, data, source =>
    (random_choice source base).bind fun value rest =>
      (Drawn.ofOption (bytes_setitem data offset.toNat value) rest).bind
        fun data rest => Primer_create_loop base offsets data rest

/-- `Primer_create`: `prefix_len` random bytes of the base, passed to
`Primer_call`. -/
def Primer_create (source : List byte) (primary : Key) : Drawn Primer :=
  let base := Key_get_base primary
  let prefix_len := Key_get_prefix_len primary
  let data := bytes_call prefix_len
  (Primer_create_loop base (range_items (range_stop prefix_len)) data source).bind
    fun data rest => Drawn.ofOption (Primer_call data) rest

/-! ## Vocabulary of the statements -/

/-- The validation rules of a key as the specification words them: at least
two blocks, every block has at least two bytes, the bytes within a block are
pairwise distinct, all blocks have the same length, and every block has the
byte set of the first block. -/
def KeyRules (data : list) : Prop :=
  2 ≤ data.length ∧
  (∀ block ∈ data, 2 ≤ block.length) ∧
  (∀ block ∈ data, block.Nodup) ∧
  (∀ block ∈ data, ∀ other ∈ data, block.length = other.length) ∧
  (∀ block ∈ data, ∀ b : byte, b ∈ block ↔ b ∈ data.headD [])

/-- The sum that `Key_calculate_offset` builds: the positions in `base` of the
first bytes of the blocks `1 .. prefix_len - 1`. -/
def offset_sum (data : list) (prefix_len : Nat) (base : bytes) : Nat :=
  ((List.range (prefix_len - 1)).map
    (fun k => List.indexOf ((data.getD (1 + k) []).headD 0) base)).sum

/-- The table that `Key_calculate_axes` builds from one block: at each
position of the block, the position in `base` of the byte found there. -/
def axes_table (base block : bytes) : bytes :=
  block.map (fun b => (Fin.ofNat (List.indexOf b base) : byte))

/-- The writes that `Key_calculate_decoder` makes into the row of one
rotation, in order: position and value. -/
def decoder_row_writes (base order : bytes) (size rotation : Nat) : List (Nat × byte) :=
  order.enum.map
    (fun entry => (List.indexOf (base.getD ((rotation + entry.1) % size) 0) order, entry.2))

/-- The row that `Key_calculate_decoder` builds for one rotation. -/
def decoder_row (base order : bytes) (size rotation : Nat) : bytes :=
  (decoder_row_writes base order size rotation).foldl
    (fun row write => row.set write.1 write.2) (bytes_call size)

/-- The grid that `Key_calculate_decoder` builds: the row of rotation `r` is
written at position `(r + offset) % size`. -/
def decoder_grid (base order : bytes) (size offset : Nat) : list :=
  ((List.range size).map
    (fun r => ((r + offset) % size, decoder_row base order size r))).foldl
    (fun grid write => grid.set write.1 write.2) (list_call size)

/-- The offset that `Key_make_vars` obtains from `Key_calculate_offset`. -/
def key_offset (data : list) : Nat :=
  (int_mod (-(offset_sum data (data.length - 1) (data.headD []) : Int))
    ((data.headD []).length : Int)).toNat % 256

/-- The key that `Key_make_vars` builds from data that passed `Key_test_data`,
table by table. -/
def key_tables (data : list) : Key :=
  { data := data,
    prefix_len := data.length - 1,
    base := data.headD [],
    size := (data.headD []).length,
    encoder := (data.headD []).rotate (key_offset data),
    axes := (List.range (data.length - 1)).map
      (fun j => axes_table (data.headD []) (data.getD (data.length - 1 - j) [])),
    order := bytes_sort (data.headD []),
    decoder := decoder_grid (data.headD []) (bytes_sort (data.headD []))
      (data.headD []).length (key_offset data) }

/-- The code of a byte in a processor: its position in `order`, as a byte. -/
def code_of (order : bytes) (value : byte) : byte :=
  Fin.ofNat (List.indexOf value order)

/-- The dictionary `encoder` that `_Processor_init` builds from `order`. -/
def encoder_dict (order : bytes) : dict :=
  order.enum.foldl
    (fun (encoder : dict) (entry : Nat × byte) =>
      dict_setitem encoder entry.2 (Fin.ofNat entry.1))
    dict_call

/-- A primer is compatible with a key, in the words of the specification: it
has `prefix_len` bytes and each of them is a byte of the base. -/
def Compatible (primary : Key) (vector : Primer) : Prop :=
  vector.data.length = primary.prefix_len ∧ ∀ b ∈ vector.data, b ∈ primary.base

/-- The processor that `_Processor_init` builds from a key and a compatible
primer, table by table. -/
def processor_tables (primary : Key) (vector : Primer) : _Processor :=
  { primary := primary,
    encoder := encoder_dict primary.order,
    prefix_ := deque_call (vector.data.map (code_of primary.order)),
    decoder := primary.order }

/-- The entries of a deque, oldest first (the order in which `foreach`
visits them). -/
def deque_view (self : deque) : List byte :=
  self.buffer.rotate self.offset

/-- A deque as `deque_call` and `deque_append` leave it: the offset is a
position of the buffer (or the buffer is empty and the offset zero). -/
def deque_valid (self : deque) : Prop :=
  self.offset < self.buffer.length ∨ (self.buffer = [] ∧ self.offset = 0)

/-- What `Encrypter_convert` computes for one recognised byte: the output
byte and the prefix after the append. -/
def Encrypter_step (encoder : dict) (primary : Key) (prefix_ : deque) (value : byte) :
    Option (byte × deque) :=
  (dict_getitem encoder value).bind fun code =>
    (Key_encode primary prefix_ code).bind fun output =>
      (deque_append prefix_ code).bind fun next => some (output, next)

/-- What `Decrypter_convert` computes for one recognised byte: the output
byte and the prefix after the append. -/
def Decrypter_step (encoder : dict) (primary : Key) (prefix_ : deque) (value : byte) :
    Option (byte × deque) :=
  (dict_getitem encoder value).bind fun index =>
    (Key_decode primary prefix_ index).bind fun code =>
      (dict_getitem encoder code).bind fun next =>
        (deque_append prefix_ next).bind fun after => some (code, after)

/-- The loop of `_Processor_process` read byte by byte: the output bytes in
order and the prefix after the last byte. -/
def run (step : deque → byte → Option (byte × deque)) (contains : byte → Bool) :
    deque → bytes → Option (bytes × deque)
  | d, [] => some ([], d)
  | d, v :: rest =>
    if contains v then
      (step d v).bind fun r =>
        (run step contains r.2 rest).map fun s => (r.1 :: s.1, s.2)
    else (run step contains d rest).map fun s => (v :: s.1, s.2)

/-- The sum that `Key_calculate_sum` builds for a history given oldest first. -/
def history_sum (axes : list) (history : List byte) : Nat :=
  (history.enum.map (fun entry => ((axes.getD entry.1 []).getD entry.2.val 0).val)).sum

/-- The shape of the tables of a key that `Key_call` returned: what the
processor relies on when it indexes them. -/
def KeyWF (K : Key) : Prop :=
  1 ≤ K.prefix_len ∧ 2 ≤ K.size ∧ K.size ≤ 256 ∧
  K.base.length = K.size ∧ K.base.Nodup ∧
  K.order = bytes_sort K.base ∧
  K.axes.length = K.prefix_len ∧ (∀ table ∈ K.axes, table.length = K.size) ∧
  K.encoder.length = K.size ∧ (∀ v ∈ K.encoder, v ∈ K.base) ∧
  K.decoder.length = K.size ∧
  (∀ row ∈ K.decoder, row.length = K.size ∧ ∀ v ∈ row, v ∈ K.base)

/-- What holds of the tables of every key that `Key_call` returned, whatever
the number of its blocks: the part of `KeyWF` that does not concern `axes`. -/
def KeyBase (K : Key) : Prop :=
  1 ≤ K.prefix_len ∧ 2 ≤ K.size ∧ K.size ≤ 256 ∧
  K.base.length = K.size ∧ K.base.Nodup ∧
  K.order = bytes_sort K.base ∧
  K.encoder.length = K.size ∧ (∀ v ∈ K.encoder, v ∈ K.base) ∧
  K.decoder.length = K.size ∧
  (∀ row ∈ K.decoder, row.length = K.size ∧ ∀ v ∈ row, v ∈ K.base)

/-- The key that `Key_make_vars` builds from a list of more than `2 ^ 15 + 1`
blocks (and at most `2 ^ 16`) whose first block passed the test: the ranges
over the blocks are cut to nothing, so the sum of the offset is empty, the
encoder is the base, and no table of `axes` is stored. -/
def key_tables_cut (data : list) : Key :=
  { data := data,
    prefix_len := data.length - 1,
    base := data.headD [],
    size := (data.headD []).length,
    encoder := data.headD [],
    axes := list_call (data.length - 1),
    order := bytes_sort (data.headD []),
    decoder := decoder_grid (data.headD []) (bytes_sort (data.headD []))
      (data.headD []).length 0 }

/-- The prefix of a processor over the key `K` as construction and processing
leave it: `prefix_len` entries, each the code of a byte of the alphabet. -/
def PrefixInv (K : Key) (d : deque) : Prop :=
  deque_valid d ∧ d.buffer.length = K.prefix_len ∧ ∀ e ∈ d.buffer, e.val < K.size

/-- The processor states reachable from `_Processor_call` on the key `K` by
calls of `Encrypter_process` and `Decrypter_process`. -/
inductive Reachable (K : Key) : _Processor → Prop
  | init (vector : Primer) (P : _Processor) :
      _Processor_call K vector = some P → Reachable K P
  | encrypt (P : _Processor) (data out : bytes) (after : _Processor) :
      Reachable K P → Encrypter_process P data = some (out, after) → Reachable K after
  | decrypt (P : _Processor) (data out : bytes) (after : _Processor) :
      Reachable K P → Decrypter_process P data = some (out, after) → Reachable K after

/-- Encrypting `plain` with a fresh Encrypter and decrypting the result with a
fresh Decrypter, both built from the key of `data` and the primer `primer`. -/
def round_trip (data : list) (primer plain : bytes) : Option bytes := do
  let primary ← Key_call data
  let vector ← Primer_call primer
  let encrypter ← Encrypter_call primary vector
  let cypher ← Encrypter_process encrypter plain
  let decrypter ← Decrypter_call primary vector
  let decoded ← Decrypter_process decrypter cypher.1
  pure decoded.1

/-- The position in `order` of the byte that `Key_decode` returns for the
ciphertext byte `Key_encode(history, c)`, handed over as `Decrypter_convert`
hands it over: as its position in `order`. -/
def decode_after_encode (data : list) (history : bytes) (c : byte) : Option Nat := do
  let primary ← Key_call data
  let cypher ← Key_encode primary (deque_call history) c
  let index ← bytes_index primary.order cypher
  let decoded ← Key_decode primary (deque_call history) (Fin.ofNat index)
  bytes_index primary.order decoded

/-- The blocks "ABC", "BCA", "ABC". -/
def sample_data : list := [[65, 66, 67], [66, 67, 65], [65, 66, 67]]

/-- The primer "AA". -/
def sample_primer : Primer := { data := [65, 65] }

/-- A byte of the random source that `random_range(stop)` accepts when it
draws one byte at a time (`2 ≤ stop ≤ 256`): masked to the bits of `stop - 1`
it is below `stop`. -/
def accepted (stop : Nat) (b : byte) : Bool :=
  decide ((b.val &&& ((1 <<< int_bit_length (stop - 1)) - 1)) < stop)

/-- The bytes of "Source Code". -/
def source_code : bytes := [83, 111, 117, 114, 99, 101, 32, 67, 111, 100, 101]

/-! ## Tests of `main` and further vocabulary -/

/-- `bytes_from_string`: the bytes of a C string literal (its character codes). -/
def bytes_from_string (text : String) : bytes :=
  text.toList.map (fun c => (Fin.ofNat c.toNat : byte))

/-- One step of the test of `main` on `Key_encode` and `Key_decode`: the index
is encoded and decoded under the prefix, then appended to it. -/
def main_key_test_step (fob : Key) (prefix_ : deque) (index : byte) :
    Option (byte × byte × deque) := do
  let encoded ← Key_encode fob prefix_ index
  let decoded ← Key_decode fob prefix_ index
  let prefix_ ← deque_append prefix_ index
  pure (encoded, decoded, prefix_)

/-- The steps of the test of `main` on `Key_encode` and `Key_decode`, one for
each index; the results of `Key_encode` and `Key_decode` are returned in order. -/
def main_key_test_loop (fob : Key) : deque → List byte → Option (List (byte × byte))
  | _, [] => some []
  | prefix_, index :: indices => do
    let step ← main_key_test_step fob prefix_ index
    let rest ← main_key_test_loop fob step.2.2 indices
    pure ((step.1, step.2.1) :: rest)

/-- The test of `main` on `Key_encode` and `Key_decode`: the key of four
copies of one block, a deque holding 1, 2, 3, and the indices 4 to 8.  (The
test does not append the last index; no result depends on that append.) -/
def main_key_test : Option (List (byte × byte)) := do
  let block := bytes_from_string "ejpszgwufrdmxbhkcatvolnyqi"
  let array := list_call 4
  let array ← list_setitem array 0 block
  let array ← list_setitem array 1 block
  let array ← list_setitem array 2 block
  let array ← list_setitem array 3 block
  let fob ← Key_call array
  let block : bytes := [1, 2, 3]
  let prefix_ := deque_call block
  main_key_test_loop fob prefix_ [4, 5, 6, 7, 8]

/-- The test of `main` on the processors: the key of three copies of "ABC",
the primer "AB", a fresh Encrypter on the plain text and a fresh Decrypter on
the cypher text.  The cypher text and the decoded text are returned. -/
def main_process_test (plain_text : bytes) : Option (bytes × bytes) := do
  let block := bytes_from_string "ABC"
  let array := list_call 3
  let array ← list_setitem array 0 block
  let array ← list_setitem array 1 block
  let array ← list_setitem array 2 block
  let primary ← Key_call array
  let block := bytes_from_string "AB"
  let vector ← Primer_call block
  let encoder ← Encrypter_call primary vector
  let cypher_text ← Encrypter_process encoder plain_text
  let decoder ← Decrypter_call primary vector
  let decoded_text ← Decrypter_process decoder cypher_text.1
  pure (cypher_text.1, decoded_text.1)

/-- The assertions of `main` on `int_mod`: dividend, divisor and the value
the assertion expects, in the order of the source. -/
def main_int_mod_assertions : List (Int × Int × Int) :=
  [(5, 5, 0), (4, 5, 4), (3, 5, 3), (2, 5, 2), (1, 5, 1), (0, 5, 0), (-1, 5, 4), (-2, 5, 3),
   (-3, 5, 2), (-4, 5, 1), (-5, 5, 0), (5, 4, 1), (4, 4, 0), (3, 4, 3), (2, 4, 2), (1, 4, 1),
   (0, 4, 0), (-1, 4, 3), (-2, 4, 2), (-3, 4, 1), (-4, 4, 0), (-5, 4, 3), (5, 3, 2), (4, 3, 1),
   (3, 3, 0), (2, 3, 2), (1, 3, 1), (0, 3, 0), (-1, 3, 2), (-2, 3, 1), (-3, 3, 0), (-4, 3, 2),
   (-5, 3, 1), (5, 2, 1), (4, 2, 0), (3, 2, 1), (2, 2, 0), (1, 2, 1), (0, 2, 0), (-1, 2, 1),
   (-2, 2, 0), (-3, 2, 1), (-4, 2, 0), (-5, 2, 1), (5, 1, 0), (4, 1, 0), (3, 1, 0), (2, 1, 0),
   (1, 1, 0), (0, 1, 0), (-1, 1, 0), (-2, 1, 0), (-3, 1, 0), (-4, 1, 0), (-5, 1, 0),
   (5, -1, 0), (4, -1, 0), (3, -1, 0), (2, -1, 0), (1, -1, 0), (0, -1, 0), (-1, -1, 0),
   (-2, -1, 0), (-3, -1, 0), (-4, -1, 0), (-5, -1, 0), (5, -2, -1), (4, -2, 0), (3, -2, -1),
   (2, -2, 0), (1, -2, -1), (0, -2, 0), (-1, -2, -1), (-2, -2, 0), (-3, -2, -1), (-4, -2, 0),
   (-5, -2, -1), (5, -3, -1), (4, -3, -2), (3, -3, 0), (2, -3, -1), (1, -3, -2), (0, -3, 0),
   (-1, -3, -1), (-2, -3, -2), (-3, -3, 0), (-4, -3, -1), (-5, -3, -2), (5, -4, -3),
   (4, -4, 0), (3, -4, -1), (2, -4, -2), (1, -4, -3), (0, -4, 0), (-1, -4, -1), (-2, -4, -2),
   (-3, -4, -3), (-4, -4, 0), (-5, -4, -1), (5, -5, 0), (4, -5, -1), (3, -5, -2), (2, -5, -3),
   (1, -5, -4), (0, -5, 0), (-1, -5, -1), (-2, -5, -2), (-3, -5, -3), (-4, -5, -4), (-5, -5, 0)]

/-- The axes tables in the words of the specification: `axes[j]` comes from the
block `data[L - j]` and maps each byte `b = data[L - j][i]`, addressed by its
index in `base`, to its position `i` in that block. -/
def axes_as_stated (K : Key) : Bool :=
  (List.range K.prefix_len).all fun j =>
    (List.range K.size).all fun i =>
      match K.axes[j]?, K.data[K.prefix_len - j]? with
      | some table, some block =>
        match block[i]? with
        | some b =>
          match bytes_index K.base b with
          | some idx => decide ((table[idx]?).map Fin.val = some i)
          | none => false
        | none => false
      | _, _ => false

/-- Exchange of the bytes at two positions of a sequence. -/
def shuffle_swap (seq : bytes) (i j : Nat) : bytes :=
  (seq.set i (seq.getD j 0)).set j (seq.getD i 0)

/-- The shuffle in the words of the specification, for a given list of
positions to visit: for each position `i`, in order, draw
`j = random_range(len - 1)`, increase `j` by one when `j ≥ i`, and swap
`seq[i]` with `seq[j]`. -/
def shuffle_visit (len : Nat) : List Nat → bytes → List byte → Drawn bytes
  | [], seq, source => Drawn.value seq source
  | i :: positions, seq, source =>
    match random_range source (len - 1) with
    | none => Drawn.starved
    | some (j, rest) =>
      shuffle_visit len positions (shuffle_swap seq i (if j ≥ i then j + 1 else j)) rest

/-- The big-endian value of a chunk of bytes. -/
def big_endian (chunk : List byte) : Nat :=
  chunk.foldl (fun (number : Nat) (value : byte) => number * 256 + value.val) 0

/-- The candidates of the rejection sampling in the words of the
specification: the source is cut into chunks of `size` freshly drawn bytes, and
each chunk gives its big-endian value masked to its low `bits` bits.  The first
argument bounds the number of chunks. -/
def draw_candidates (size bits : Nat) : Nat → List byte → List Nat
  | 0, _ => []
  | fuel + 1, source =>
    if size ≤ source.length then
      (big_endian (source.take size) % 2 ^ bits) ::
        draw_candidates size bits fuel (source.drop size)
    else []

/-! ## Keys of more than `2 ^ 15` blocks -/

/-- A list of `2 ^ 15 + 2` blocks "AB". -/
def long_data : list := [65, 66] :: List.replicate 32769 [65, 66]

/-- The primer of `2 ^ 15 + 1` bytes 'A'. -/
def long_primer : Primer := { data := List.replicate 32769 65 }

/-- The blocks "AB", "AA" and `2 ^ 15` more blocks "AB". -/
def long_data_repeated : list := [65, 66] :: [65, 65] :: List.replicate 32768 [65, 66]

/-- The blocks "AB", "BA" and `2 ^ 15` more blocks "AB". -/
def long_data_shifted : list := [65, 66] :: [66, 65] :: List.replicate 32768 [65, 66]

/-- The history of `2 ^ 15 + 1` entries 0. -/
def long_history : bytes := List.replicate 32769 0

/-- The processor that `_Processor_init` builds from the key of `long_data`
and `long_primer`. -/
def long_processor : _Processor := processor_tables (key_tables_cut long_data) long_primer

/-! ## Sets of bytes -/

theorem foldl_set_add_member (l : bytes) (s : set) (b : byte) :
    (l.foldl set_add s).member b = (s.member b || decide (b ∈ l)) := by
  induction l generalizing s with
  | nil => simp
  | cons a l ih =>
    rw [List.foldl_cons, ih]
    by_cases h : b = a
    · simp [set_add, h]
    · have h2 : ¬ a = b := fun e => h e.symm
      simp [set_add, h, h2]

theorem set_from_bytes_member (l : bytes) (b : byte) :
    (set_from_bytes l).member b = decide (b ∈ l) := by
  simp [set_from_bytes, foldl_set_add_member, set_call]

theorem mem_set_members (s : set) (b : byte) : b ∈ set_members s ↔ s.member b = true := by
  simp [set_members, List.mem_finRange]

theorem set_members_sorted (s : set) : (set_members s).Sorted (fun x y => x < y) :=
  (List.pairwise_lt_finRange 256).sublist (List.filter_sublist _)

theorem set_members_nodup (s : set) : (set_members s).Nodup :=
  (List.nodup_finRange 256).sublist (List.filter_sublist _)

theorem set_len_eq_length (s : set) : set_len s = (set_members s).length := by
  simp [set_len, set_members, List.countP_eq_length_filter]

theorem set_members_from_bytes_perm (l : bytes) : (set_members (set_from_bytes l)).Perm l.dedup := by
  rw [List.perm_ext_iff_of_nodup (set_members_nodup _) (List.nodup_dedup l)]
  intro b
  simp [mem_set_members, set_from_bytes_member]

theorem set_len_from_bytes (l : bytes) : set_len (set_from_bytes l) = l.dedup.length := by
  rw [set_len_eq_length, (set_members_from_bytes_perm l).length_eq]

theorem set_len_from_bytes_le (l : bytes) : set_len (set_from_bytes l) ≤ l.length := by
  rw [set_len_from_bytes]
  exact (List.dedup_sublist l).length_le

theorem set_len_from_bytes_eq_iff (l : bytes) :
    set_len (set_from_bytes l) = l.length ↔ l.Nodup := by
  rw [set_len_from_bytes]
  constructor
  · intro h
    have e : l.dedup = l := (List.dedup_sublist l).eq_of_length h
    rw [← e]
    exact List.nodup_dedup l
  · intro h
    rw [h.dedup]

theorem set_bool_eq_false_iff (s : set) : set_bool s = false ↔ ∀ b, s.member b = false := by
  simp [set_bool, List.mem_finRange]

theorem set_symmetric_difference_member (s t : set) (b : byte) :
    (set_symmetric_difference s t).member b = xor (s.member b) (t.member b) := by
  simp only [set_symmetric_difference, set_difference, set_union, set_mutate, set_intersection,
    set_deepcopy]
  cases s.member b <;> cases t.member b <;> simp

theorem sym_diff_from_bytes_empty_iff (a b : bytes) :
    set_bool (set_symmetric_difference (set_from_bytes a) (set_from_bytes b)) = false ↔
      ∀ x, x ∈ a ↔ x ∈ b := by
  rw [set_bool_eq_false_iff]
  constructor
  · intro h x
    have hx := h x
    rw [set_symmetric_difference_member, set_from_bytes_member, set_from_bytes_member] at hx
    by_cases ha : x ∈ a <;> by_cases hb : x ∈ b <;> simp [ha, hb] at hx ⊢
  · intro h x
    rw [set_symmetric_difference_member, set_from_bytes_member, set_from_bytes_member]
    by_cases ha : x ∈ a
    · have hb := (h x).1 ha
      simp [ha, hb]
    · have hb : x ∉ b := fun hb => ha ((h x).2 hb)
      simp [ha, hb]

theorem set_issubset_from_bytes_iff (a b : bytes) :
    set_issubset (set_from_bytes a) (set_from_bytes b) = true ↔ ∀ x, x ∈ a → x ∈ b := by
  simp only [set_issubset, List.all_eq_true, List.mem_finRange, true_implies,
    set_from_bytes_member]
  constructor
  · intro h x hx
    have := h x
    by_contra hb
    simp [hx, hb] at this
  · intro h x
    by_cases hx : x ∈ a
    · simp [hx, h x hx]
    · simp [hx]

theorem nodup_length_le_256 (l : bytes) (h : l.Nodup) : l.length ≤ 256 := by
  have := h.length_le_card
  rw [Fintype.card_fin] at this
  exact this

/-! ## Loops -/

theorem assert_eq_some (c : Bool) : assert c = some () ↔ c = true := by
  cases c <;> simp [assert]

theorem assert_bind_eq_some {β : Type} (c : Bool) (f : Unit → Option β) (r : β) :
    (assert c).bind f = some r ↔ c = true ∧ f () = some r := by
  cases c <;> simp [assert]

theorem assert_bind_eq_none {β : Type} (c : Bool) (f : Unit → Option β) :
    (assert c).bind f = none ↔ c = false ∨ f () = none := by
  cases c <;> simp [assert]

theorem getElem?_bind_eq_some {α β : Type} (l : List α) (i : Nat) (f : α → Option β) (r : β) :
    (l[i]?).bind f = some r ↔ ∃ a, l[i]? = some a ∧ f a = some r :=
  Option.bind_eq_some

theorem int_ceildiv_one (x : Int) : int_ceildiv x 1 = x := by
  simp [int_ceildiv]

theorem int_ceildiv_neg_one (x : Int) : int_ceildiv x (-1) = -x := by
  simp [int_ceildiv]

theorem sword_of_small (x : Int) (h0 : 0 ≤ x) (h1 : x ≤ 32767) : sword_of x = x := by
  unfold sword_of
  omega

theorem sword_of_large (x : Int) (h0 : 32768 ≤ x) (h1 : x ≤ 65535) :
    sword_of x = x - 65536 := by
  unfold sword_of
  omega

theorem range_items_up (a b : Nat) (h : a ≤ b) (hb : b - a ≤ 32767) :
    range_items (range_start_stop a b) = (List.range (b - a)).map (fun k => ((a + k : Nat) : Int)) := by
  have h1 : ¬ ((a : Int) > b) := by omega
  have h2 : ((b : Int) - a).toNat = b - a := by omega
  have h3 : sword_of ((b : Int) - a) = (b : Int) - a := sword_of_small _ (by omega) (by omega)
  simp [range_items, range_start_stop, iter_range_finish, h1, int_ceildiv_one, h2, h3]

theorem range_items_down (a : Nat) (ha : a ≤ 32767) :
    range_items (range_start_stop a 0) = (List.range a).map (fun k => ((a - k : Nat) : Int)) := by
  by_cases h : a = 0
  · subst h
    simp [range_items, range_start_stop, iter_range_finish, int_ceildiv_one, sword_of]
  · have h1 : (a : Int) > 0 := by omega
    have h3 : sword_of (-(0 - (a : Int))) = (a : Int) := by
      rw [sword_of_small _ (by omega) (by omega)]
      omega
    simp only [range_items, range_start_stop, iter_range_finish, h1, if_true,
      int_ceildiv_neg_one, Nat.cast_zero, h3]
    rw [Int.toNat_ofNat]
    apply List.map_congr_left
    intro k hk
    have hk2 : k < a := List.mem_range.mp hk
    show (a : Int) + -1 * (k : Int) = ((a - k : Nat) : Int)
    omega

/-- A range whose number of items does not fit the 16-bit field `finish` and
narrows to a negative number yields no item at all. -/
theorem range_items_up_cut (a b : Nat) (h0 : 32768 ≤ b - a) (h1 : b - a ≤ 65535) :
    range_items (range_start_stop a b) = [] := by
  have h2 : ¬ ((a : Int) > b) := by omega
  have h3 : sword_of ((b : Int) - a) = (b : Int) - a - 65536 :=
    sword_of_large _ (by omega) (by omega)
  have h4 : ((b : Int) - a - 65536).toNat = 0 := by omega
  simp [range_items, range_start_stop, iter_range_finish, h2, int_ceildiv_one, h3, h4]

theorem range_items_down_cut (a : Nat) (h0 : 32768 ≤ a) (h1 : a ≤ 65535) :
    range_items (range_start_stop a 0) = [] := by
  have h2 : (a : Int) > 0 := by omega
  have h3 : sword_of (a : Int) = (a : Int) - 65536 := sword_of_large _ (by omega) (by omega)
  have h4 : (a : Int) - 65536 ≤ 0 := by omega
  simp [range_items, range_start_stop, iter_range_finish, h2, int_ceildiv_neg_one, h3, h4]

theorem foldlM_unit_eq_some {α : Type} (l : List α) (f : α → Option Unit) :
    l.foldlM (fun (_ : Unit) x => f x) () = some () ↔ ∀ x ∈ l, f x = some () := by
  induction l with
  | nil => simp
  | cons a l ih =>
    rw [List.foldlM_cons]
    cases h : f a with
    | none => simp [h]
    | some u => simp [h, ih]

/-! ## Key_test_data -/

theorem Key_test_data_cons_cons (x y : bytes) (rest : list) (hn : rest.length + 2 ≤ 32768) :
    Key_test_data (x :: y :: rest) = some () ↔
      (2 ≤ x.length ∧ x.Nodup ∧
        ∀ block ∈ y :: rest, block.length = x.length ∧ block.Nodup ∧ ∀ b, b ∈ block ↔ b ∈ x) := by
  have hr : range_items (range_start_stop 1 (list_len (x :: y :: rest))) =
      (List.range (rest.length + 1)).map (fun k => ((1 + k : Nat) : Int)) := by
    have := range_items_up 1 (rest.length + 2) (by omega) (by omega)
    simpa [list_len] using this
  simp only [Key_test_data, hr, List.foldlM_map]
  simp only [list_len, list_getitem, List.length_cons, List.getElem?_cons_zero, bytes_len,
    Option.bind_eq_bind, Option.some_bind, assert_bind_eq_some, decide_eq_true_eq]
  rw [foldlM_unit_eq_some]
  simp only [assert_bind_eq_some, getElem?_bind_eq_some, assert_eq_some, decide_eq_true_eq,
    set_len_from_bytes_eq_iff, Bool.not_eq_true', sym_diff_from_bytes_empty_iff,
    Int.toNat_ofNat, List.mem_range]
  constructor
  · rintro ⟨-, h2, h3, h4⟩
    refine ⟨by omega, h3, ?_⟩
    intro block hb
    obtain ⟨k, hk, hk2⟩ := List.getElem_of_mem hb
    have := h4 k (by simpa using hk)
    obtain ⟨item, hitem, hlen, hnd, hsym⟩ := this
    have e : item = block := by
      have h1 : (x :: y :: rest)[1 + k]? = some block := by
        rw [Nat.add_comm, List.getElem?_cons_succ, List.getElem?_eq_getElem hk, hk2]
      rw [h1] at hitem
      exact (Option.some.inj hitem).symm
    subst e
    exact ⟨hlen, hnd, hsym⟩
  · rintro ⟨h1, h2, h3⟩
    refine ⟨by omega, by omega, h2, ?_⟩
    intro k hk
    have hk2 : k < (y :: rest).length := by simpa using hk
    refine ⟨(y :: rest)[k], ?_, ?_⟩
    · rw [Nat.add_comm, List.getElem?_cons_succ, List.getElem?_eq_getElem hk2]
    · have hm := h3 _ (List.getElem_mem hk2)
      exact hm

/-- The test is exact for a list of at most `2 ^ 15` blocks, over which the
range of the test runs to its end. -/
theorem Key_test_data_iff (data : list) (hn : data.length ≤ 32768) :
    Key_test_data data = some () ↔ KeyRules data := by
  match data, hn with
  | [], _ => simp [Key_test_data, list_len, assert, KeyRules]
  | [x], _ => simp [Key_test_data, list_len, assert, KeyRules]
  | x :: y :: rest, hn =>
    rw [Key_test_data_cons_cons x y rest (by simpa using hn)]
    simp only [KeyRules, List.headD_cons]
    constructor
    · rintro ⟨h1, h2, h3⟩
      have hall : ∀ block ∈ x :: y :: rest,
          block.length = x.length ∧ block.Nodup ∧ ∀ b, b ∈ block ↔ b ∈ x := by
        intro block hb
        rcases List.mem_cons.mp hb with e | hb
        · subst e
          exact ⟨rfl, h2, fun _ => Iff.rfl⟩
        · exact h3 block hb
      refine ⟨by simp, ?_, ?_, ?_, ?_⟩
      · intro block hb
        rw [(hall block hb).1]
        exact h1
      · intro block hb
        exact (hall block hb).2.1
      · intro block hb other ho
        rw [(hall block hb).1, (hall other ho).1]
      · intro block hb
        exact (hall block hb).2.2
    · rintro ⟨-, h2, h3, h4, h5⟩
      have hx : x ∈ x :: y :: rest := List.mem_cons_self _ _
      refine ⟨h2 x hx, h3 x hx, ?_⟩
      intro block hb
      have hb2 : block ∈ x :: y :: rest := List.mem_cons_of_mem _ hb
      exact ⟨h4 block hb2 x hx, h3 block hb2, h5 block hb2⟩

/-- What the test establishes before its loop, whatever the length of the
list: two blocks at least, and a first block of at least two pairwise distinct
bytes. -/
theorem Key_test_data_first (data : list) (h : Key_test_data data = some ()) :
    2 ≤ data.length ∧ data[0]? = some (data.headD []) ∧ 2 ≤ (data.headD []).length ∧
      (data.headD []).Nodup := by
  match data, h with
  | [], h => simp [Key_test_data, list_len, assert] at h
  | x :: rest, h =>
    simp only [Key_test_data, list_len, list_getitem, List.getElem?_cons_zero, bytes_len,
      Option.bind_eq_bind, Option.some_bind, assert_bind_eq_some, decide_eq_true_eq,
      set_len_from_bytes_eq_iff] at h
    obtain ⟨h1, h2, h3, -⟩ := h
    exact ⟨by simpa using h1, by simp, by simpa using h2, by simpa using h3⟩

/-- For a list of more than `2 ^ 15` blocks (and at most `2 ^ 16`) the loop of
the test is cut to nothing: only the first block is tested. -/
theorem Key_test_data_cut (x : bytes) (rest : list) (h0 : 32768 ≤ rest.length)
    (h1 : rest.length ≤ 65535) :
    Key_test_data (x :: rest) = some () ↔ 2 ≤ x.length ∧ x.Nodup := by
  have hr : range_items (range_start_stop 1 ((List.length rest + 1 : Nat) : Int)) = [] := by
    have := range_items_up_cut 1 (rest.length + 1) (by omega) (by omega)
    rwa [Nat.cast_one] at this
  simp only [Key_test_data, hr, list_len, list_getitem, List.getElem?_cons_zero, bytes_len,
    Option.bind_eq_bind, Option.some_bind, assert_bind_eq_some, decide_eq_true_eq,
    set_len_from_bytes_eq_iff, List.foldlM_nil, List.length_cons]
  constructor
  · rintro ⟨-, h2, h3, -⟩
    exact ⟨by omega, h3⟩
  · rintro ⟨h2, h3⟩
    exact ⟨by omega, by omega, h3, by rfl⟩

/-! ## Loops that write into a buffer -/

theorem foldlM_congr_mem {σ α : Type} (l : List α) (f g : σ → α → Option σ) (init : σ)
    (h : ∀ s, ∀ e ∈ l, f s e = g s e) : l.foldlM f init = l.foldlM g init := by
  induction l generalizing init with
  | nil => rfl
  | cons a l ih =>
    rw [List.foldlM_cons, List.foldlM_cons, h init a (List.mem_cons_self _ _)]
    congr 1
    funext s
    exact ih s (fun s e he => h s e (List.mem_cons_of_mem _ he))

theorem mapM_eq_some_map {α β : Type} (xs : List α) (f : α → Option β) (g : α → β)
    (h : ∀ x ∈ xs, f x = some (g x)) : xs.mapM f = some (xs.map g) := by
  induction xs with
  | nil => rfl
  | cons a l ih =>
    rw [List.mapM_cons, h a (List.mem_cons_self _ _),
      ih (fun x hx => h x (List.mem_cons_of_mem _ hx))]
    rfl

theorem set_append_middle {β : Type} (pre post : List β) (old v : β) :
    (if pre.length < (pre ++ old :: post).length then some ((pre ++ old :: post).set pre.length v)
      else none) = some ((pre ++ [v]) ++ post) := by
  simp

/-- Writing the values `g x` one after the other from position `pre.length` on. -/
theorem foldlM_fill {α β : Type} (xs : List α) (g : α → Option β)
    (body : List β → Nat × α → Option (List β))
    (hbody : ∀ t e, body t e =
      (g e.2).bind (fun v => if e.1 < t.length then some (t.set e.1 v) else none))
    (pre post : List β) (h : xs.length ≤ post.length) :
    (xs.enumFrom pre.length).foldlM body (pre ++ post) =
      (xs.mapM g).map (fun vs => pre ++ vs ++ post.drop xs.length) := by
  induction xs generalizing pre post with
  | nil =>
    simp only [List.enumFrom_nil, List.foldlM_nil, List.mapM_nil, pure, Option.map_some',
      List.append_nil, List.length_nil, List.drop_zero]
  | cons x xs ih =>
    match post, h with
    | old :: post, h =>
      rw [List.enumFrom_cons, List.foldlM_cons, hbody, List.mapM_cons]
      cases hx : g x with
      | none => simp
      | some v =>
        simp only [Option.some_bind, set_append_middle, Option.bind_eq_bind]
        have hl : pre.length + 1 = (pre ++ [v]).length := by simp
        rw [hl, ih (pre ++ [v]) post (by simpa using h)]
        cases xs.mapM g <;> simp

theorem mem_enum_snd {α : Type} (xs : List α) (e : Nat × α) (h : e ∈ xs.enum) : e.2 ∈ xs := by
  obtain ⟨i, x⟩ := e
  have h2 := (List.mem_enum h).2
  rw [h2]
  exact List.getElem_mem _

/-- A loop that writes `g x` at position `k` for the `k`-th item `x`, into a
fresh container of `n` slots holding `z`. -/
theorem foldlM_fill_total {α β : Type} (xs : List α) (g : α → β)
    (body : List β → Nat × α → Option (List β))
    (hbody : ∀ t e, e.2 ∈ xs → body t e =
      if e.1 < t.length then some (t.set e.1 (g e.2)) else none)
    (n : Nat) (z : β) (h : xs.length ≤ n) :
    xs.enum.foldlM body (List.replicate n z) =
      some (xs.map g ++ List.replicate (n - xs.length) z) := by
  rw [foldlM_congr_mem xs.enum body
    (fun t e => (some (g e.2)).bind (fun v => if e.1 < t.length then some (t.set e.1 v) else none))
    _ (fun t e he => by rw [hbody t e (mem_enum_snd xs e he)]; rfl)]
  have := foldlM_fill xs (fun x => some (g x))
    (fun t e => (some (g e.2)).bind (fun v => if e.1 < t.length then some (t.set e.1 v) else none))
    (fun _ _ => rfl) [] (List.replicate n z) (by simpa using h)
  simp only [List.enum, List.length_nil, List.nil_append] at this ⊢
  rw [this, mapM_eq_some_map xs _ g (fun _ _ => rfl)]
  simp

theorem foldlM_sum {α : Type} (l : List α) (g : α → Nat) (body : Nat → α → Option Nat)
    (hbody : ∀ s x, x ∈ l → body s x = some (s + g x)) (init : Nat) :
    l.foldlM body init = some (init + (l.map g).sum) := by
  induction l generalizing init with
  | nil => simp
  | cons a l ih =>
    rw [List.foldlM_cons, hbody init a (List.mem_cons_self _ _)]
    simp only [Option.bind_eq_bind, Option.some_bind]
    rw [ih (fun s x hx => hbody s x (List.mem_cons_of_mem _ hx))]
    simp [Nat.add_assoc]

/-! ## Loops that write at computed positions -/

theorem foldl_set_length {β : Type} (ps : List (Nat × β)) (init : List β) :
    (ps.foldl (fun t p => t.set p.1 p.2) init).length = init.length := by
  induction ps generalizing init with
  | nil => rfl
  | cons p ps ih => rw [List.foldl_cons, ih, List.length_set]

theorem foldlM_scatter {β : Type} (ps : List (Nat × β)) (init : List β)
    (h : ∀ p ∈ ps, p.1 < init.length) :
    ps.foldlM (fun t p => if p.1 < t.length then some (t.set p.1 p.2) else none) init =
      some (ps.foldl (fun t p => t.set p.1 p.2) init) := by
  induction ps generalizing init with
  | nil => rfl
  | cons p ps ih =>
    rw [List.foldlM_cons, if_pos (h p (List.mem_cons_self _ _))]
    simp only [Option.bind_eq_bind, Option.some_bind, List.foldl_cons]
    apply ih
    intro q hq
    rw [List.length_set]
    exact h q (List.mem_cons_of_mem _ hq)

theorem foldl_set_getElem?_of_ne {β : Type} (ps : List (Nat × β)) (init : List β) (q : Nat)
    (h : ∀ p ∈ ps, p.1 ≠ q) :
    (ps.foldl (fun t p => t.set p.1 p.2) init)[q]? = init[q]? := by
  induction ps generalizing init with
  | nil => rfl
  | cons p ps ih =>
    rw [List.foldl_cons, ih _ (fun r hr => h r (List.mem_cons_of_mem _ hr)),
      List.getElem?_set_ne (h p (List.mem_cons_self _ _))]

theorem foldl_set_getElem?_of_mem {β : Type} (ps : List (Nat × β)) (init : List β)
    (hd : ps.Pairwise (fun a b => a.1 ≠ b.1)) (hlt : ∀ p ∈ ps, p.1 < init.length) :
    ∀ p ∈ ps, (ps.foldl (fun t p => t.set p.1 p.2) init)[p.1]? = some p.2 := by
  induction ps generalizing init with
  | nil => intro p hp; cases hp
  | cons a ps ih =>
    intro p hp
    rw [List.pairwise_cons] at hd
    rw [List.foldl_cons]
    rcases List.mem_cons.mp hp with e | hp
    · subst e
      rw [foldl_set_getElem?_of_ne _ _ _ (fun r hr => (hd.1 r hr).symm)]
      rw [List.getElem?_set_self (hlt p (List.mem_cons_self _ _))]
    · apply ih _ hd.2 _ p hp
      intro r hr
      rw [List.length_set]
      exact hlt r (List.mem_cons_of_mem _ hr)

/-- Pairwise distinct positions below `n`, as many as `n`, are all the positions below `n`. -/
theorem positions_cover (qs : List Nat) (n : Nat) (hd : qs.Nodup) (hlt : ∀ q ∈ qs, q < n)
    (hlen : qs.length = n) : ∀ q, q < n → q ∈ qs := by
  have hsub : qs ⊆ List.range n := fun q hq => List.mem_range.mpr (hlt q hq)
  have hp : qs.Perm (List.range n) :=
    (List.subperm_of_subset hd hsub).perm_of_length_le (by simp [hlen])
  intro q hq
  exact hp.symm.subset (List.mem_range.mpr hq)

theorem foldl_set_mem_of_cover {β : Type} (ps : List (Nat × β)) (init : List β)
    (hd : ps.Pairwise (fun a b => a.1 ≠ b.1)) (hlt : ∀ p ∈ ps, p.1 < init.length)
    (hlen : ps.length = init.length) :
    ∀ v ∈ ps.foldl (fun t p => t.set p.1 p.2) init, ∃ p ∈ ps, v = p.2 := by
  intro v hv
  obtain ⟨q, hq, hqv⟩ := List.getElem_of_mem hv
  rw [foldl_set_length] at hq
  have hnd : (ps.map Prod.fst).Nodup := by
    rw [List.Nodup, List.pairwise_map]
    exact hd
  have hcov := positions_cover (ps.map Prod.fst) init.length hnd
    (by intro q hq; obtain ⟨p, hp, e⟩ := List.mem_map.mp hq; rw [← e]; exact hlt p hp)
    (by simp [hlen]) q hq
  obtain ⟨p, hp, e⟩ := List.mem_map.mp hcov
  refine ⟨p, hp, ?_⟩
  have h1 := foldl_set_getElem?_of_mem ps init hd hlt p hp
  rw [e, List.getElem?_eq_getElem (by rw [foldl_set_length]; exact hq), hqv] at h1
  exact Option.some.inj h1

/-! ## bytes and integers -/

theorem bytes_find_eq (l : bytes) (v : byte) :
    bytes_find l v = if v ∈ l then some (List.indexOf v l) else none := by
  induction l with
  | nil => simp [bytes_find]
  | cons c rest ih =>
    by_cases h : c = v
    · subst h
      simp [bytes_find]
    · have h2 : ¬ v = c := fun e => h e.symm
      rw [bytes_find, if_neg h, ih, List.indexOf_cons_ne _ h]
      by_cases hm : v ∈ rest
      · simp [hm]
      · simp [hm, h2]

theorem bytes_index_of_mem (l : bytes) (v : byte) (h : v ∈ l) :
    bytes_index l v = some (List.indexOf v l) := by
  rw [bytes_index, bytes_find_eq, if_pos h]

theorem bytes_index_eq_some_iff (l : bytes) (v : byte) (i : Nat) :
    bytes_index l v = some i ↔ v ∈ l ∧ i = List.indexOf v l := by
  rw [bytes_index, bytes_find_eq]
  by_cases h : v ∈ l
  · simp [h, eq_comm]
  · simp [h]

theorem bytes_rotate_append (A B : bytes) (hB : B ≠ []) :
    bytes_rotate (A ++ B) A.length = some (B ++ A) := by
  have hpos : 0 < B.length := List.length_pos.mpr hB
  have h : A.length < (A ++ B).length := by simp; omega
  have e1 : (A ++ B).length - A.length = B.length := by simp
  simp only [bytes_rotate, if_pos h, mem_write, e1, List.drop_left, List.take_left,
    List.take_length, List.take_zero, List.nil_append, Nat.zero_add]
  split
  · have e2 : List.take B.length (A ++ B) ++ A ++ List.drop (B.length + A.length) (A ++ B) =
        List.take B.length (A ++ B) ++ A := by
      rw [List.drop_of_length_le (by simp; omega), List.append_nil]
    rw [e2]
    have e3 : (List.take B.length (A ++ B)).length = B.length := by
      rw [List.length_take]; simp
    have e4 : List.drop B.length (List.take B.length (A ++ B) ++ A) = A := by
      have := List.drop_left (List.take B.length (A ++ B)) A
      rw [e3] at this
      exact this
    rw [e4]
  · have e4 : List.drop (B.length + A.length) (B ++ List.drop B.length (A ++ B)) = [] := by
      rw [List.drop_of_length_le]
      simp
    rw [e4, List.append_nil]

theorem bytes_rotate_eq (l : bytes) (k : Nat) (h : k < l.length) :
    bytes_rotate l k = some (l.rotate k) := by
  rw [List.rotate_eq_drop_append_take (Nat.le_of_lt h)]
  have hk : (List.take k l).length = k := by rw [List.length_take]; omega
  have hB : List.drop k l ≠ [] := by
    intro e
    have := congrArg List.length e
    simp at this
    omega
  have := bytes_rotate_append (List.take k l) (List.drop k l) hB
  rw [List.take_append_drop, hk] at this
  exact this

theorem tmod_gt_neg (a b : Int) (hb : 0 < b) : -b < Int.tmod a b := by
  cases a with
  | ofNat m =>
    have := Int.tmod_nonneg (a := Int.ofNat m) b (Int.ofNat_nonneg m)
    omega
  | negSucc m =>
    obtain ⟨n, rfl⟩ := Int.eq_ofNat_of_zero_le (Int.le_of_lt hb)
    have hn : 0 < n := by omega
    show -(n : Int) < -(((m + 1) % n : Nat) : Int)
    have := Nat.mod_lt (m + 1) hn
    omega

theorem int_mod_eq_emod (a b : Int) (hb : 0 < b) : int_mod a b = a % b := by
  have hlow := tmod_gt_neg a b hb
  have h0 : 0 ≤ Int.tmod a b + b := by omega
  rw [int_mod, Int.tmod_eq_emod h0 (Int.le_of_lt hb), Int.add_emod_self, Int.tmod_def,
    Int.sub_eq_add_neg, Int.add_neg_mul_emod_self_left]

theorem int_mod_toNat_lt (a : Int) (n : Nat) (hn : 0 < n) : (int_mod a n).toNat < n := by
  rw [int_mod_eq_emod a n (by omega)]
  have h1 := Int.emod_nonneg a (show (n : Int) ≠ 0 by omega)
  have h2 := Int.emod_lt_of_pos a (show (0 : Int) < n by omega)
  omega

/-! ## The tables of a key -/

theorem Key_calculate_offset_eq (data : list) (prefix_len : Nat) (base : bytes) (size : Nat)
    (hL : 1 ≤ prefix_len) (hb : prefix_len ≤ 32768) (hsize : 0 < size)
    (hblocks : ∀ k, 1 ≤ k → k < prefix_len →
      ∃ block first, data[k]? = some block ∧ block[0]? = some first ∧ first ∈ base) :
    Key_calculate_offset data prefix_len base size =
      some ((int_mod (-(offset_sum data prefix_len base : Int)) size).toNat % 256) := by
  have hr : range_items (range_start_stop 1 prefix_len) =
      (List.range (prefix_len - 1)).map (fun k => ((1 + k : Nat) : Int)) := by
    have := range_items_up 1 prefix_len hL (by omega)
    simpa using this
  have hsum : (List.range (prefix_len - 1)).foldlM
      (fun (sum : Nat) (k : Nat) =>
        (list_getitem data ((1 + k : Nat) : Int).toNat).bind fun block =>
          (bytes_getitem block 0).bind fun first =>
            (bytes_index base first).bind fun index => some (sum + index)) 0 =
      some (0 + ((List.range (prefix_len - 1)).map
        (fun k => List.indexOf ((data.getD (1 + k) []).headD 0) base)).sum) := by
    apply foldlM_sum
    intro s k hk
    have hk2 : k < prefix_len - 1 := List.mem_range.mp hk
    obtain ⟨block, first, h1, h2, h3⟩ := hblocks (1 + k) (by omega) (by omega)
    have e1 : data.getD (1 + k) [] = block := by
      rw [List.getD_eq_getElem?_getD, h1]; rfl
    have e2 : block.headD 0 = first := by
      cases block with
      | nil => simp at h2
      | cons a t => simpa using h2
    simp only [list_getitem, bytes_getitem, Int.toNat_ofNat, h1, h2, Option.some_bind,
      bytes_index_of_mem base first h3, e1, e2]
  simp only [Key_calculate_offset, hr, List.foldlM_map]
  have hne : decide (size ≠ 0) = true := by simp; omega
  simp only [Option.bind_eq_bind, pure, hne] at hsum ⊢
  rw [hsum]
  simp [assert, offset_sum]

theorem Key_calculate_axes_eq (data : list) (prefix_len : Nat) (base : bytes) (size : Nat)
    (hb : prefix_len ≤ 32767)
    (hblocks : ∀ k, 1 ≤ k → k ≤ prefix_len →
      ∃ block, data[k]? = some block ∧ block.length = size ∧ ∀ b ∈ block, b ∈ base) :
    Key_calculate_axes data prefix_len base size =
      some ((List.range prefix_len).map
        (fun j => axes_table base (data.getD (prefix_len - j) []))) := by
  have hr := range_items_down prefix_len hb
  simp only [Nat.cast_zero] at hr
  simp only [Key_calculate_axes, hr, list_call]
  have := foldlM_fill_total
    ((List.range prefix_len).map (fun k => ((prefix_len - k : Nat) : Int)))
    (fun v => axes_table base (data.getD v.toNat []))
    (fun (axes : list) (item : Nat × Int) =>
      (list_getitem data item.2.toNat).bind fun block =>
        (block.enum.foldlM
          (fun (table : bytes) (entry : Nat × byte) =>
            (bytes_index base entry.2).bind fun index =>
              bytes_setitem table entry.1 (Fin.ofNat index))
          (bytes_call size)).bind fun table => list_setitem axes item.1 table)
    ?_ prefix_len [] (by simp)
  · simp only [List.length_map, List.length_range, Nat.sub_self, List.replicate_zero,
      List.append_nil, List.map_map] at this
    simp only [Option.bind_eq_bind]
    rw [this]
    congr 1
  · intro t e he
    obtain ⟨j, hj, hje⟩ := List.mem_map.mp he
    have hj2 : j < prefix_len := List.mem_range.mp hj
    obtain ⟨block, h1, h2, h3⟩ := hblocks (prefix_len - j) (by omega) (by omega)
    have e1 : data.getD (prefix_len - j) [] = block := by
      rw [List.getD_eq_getElem?_getD, h1]; rfl
    have hinner := foldlM_fill_total block (fun b => (Fin.ofNat (List.indexOf b base) : byte))
      (fun (table : bytes) (entry : Nat × byte) =>
            (bytes_index base entry.2).bind fun index =>
              bytes_setitem table entry.1 (Fin.ofNat index))
      (fun t e he => by
        show (bytes_index base e.2).bind _ = _
        rw [bytes_index_of_mem base e.2 (h3 e.2 he)]
        rfl)
      size 0 (by omega)
    simp only [← hje, Int.toNat_ofNat, list_getitem, h1, Option.some_bind, bytes_call, hinner,
      h2, Nat.sub_self, List.replicate_zero, List.append_nil, e1, list_setitem, axes_table]

theorem decoder_row_eq (base order : bytes) (size rotation : Nat) (hsize : 0 < size)
    (hbase : base.length = size) (horder : order.length = size)
    (hmem : ∀ b, b ∈ base → b ∈ order) :
    order.enum.foldlM
      (fun (row : bytes) (entry : Nat × byte) =>
        (assert (decide (size ≠ 0))).bind fun _ =>
          (bytes_getitem base ((rotation + entry.1) % size)).bind fun source =>
            (bytes_index order source).bind fun index => bytes_setitem row index entry.2)
      (bytes_call size) = some (decoder_row base order size rotation) := by
  have hne : decide (size ≠ 0) = true := by simp; omega
  rw [foldlM_congr_mem order.enum _
    (fun (row : bytes) (entry : Nat × byte) =>
      (fun (t : bytes) (p : Nat × byte) => if p.1 < t.length then some (t.set p.1 p.2) else none)
        row (List.indexOf (base.getD ((rotation + entry.1) % size) 0) order, entry.2))]
  · rw [← List.foldlM_map
      (fun (entry : Nat × byte) =>
        (List.indexOf (base.getD ((rotation + entry.1) % size) 0) order, entry.2))
      (fun (t : bytes) (p : Nat × byte) => if p.1 < t.length then some (t.set p.1 p.2) else none)]
    rw [foldlM_scatter]
    · rfl
    · intro p hp
      obtain ⟨e, -, rfl⟩ := List.mem_map.mp hp
      have hlt : (rotation + e.1) % size < base.length := by
        rw [hbase]; exact Nat.mod_lt _ hsize
      have hin : base.getD ((rotation + e.1) % size) 0 ∈ order := by
        apply hmem
        rw [List.getD_eq_getElem _ _ hlt]
        exact List.getElem_mem _
      have hlt2 := List.indexOf_lt_length.mpr hin
      simp only [bytes_call, List.length_replicate]
      omega
  · intro row entry _
    have hlt : (rotation + entry.1) % size < base.length := by
      rw [hbase]; exact Nat.mod_lt _ hsize
    have hget : bytes_getitem base ((rotation + entry.1) % size) =
        some (base.getD ((rotation + entry.1) % size) 0) := by
      rw [bytes_getitem, List.getD_eq_getElem _ _ hlt, List.getElem?_eq_getElem hlt]
    have hin : base.getD ((rotation + entry.1) % size) 0 ∈ order := by
      apply hmem
      rw [List.getD_eq_getElem _ _ hlt]
      exact List.getElem_mem _
    simp only [hne, assert, if_true, Option.some_bind, hget, bytes_index_of_mem order _ hin,
      bytes_setitem]

theorem Key_calculate_decoder_eq (base order : bytes) (size offset : Nat) (hsize : 0 < size)
    (hs256 : size ≤ 256) (hbase : base.length = size) (horder : order.length = size)
    (hmem : ∀ b, b ∈ base → b ∈ order) :
    Key_calculate_decoder base size offset order = some (decoder_grid base order size offset) := by
  have hne : decide (size ≠ 0) = true := by simp; omega
  have hr : range_items (range_stop size) = (List.range size).map (fun k => ((0 + k : Nat) : Int)) := by
    have := range_items_up 0 size (Nat.zero_le _) (by omega)
    simpa [range_stop] using this
  simp only [Key_calculate_decoder, hr, List.foldlM_map, Option.bind_eq_bind]
  rw [foldlM_congr_mem (List.range size) _
    (fun (grid : list) (r : Nat) =>
      (fun (t : list) (p : Nat × bytes) => if p.1 < t.length then some (t.set p.1 p.2) else none)
        grid ((r + offset) % size, decoder_row base order size r))]
  · rw [← List.foldlM_map
      (fun (r : Nat) => ((r + offset) % size, decoder_row base order size r))
      (fun (t : list) (p : Nat × bytes) => if p.1 < t.length then some (t.set p.1 p.2) else none)]
    rw [foldlM_scatter]
    · rfl
    · intro p hp
      obtain ⟨r, -, rfl⟩ := List.mem_map.mp hp
      simp only [list_call, List.length_replicate]
      exact Nat.mod_lt _ hsize
  · intro grid r hr
    have hr2 : r < size := List.mem_range.mp hr
    have hrot : ((0 + r : Nat) : Int).toNat % 256 = r := by
      rw [Int.toNat_ofNat, Nat.zero_add]
      exact Nat.mod_eq_of_lt (by omega)
    simp only [hrot]
    rw [decoder_row_eq base order size r hsize hbase horder hmem]
    simp only [Option.some_bind, hne, assert, if_true, list_setitem]

/-- The offset is below `size`, whatever the loop has added up. -/
theorem Key_calculate_offset_lt (data : list) (prefix_len : Nat) (base : bytes) (size o : Nat)
    (hsize : 0 < size) (h256 : size ≤ 256)
    (h : Key_calculate_offset data prefix_len base size = some o) : o < size := by
  simp only [Key_calculate_offset, Option.bind_eq_bind, Option.bind_eq_some, pure,
    Option.some.injEq] at h
  obtain ⟨sum, -, u, -, h2⟩ := h
  have := int_mod_toNat_lt (-(sum : Int)) size hsize
  rw [← h2, Nat.mod_eq_of_lt (by omega)]
  exact this

/-- With `2 ^ 15 + 1` blocks or more before the last one, the range of
`Key_calculate_offset` is cut to nothing and the offset is 0. -/
theorem Key_calculate_offset_cut (data : list) (prefix_len : Nat) (base : bytes) (size : Nat)
    (h0 : 32769 ≤ prefix_len) (h1 : prefix_len ≤ 65536) (hsize : 0 < size) :
    Key_calculate_offset data prefix_len base size = some 0 := by
  have hr : range_items (range_start_stop 1 (prefix_len : Int)) = [] := by
    have := range_items_up_cut 1 prefix_len (by omega) (by omega)
    rwa [Nat.cast_one] at this
  have hne : decide (size ≠ 0) = true := by simp; omega
  have hz : int_mod 0 (size : Int) = 0 := by
    simp [int_mod]
  simp [Key_calculate_offset, hr, hne, assert, hz]

/-- With `2 ^ 15` tables or more to build, the range of `Key_calculate_axes`
is cut to nothing and no table is stored. -/
theorem Key_calculate_axes_cut (data : list) (prefix_len : Nat) (base : bytes) (size : Nat)
    (h0 : 32768 ≤ prefix_len) (h1 : prefix_len ≤ 65535) :
    Key_calculate_axes data prefix_len base size = some (list_call prefix_len) := by
  have hr : range_items (range_start_stop (prefix_len : Int) 0) = [] := by
    have := range_items_down_cut prefix_len h0 h1
    simpa using this
  simp [Key_calculate_axes, hr]

/-! ## Key_call -/

theorem bytes_sort_perm (l : bytes) : (bytes_sort l).Perm l :=
  List.perm_insertionSort _ l

theorem bytes_sort_sorted (l : bytes) : (bytes_sort l).Sorted (fun x y => x ≤ y) :=
  List.sorted_insertionSort _ l

theorem mem_bytes_sort (l : bytes) (b : byte) : b ∈ bytes_sort l ↔ b ∈ l :=
  (bytes_sort_perm l).mem_iff

theorem bytes_sort_length (l : bytes) : (bytes_sort l).length = l.length :=
  (bytes_sort_perm l).length_eq

theorem bytes_sort_nodup (l : bytes) (h : l.Nodup) : (bytes_sort l).Nodup :=
  (bytes_sort_perm l).nodup_iff.mpr h

theorem KeyRules_blocks (data : list) (h : KeyRules data) :
    ∀ k, k < data.length → ∃ block, data[k]? = some block ∧
      block.length = (data.headD []).length ∧ block.Nodup ∧
      (∀ b, b ∈ block ↔ b ∈ data.headD []) ∧ 2 ≤ block.length := by
  obtain ⟨h1, h2, h3, h4, h5⟩ := h
  intro k hk
  have hm : data[k] ∈ data := List.getElem_mem hk
  have hhead : data.headD [] ∈ data := by
    cases data with
    | nil => simp at h1
    | cons a t => simp
  exact ⟨data[k], List.getElem?_eq_getElem hk, h4 _ hm _ hhead, h3 _ hm, h5 _ hm, h2 _ hm⟩

theorem KeyRules_base (data : list) (h : KeyRules data) :
    data[0]? = some (data.headD []) ∧ 2 ≤ (data.headD []).length ∧ (data.headD []).Nodup := by
  have hlen := h.1
  obtain ⟨block, h1, h2, h3, -, h5⟩ := KeyRules_blocks data h 0 (by omega)
  cases data with
  | nil => simp at hlen
  | cons a t =>
    simp only [List.getElem?_cons_zero, Option.some.injEq] at h1
    subst h1
    simp only [List.headD_cons] at h2 h3 h5 ⊢
    exact ⟨List.getElem?_cons_zero, h5, h3⟩

theorem key_offset_lt (data : list) (h : KeyRules data) :
    key_offset data < (data.headD []).length := by
  obtain ⟨-, h2, h3⟩ := KeyRules_base data h
  have h256 := nodup_length_le_256 _ h3
  have := int_mod_toNat_lt (-(offset_sum data (data.length - 1) (data.headD []) : Int))
    (data.headD []).length (by omega)
  rw [key_offset, Nat.mod_eq_of_lt (by omega)]
  exact this

theorem Key_make_vars_eq (data : list) (hn : data.length ≤ 32768) (h : KeyRules data) :
    Key_make_vars data = some (key_tables data) := by
  obtain ⟨hb0, hb2, hbnd⟩ := KeyRules_base data h
  have hlen := h.1
  have h256 := nodup_length_le_256 _ hbnd
  have hoff := Key_calculate_offset_eq data (data.length - 1) (data.headD [])
    (data.headD []).length (by omega) (by omega) (by omega) (by
      intro k hk1 hk2
      obtain ⟨block, e1, e2, -, e4, e5⟩ := KeyRules_blocks data h k (by omega)
      have hpos : 0 < block.length := by omega
      refine ⟨block, block[0], e1, List.getElem?_eq_getElem hpos, ?_⟩
      exact (e4 _).1 (List.getElem_mem hpos))
  have haxes := Key_calculate_axes_eq data (data.length - 1) (data.headD [])
    (data.headD []).length (by omega) (by
      intro k hk1 hk2
      obtain ⟨block, e1, e2, -, e4, -⟩ := KeyRules_blocks data h k (by omega)
      exact ⟨block, e1, e2, fun b hb => (e4 b).1 hb⟩)
  have hdec := Key_calculate_decoder_eq (data.headD []) (bytes_sort (data.headD []))
    (data.headD []).length (key_offset data) (by omega) h256 rfl (bytes_sort_length _)
    (fun b hb => (mem_bytes_sort _ b).2 hb)
  have hrot := bytes_rotate_eq (data.headD []) (key_offset data) (key_offset_lt data h)
  simp only [Key_make_vars, list_len, list_getitem, hb0, Option.bind_eq_bind, Option.some_bind,
    bytes_len, hoff, bytes_deepcopy]
  rw [← key_offset]
  simp only [hrot, haxes, hdec, Option.some_bind]
  rfl

/-- For a list of at most `2 ^ 15` blocks, `Key_call` returns exactly on the
data that satisfy the rules, and returns the tables of `key_tables`. -/
theorem Key_call_eq_some_iff (data : list) (K : Key) (hn : data.length ≤ 32768) :
    Key_call data = some K ↔ KeyRules data ∧ K = key_tables data := by
  rw [Key_call]
  constructor
  · intro h
    cases ht : Key_test_data data with
    | none => rw [ht] at h; simp at h
    | some u =>
      have hr := (Key_test_data_iff data hn).1 ht
      rw [ht, Key_make_vars_eq data hn hr] at h
      simp only [Option.bind_eq_bind, Option.some_bind, Option.some.injEq] at h
      exact ⟨hr, h.symm⟩
  · rintro ⟨hr, rfl⟩
    rw [(Key_test_data_iff data hn).2 hr, Key_make_vars_eq data hn hr]
    rfl

/-- The parts of every key that `Key_call` returned, whatever the number of
its blocks: the first block passed the test, the offset is the one that
`Key_calculate_offset` returned, and the encoder, the order and the decoder are
built from the base and that offset. -/
theorem Key_call_parts (data : list) (K : Key) (h : Key_call data = some K) :
    2 ≤ data.length ∧ 2 ≤ (data.headD []).length ∧ (data.headD []).Nodup ∧
    ∃ o axes,
      Key_calculate_offset data (data.length - 1) (data.headD []) (data.headD []).length =
        some o ∧
      o < (data.headD []).length ∧
      Key_calculate_axes data (data.length - 1) (data.headD []) (data.headD []).length =
        some axes ∧
      K = { data := data, prefix_len := data.length - 1, base := data.headD [],
            size := (data.headD []).length, encoder := (data.headD []).rotate o,
            axes := axes, order := bytes_sort (data.headD []),
            decoder := decoder_grid (data.headD []) (bytes_sort (data.headD []))
              (data.headD []).length o } := by
  rw [Key_call] at h
  cases ht : Key_test_data data with
  | none => rw [ht] at h; simp at h
  | some u =>
    obtain ⟨hlen, hb0, hb2, hbnd⟩ := Key_test_data_first data ht
    have h256 := nodup_length_le_256 _ hbnd
    rw [ht] at h
    simp only [Option.bind_eq_bind, Option.some_bind, Key_make_vars, list_len, list_getitem,
      hb0, bytes_len, bytes_deepcopy] at h
    cases ho : Key_calculate_offset data (data.length - 1) (data.headD [])
        (data.headD []).length with
    | none => rw [ho] at h; simp at h
    | some o =>
      have hlt := Key_calculate_offset_lt data (data.length - 1) (data.headD [])
        (data.headD []).length o (by omega) h256 ho
      rw [ho] at h
      simp only [Option.some_bind, bytes_rotate_eq _ _ hlt] at h
      cases ha : Key_calculate_axes data (data.length - 1) (data.headD [])
          (data.headD []).length with
      | none => rw [ha] at h; simp at h
      | some axes =>
        have hdec := Key_calculate_decoder_eq (data.headD []) (bytes_sort (data.headD []))
          (data.headD []).length o (by omega) h256 rfl (bytes_sort_length _)
          (fun b hb => (mem_bytes_sort _ b).2 hb)
        rw [ha] at h
        simp only [Option.some_bind, hdec, pure, Option.some.injEq] at h
        exact ⟨hlen, hb2, hbnd, o, axes, rfl, hlt, rfl, h.symm⟩

/-- For a list of more than `2 ^ 15 + 1` blocks (and at most `2 ^ 16`),
`Key_call` tests the first block only and returns the tables of
`key_tables_cut`. -/
theorem Key_call_cut (data : list) (K : Key) (h0 : 32770 ≤ data.length)
    (h1 : data.length ≤ 65536) :
    Key_call data = some K ↔
      (2 ≤ (data.headD []).length ∧ (data.headD []).Nodup) ∧ K = key_tables_cut data := by
  match data, h0, h1 with
  | [], h0, _ => simp at h0
  | x :: rest, h0, h1 =>
    have hl0 : 32769 ≤ rest.length := by simpa using h0
    have hl1 : rest.length ≤ 65535 := by simpa using h1
    have htest := Key_test_data_cut x rest (by omega) hl1
    have hvars : 2 ≤ x.length → x.Nodup →
        Key_make_vars (x :: rest) = some (key_tables_cut (x :: rest)) := by
      intro hx2 hxnd
      have h256 := nodup_length_le_256 _ hxnd
      have hoff := Key_calculate_offset_cut (x :: rest) rest.length x x.length (by omega)
        (by omega) (by omega)
      have haxes := Key_calculate_axes_cut (x :: rest) rest.length x x.length (by omega) hl1
      have hdec := Key_calculate_decoder_eq x (bytes_sort x) x.length 0 (by omega) h256 rfl
        (bytes_sort_length _) (fun b hb => (mem_bytes_sort _ b).2 hb)
      have hrot := bytes_rotate_eq x 0 (by omega)
      simp only [Key_make_vars, list_len, list_getitem, List.getElem?_cons_zero,
        Option.bind_eq_bind, Option.some_bind, bytes_len, bytes_deepcopy, List.length_cons,
        Nat.add_sub_cancel, hoff, hrot, haxes, hdec, List.rotate_zero]
      rfl
    rw [Key_call]
    constructor
    · intro h
      cases ht : Key_test_data (x :: rest) with
      | none => rw [ht] at h; simp at h
      | some u =>
        obtain ⟨hx2, hxnd⟩ := htest.1 ht
        rw [ht, hvars hx2 hxnd] at h
        simp only [Option.bind_eq_bind, Option.some_bind, Option.some.injEq] at h
        exact ⟨⟨hx2, hxnd⟩, h.symm⟩
    · rintro ⟨⟨hx2, hxnd⟩, rfl⟩
      rw [htest.2 ⟨hx2, hxnd⟩, hvars hx2 hxnd]
      rfl

/-! ## The tables of a processor -/

theorem fin_ofNat_val (i : Nat) (h : i < 256) : ((Fin.ofNat i : byte)).val = i := by
  simp [Fin.ofNat, Nat.mod_eq_of_lt h]

theorem encoder_fold_keys (l : bytes) (k : Nat) (d : dict) (v : byte) :
    ((l.enumFrom k).foldl
      (fun (encoder : dict) (entry : Nat × byte) =>
        dict_setitem encoder entry.2 (Fin.ofNat entry.1)) d).keys.member v =
      (d.keys.member v || decide (v ∈ l)) := by
  induction l generalizing k d with
  | nil => simp
  | cons a l ih =>
    rw [List.enumFrom_cons, List.foldl_cons, ih]
    by_cases h : v = a
    · simp [dict_setitem, set_add, h]
    · have h2 : ¬ a = v := fun e => h e.symm
      simp [dict_setitem, set_add, h, h2]

theorem encoder_fold_values_of_not_mem (l : bytes) (k : Nat) (d : dict) (v : byte)
    (h : v ∉ l) :
    ((l.enumFrom k).foldl
      (fun (encoder : dict) (entry : Nat × byte) =>
        dict_setitem encoder entry.2 (Fin.ofNat entry.1)) d).values v = d.values v := by
  induction l generalizing k d with
  | nil => rfl
  | cons a l ih =>
    rw [List.enumFrom_cons, List.foldl_cons, ih _ _ (fun hm => h (List.mem_cons_of_mem _ hm))]
    have h2 : ¬ v = a := fun e => h (e ▸ List.mem_cons_self _ _)
    simp [dict_setitem, h2]

theorem encoder_fold_values (l : bytes) (k : Nat) (d : dict) (v : byte) (hnd : l.Nodup)
    (h : v ∈ l) :
    ((l.enumFrom k).foldl
      (fun (encoder : dict) (entry : Nat × byte) =>
        dict_setitem encoder entry.2 (Fin.ofNat entry.1)) d).values v =
      Fin.ofNat (k + List.indexOf v l) := by
  induction l generalizing k d with
  | nil => cases h
  | cons a l ih =>
    rw [List.enumFrom_cons, List.foldl_cons]
    rw [List.nodup_cons] at hnd
    by_cases e : v = a
    · subst e
      rw [encoder_fold_values_of_not_mem _ _ _ _ hnd.1]
      simp [dict_setitem]
    · have hm : v ∈ l := by
        rcases List.mem_cons.mp h with h | h
        · exact absurd h e
        · exact h
      rw [ih _ _ hnd.2 hm, List.indexOf_cons_ne _ (fun e2 => e e2.symm)]
      congr 1
      omega

theorem encoder_dict_contains (order : bytes) (v : byte) :
    dict_contains (encoder_dict order) v = decide (v ∈ order) := by
  simp [dict_contains, set_contains, encoder_dict, List.enum, encoder_fold_keys, dict_call,
    set_call]

theorem encoder_dict_getitem (order : bytes) (hnd : order.Nodup) (v : byte) :
    dict_getitem (encoder_dict order) v =
      if v ∈ order then some (code_of order v) else none := by
  have hc := encoder_dict_contains order v
  rw [dict_contains] at hc
  rw [dict_getitem, hc]
  by_cases h : v ∈ order
  · have := encoder_fold_values order 0 dict_call v hnd h
    simp only [Nat.zero_add] at this
    simp [h, encoder_dict, List.enum, this, code_of]
  · simp [h]

theorem code_of_val (order : bytes) (hnd : order.Nodup) (v : byte) (h : v ∈ order) :
    (code_of order v).val = List.indexOf v order := by
  have h1 := List.indexOf_lt_length.mpr h
  have h2 := nodup_length_le_256 order hnd
  rw [code_of, fin_ofNat_val _ (by omega)]

theorem code_of_lt (order : bytes) (hnd : order.Nodup) (v : byte) (h : v ∈ order) :
    (code_of order v).val < order.length := by
  rw [code_of_val order hnd v h]
  exact List.indexOf_lt_length.mpr h

theorem getElem_code_of (order : bytes) (hnd : order.Nodup) (v : byte) (h : v ∈ order) :
    order[(code_of order v).val]? = some v := by
  rw [code_of_val order hnd v h, List.getElem?_eq_getElem (List.indexOf_lt_length.mpr h)]
  simp

theorem code_of_getElem (order : bytes) (hnd : order.Nodup) (i : Nat) (h : i < order.length) :
    code_of order order[i] = Fin.ofNat i := by
  rw [code_of, List.indexOf_getElem hnd]

theorem reversed_fold_keys (items : List (byte × byte)) (d : dict) (c : byte) :
    (items.foldl (fun (r : dict) (it : byte × byte) => dict_setitem r it.2 it.1) d).keys.member c =
      (d.keys.member c || decide (c ∈ items.map Prod.snd)) := by
  induction items generalizing d with
  | nil => simp
  | cons a l ih =>
    rw [List.foldl_cons, ih]
    by_cases h : c = a.2
    · simp [dict_setitem, set_add, h]
    · have h2 : ¬ a.2 = c := fun e => h e.symm
      simp [dict_setitem, set_add, h, h2]

theorem reversed_fold_values_of_not_mem (items : List (byte × byte)) (d : dict) (c : byte)
    (h : c ∉ items.map Prod.snd) :
    (items.foldl (fun (r : dict) (it : byte × byte) => dict_setitem r it.2 it.1) d).values c =
      d.values c := by
  induction items generalizing d with
  | nil => rfl
  | cons a l ih =>
    rw [List.map_cons, List.mem_cons, not_or] at h
    rw [List.foldl_cons, ih _ h.2]
    simp [dict_setitem, h.1]

theorem reversed_fold_values (items : List (byte × byte)) (d : dict)
    (hd : (items.map Prod.snd).Nodup) :
    ∀ it ∈ items,
      (items.foldl (fun (r : dict) (it : byte × byte) => dict_setitem r it.2 it.1) d).values it.2 =
        it.1 := by
  induction items generalizing d with
  | nil => intro it h; cases h
  | cons a l ih =>
    intro it hit
    rw [List.map_cons, List.nodup_cons] at hd
    rw [List.foldl_cons]
    rcases List.mem_cons.mp hit with e | hm
    · subst e
      rw [reversed_fold_values_of_not_mem _ _ _ hd.1]
      simp [dict_setitem]
    · exact ih _ hd.2 it hm

theorem dict_reversed_foldlM (items : List (byte × byte)) (d : dict)
    (hd : (items.map Prod.snd).Nodup) (hnot : ∀ it ∈ items, d.keys.member it.2 = false) :
    items.foldlM
      (fun (reversed : dict) (item : byte × byte) =>
        if set_contains reversed.keys item.2 then none
        else some (dict_setitem reversed item.2 item.1)) d =
      some (items.foldl (fun (r : dict) (it : byte × byte) => dict_setitem r it.2 it.1) d) := by
  induction items generalizing d with
  | nil => rfl
  | cons a l ih =>
    rw [List.map_cons, List.nodup_cons] at hd
    rw [List.foldlM_cons, List.foldl_cons]
    have h1 : set_contains d.keys a.2 = false := hnot a (List.mem_cons_self _ _)
    simp only [h1, Bool.false_eq_true, if_false, Option.bind_eq_bind, Option.some_bind]
    apply ih _ hd.2
    intro it hit
    have hne : ¬ it.2 = a.2 := by
      intro e
      exact hd.1 (e ▸ List.mem_map_of_mem Prod.snd hit)
    simp [dict_setitem, set_add, hne, hnot it (List.mem_cons_of_mem _ hit)]

/-- The loop of `dict_values`: a write position kept in a `byte`. -/
theorem foldlM_fill_counter (xs : List (byte × byte)) (pre post : bytes)
    (h : xs.length ≤ post.length) (h256 : pre.length + xs.length ≤ 256) :
    xs.foldlM
      (fun (state : bytes × Nat) (item : byte × byte) =>
        (bytes_setitem state.1 state.2 item.2).map
          (fun values => (values, (state.2 + 1) % 256)))
      (pre ++ post, pre.length % 256) =
      some (pre ++ xs.map Prod.snd ++ post.drop xs.length, (pre.length + xs.length) % 256) := by
  induction xs generalizing pre post with
  | nil => simp
  | cons x xs ih =>
    match post, h with
    | old :: post, h =>
      have h256b : pre.length + (xs.length + 1) ≤ 256 := by simpa using h256
      have hmod : pre.length % 256 = pre.length := Nat.mod_eq_of_lt (by omega)
      rw [List.foldlM_cons, hmod]
      have hs : bytes_setitem (pre ++ old :: post) pre.length x.2 = some ((pre ++ [x.2]) ++ post) :=
        set_append_middle pre post old x.2
      simp only [hs, Option.map_some', Option.bind_eq_bind, Option.some_bind]
      have hl : pre.length + 1 = (pre ++ [x.2]).length := by simp
      rw [hl, ih (pre ++ [x.2]) post (by simpa using h) (by simp; omega)]
      simp [Nat.add_assoc, Nat.add_comm 1]

theorem eq_of_sorted_lt_of_mem_iff (l1 l2 : bytes) (h1 : l1.Sorted (fun x y => x < y))
    (h2 : l2.Sorted (fun x y => x < y)) (h : ∀ b, b ∈ l1 ↔ b ∈ l2) : l1 = l2 :=
  List.eq_of_perm_of_sorted ((List.perm_ext_iff_of_nodup h1.nodup h2.nodup).2 h) h1 h2

theorem sorted_lt_of_sorted_nodup (l : bytes) (h1 : l.Sorted (fun x y => x ≤ y)) (h2 : l.Nodup) :
    l.Sorted (fun x y => x < y) :=
  h1.lt_of_le h2

theorem set_members_encoder_dict (order : bytes) (hs : order.Sorted (fun x y => x ≤ y))
    (hnd : order.Nodup) : set_members (encoder_dict order).keys = order := by
  apply eq_of_sorted_lt_of_mem_iff _ _ (set_members_sorted _) (sorted_lt_of_sorted_nodup _ hs hnd)
  intro b
  rw [mem_set_members]
  have := encoder_dict_contains order b
  rw [dict_contains, set_contains] at this
  rw [this]
  simp

theorem dict_items_encoder_dict (order : bytes) (hs : order.Sorted (fun x y => x ≤ y))
    (hnd : order.Nodup) :
    dict_items (encoder_dict order) = order.map (fun v => (v, code_of order v)) := by
  rw [dict_items, set_members_encoder_dict order hs hnd]
  apply List.map_congr_left
  intro v hv
  have := encoder_dict_getitem order hnd v
  rw [dict_getitem, if_pos hv] at this
  have hc := encoder_dict_contains order v
  rw [dict_contains] at hc
  rw [hc] at this
  simp only [hv, decide_True, if_true, Option.some.injEq] at this
  rw [this]

theorem codes_eq_range (order : bytes) (hnd : order.Nodup) :
    order.map (code_of order) = (List.range order.length).map (fun i => (Fin.ofNat i : byte)) := by
  apply List.ext_getElem
  · simp
  · intro i h1 h2
    simp only [List.getElem_map, List.getElem_range]
    exact code_of_getElem order hnd i (by simpa using h1)

theorem codes_sorted (n : Nat) (h : n ≤ 256) :
    ((List.range n).map (fun i => (Fin.ofNat i : byte))).Sorted (fun x y => x < y) := by
  rw [List.Sorted, List.pairwise_map]
  apply (List.pairwise_lt_range n).imp_of_mem
  intro a b ha hb hab
  have ha2 : a < n := List.mem_range.mp ha
  have hb2 : b < n := List.mem_range.mp hb
  rw [Fin.lt_def, fin_ofNat_val a (by omega), fin_ofNat_val b (by omega)]
  exact hab

/-- The dictionary that `dict_reversed` returns for the encoder of a processor. -/
theorem dict_reversed_encoder_dict (order : bytes) (hs : order.Sorted (fun x y => x ≤ y))
    (hnd : order.Nodup) :
    ∃ R : dict, dict_reversed (encoder_dict order) = some R ∧
      set_members R.keys = order.map (code_of order) ∧
      ∀ v ∈ order, R.values (code_of order v) = v := by
  have h256 := nodup_length_le_256 order hnd
  have hcodes : ((order.map (fun v => (v, code_of order v))).map Prod.snd) =
      order.map (code_of order) := by
    rw [List.map_map]; rfl
  have hcnd : (order.map (code_of order)).Nodup := by
    rw [codes_eq_range order hnd]
    exact (codes_sorted _ h256).nodup
  refine ⟨(order.map (fun v => (v, code_of order v))).foldl
    (fun (r : dict) (it : byte × byte) => dict_setitem r it.2 it.1) dict_call, ?_, ?_, ?_⟩
  · rw [dict_reversed, dict_items_encoder_dict order hs hnd]
    apply dict_reversed_foldlM
    · rw [hcodes]; exact hcnd
    · intro it _
      rfl
  · apply eq_of_sorted_lt_of_mem_iff _ _ (set_members_sorted _)
    · rw [codes_eq_range order hnd]
      exact codes_sorted _ h256
    · intro b
      rw [mem_set_members, reversed_fold_keys, hcodes]
      simp [dict_call, set_call]
  · intro v hv
    have := reversed_fold_values (order.map (fun v => (v, code_of order v))) dict_call
      (by rw [hcodes]; exact hcnd) (v, code_of order v) (List.mem_map_of_mem _ hv)
    exact this

theorem dict_values_reversed (order : bytes) (hnd : order.Nodup) (R : dict)
    (hk : set_members R.keys = order.map (code_of order))
    (hv : ∀ v ∈ order, R.values (code_of order v) = v) :
    dict_values R = some order := by
  have h256 := nodup_length_le_256 order hnd
  have hlen : set_len R.keys = order.length := by
    rw [set_len_eq_length, hk, List.length_map]
  have hitems : (dict_items R).map Prod.snd = order := by
    rw [dict_items, hk, List.map_map, List.map_map]
    conv_rhs => rw [← List.map_id order]
    apply List.map_congr_left
    intro v hv2
    exact hv v hv2
  have hil : (dict_items R).length = order.length := by
    rw [← hitems, List.length_map]
  have := foldlM_fill_counter (dict_items R) [] (bytes_call (set_len R.keys))
    (by simp [bytes_call, hlen, hil]) (by simp [hil]; omega)
  rw [List.nil_append, List.length_nil, Nat.zero_mod, List.nil_append, Nat.zero_add, hitems]
    at this
  rw [dict_values, this, Option.map_some']
  have hd : List.drop (dict_items R).length (bytes_call (set_len R.keys)) = [] := by
    apply List.drop_of_length_le
    rw [bytes_call, List.length_replicate, hlen, hil]
  rw [hd, List.append_nil]

theorem Primer_test_key_iff (vector : Primer) (primary : Key) :
    Primer_test_key vector primary = some () ↔ Compatible primary vector := by
  simp only [Primer_test_key, Option.bind_eq_bind, assert_bind_eq_some, decide_eq_true_eq,
    assert_eq_some, set_issubset_from_bytes_iff, bytes_len, Key_get_prefix_len, Key_get_base,
    Compatible]

theorem Primer_test_key_eq_none_iff (vector : Primer) (primary : Key) :
    Primer_test_key vector primary = none ↔ ¬ Compatible primary vector := by
  rw [← Primer_test_key_iff]
  cases Primer_test_key vector primary <;> simp

theorem _Processor_call_of_compatible (primary : Key) (vector : Primer)
    (hs : primary.order.Sorted (fun x y => x ≤ y)) (hnd : primary.order.Nodup)
    (hmem : ∀ b, b ∈ primary.base ↔ b ∈ primary.order) (hc : Compatible primary vector) :
    _Processor_call primary vector = some (processor_tables primary vector) := by
  have ht := (Primer_test_key_iff vector primary).2 hc
  obtain ⟨R, hR, hk, hv⟩ := dict_reversed_encoder_dict primary.order hs hnd
  have hvals := dict_values_reversed primary.order hnd R hk hv
  have hfill := foldlM_fill vector.data (dict_getitem (encoder_dict primary.order))
    (fun (buffer : bytes) (entry : Nat × byte) =>
      (dict_getitem (encoder_dict primary.order) entry.2).bind fun code =>
        bytes_setitem buffer entry.1 code)
    (fun _ _ => rfl) [] (bytes_call primary.prefix_len)
    (by simp [bytes_call, hc.1])
  have hmap : vector.data.mapM (dict_getitem (encoder_dict primary.order)) =
      some (vector.data.map (code_of primary.order)) := by
    apply mapM_eq_some_map
    intro x hx
    rw [encoder_dict_getitem _ hnd, if_pos ((hmem x).1 (hc.2 x hx))]
  rw [hmap] at hfill
  simp only [List.length_nil, List.nil_append, Option.map_some'] at hfill
  have hd : List.drop vector.data.length (bytes_call primary.prefix_len) = [] := by
    apply List.drop_of_length_le
    rw [bytes_call, List.length_replicate, hc.1]
  rw [hd, List.append_nil] at hfill
  simp only [_Processor_call, Key_test_primer, ht, Option.bind_eq_bind, Option.some_bind,
    Key_get_order, Primer_get_data, Key_get_prefix_len]
  rw [← encoder_dict]
  simp only [List.enum]
  rw [hfill]
  simp only [Option.some_bind, hR, hvals]
  rfl

theorem _Processor_call_of_not_compatible (primary : Key) (vector : Primer)
    (hc : ¬ Compatible primary vector) : _Processor_call primary vector = none := by
  have ht := (Primer_test_key_eq_none_iff vector primary).2 hc
  simp [_Processor_call, Key_test_primer, ht]

/-! ## `_Processor_process` byte by byte -/

theorem Encrypter_convert_eq (encoder : dict) (value : byte) (primary : Key) (prefix_ : deque)
    (cache : bytes) (offset : Nat) :
    Encrypter_convert encoder value primary prefix_ cache offset =
      (Encrypter_step encoder primary prefix_ value).bind fun r =>
        (bytes_setitem cache offset r.1).map fun c => (r.2, c) := by
  simp only [Encrypter_convert, Encrypter_step, Option.bind_eq_bind, pure]
  cases dict_getitem encoder value with
  | none => rfl
  | some code =>
    simp only [Option.some_bind]
    cases Key_encode primary prefix_ code with
    | none => rfl
    | some output =>
      simp only [Option.some_bind]
      cases h1 : bytes_setitem cache offset output <;> cases h2 : deque_append prefix_ code <;>
        simp [h1]

theorem Decrypter_convert_eq (encoder : dict) (value : byte) (primary : Key) (prefix_ : deque)
    (cache : bytes) (offset : Nat) :
    Decrypter_convert encoder value primary prefix_ cache offset =
      (Decrypter_step encoder primary prefix_ value).bind fun r =>
        (bytes_setitem cache offset r.1).map fun c => (r.2, c) := by
  simp only [Decrypter_convert, Decrypter_step, Option.bind_eq_bind, pure]
  cases dict_getitem encoder value with
  | none => rfl
  | some index =>
    simp only [Option.some_bind]
    cases Key_decode primary prefix_ index with
    | none => rfl
    | some code =>
      simp only [Option.some_bind]
      cases h1 : bytes_setitem cache offset code <;> cases h2 : dict_getitem encoder code with
      | none => simp
      | some next => cases h3 : deque_append prefix_ next <;> simp [h1, h3]

theorem process_fold_eq_run (step : deque → byte → Option (byte × deque))
    (contains : byte → Bool) (body : deque × bytes → Nat × byte → Option (deque × bytes))
    (hbody : ∀ st e, body st e =
      if contains e.2 then
        (step st.1 e.2).bind fun r => (bytes_setitem st.2 e.1 r.1).map fun c => (r.2, c)
      else (bytes_setitem st.2 e.1 e.2).map fun c => (st.1, c))
    (rest : bytes) (d : deque) (pre post : bytes) (h : rest.length ≤ post.length) :
    (rest.enumFrom pre.length).foldlM body (d, pre ++ post) =
      (run step contains d rest).map fun r => (r.2, pre ++ r.1 ++ post.drop rest.length) := by
  induction rest generalizing d pre post with
  | nil => simp [run]
  | cons v rest ih =>
    match post, h with
    | old :: post, h =>
      have hs : ∀ x : byte, bytes_setitem (pre ++ old :: post) pre.length x =
          some ((pre ++ [x]) ++ post) := fun x => set_append_middle pre post old x
      have hl : ∀ x : byte, pre.length + 1 = (pre ++ [x]).length := by simp
      rw [List.enumFrom_cons, List.foldlM_cons, hbody, run]
      by_cases hc : contains v = true
      · simp only [hc, if_true]
        cases hstep : step d v with
        | none => simp
        | some r =>
          simp only [Option.some_bind, hs, Option.map_some', Option.bind_eq_bind]
          rw [hl r.1, ih r.2 (pre ++ [r.1]) post (by simpa using h)]
          cases run step contains r.2 rest <;> simp
      · simp only [hc, if_false, hs, Option.map_some', Option.bind_eq_bind, Option.some_bind,
          Bool.false_eq_true]
        rw [hl v, ih d (pre ++ [v]) post (by simpa using h)]
        cases run step contains d rest <;> simp

theorem _Processor_process_eq_run (self : _Processor) (data : bytes) (converter : Converter)
    (step : deque → byte → Option (byte × deque))
    (hconv : ∀ value prefix_ cache offset,
      converter self.encoder value self.primary prefix_ cache offset =
        (step prefix_ value).bind fun r => (bytes_setitem cache offset r.1).map fun c => (r.2, c)) :
    _Processor_process self data converter =
      (run step (dict_contains self.encoder) self.prefix_ data).map
        fun r => (r.1, { self with prefix_ := r.2 }) := by
  have := process_fold_eq_run step (dict_contains self.encoder)
    (fun (state : deque × bytes) (entry : Nat × byte) =>
      if dict_contains self.encoder entry.2 then
        converter self.encoder entry.2 self.primary state.1 state.2 entry.1
      else
        (bytes_setitem state.2 entry.1 entry.2).map (fun cache => (state.1, cache)))
    (fun st e => by
      by_cases hc : dict_contains self.encoder e.2 = true
      · simp only [hc, if_true, hconv]
      · simp only [hc, if_false, Bool.false_eq_true])
    data self.prefix_ [] (bytes_call (bytes_len data)) (by simp [bytes_call, bytes_len])
  simp only [List.length_nil, List.nil_append] at this
  simp only [_Processor_process, List.enum, Option.bind_eq_bind, pure, this]
  have hd : List.drop data.length (bytes_call (bytes_len data)) = [] := by
    apply List.drop_of_length_le
    simp [bytes_call, bytes_len]
  cases run step (dict_contains self.encoder) self.prefix_ data with
  | none => rfl
  | some r => simp [hd]

theorem Encrypter_process_eq_run (self : _Processor) (data : bytes) :
    Encrypter_process self data =
      (run (Encrypter_step self.encoder self.primary) (dict_contains self.encoder)
        self.prefix_ data).map fun r => (r.1, { self with prefix_ := r.2 }) :=
  _Processor_process_eq_run self data Encrypter_convert _
    (fun value prefix_ cache offset => Encrypter_convert_eq _ value _ prefix_ cache offset)

theorem Decrypter_process_eq_run (self : _Processor) (data : bytes) :
    Decrypter_process self data =
      (run (Decrypter_step self.encoder self.primary) (dict_contains self.encoder)
        self.prefix_ data).map fun r => (r.1, { self with prefix_ := r.2 }) :=
  _Processor_process_eq_run self data Decrypter_convert _
    (fun value prefix_ cache offset => Decrypter_convert_eq _ value _ prefix_ cache offset)

/-! ## The prefix as a sliding window -/

theorem deque_items_eq (d : deque) : deque_items d = some (deque_view d) := by
  rw [deque_items, deque_view]
  have hm : ∀ k ∈ List.range (bytes_len d.buffer),
      bytes_getitem d.buffer ((d.offset + k) % bytes_len d.buffer) =
        some ((d.buffer.rotate d.offset).getD k 0) := by
    intro k hk
    have hk2 : k < d.buffer.length := List.mem_range.mp hk
    have hk3 : k < (d.buffer.rotate d.offset).length := by rw [List.length_rotate]; exact hk2
    rw [bytes_getitem, List.getD_eq_getElem _ _ hk3, List.getElem_rotate, bytes_len,
      Nat.add_comm k, List.getElem?_eq_getElem]
  rw [mapM_eq_some_map _ _ _ hm]
  congr 1
  apply List.ext_getElem
  · simp [bytes_len]
  · intro i h1 h2
    simp only [List.getElem_map, List.getElem_range]
    rw [List.getD_eq_getElem _ _ h2]

theorem deque_view_length (d : deque) : (deque_view d).length = d.buffer.length := by
  rw [deque_view, List.length_rotate]

theorem deque_view_call (buffer : bytes) : deque_view (deque_call buffer) = buffer := by
  simp [deque_view, deque_call]

theorem deque_valid_call (buffer : bytes) : deque_valid (deque_call buffer) := by
  cases buffer with
  | nil => right; exact ⟨rfl, rfl⟩
  | cons a t => left; simp [deque_call]

theorem mem_deque_view (d : deque) (b : byte) : b ∈ deque_view d ↔ b ∈ d.buffer := by
  rw [deque_view, List.mem_rotate]

/-- `deque_append` drops the oldest entry and adds the new one as the newest. -/
theorem deque_append_view (d : deque) (v : byte) (hv : deque_valid d) :
    ∃ d2, deque_append d v = some d2 ∧ deque_valid d2 ∧
      d2.buffer.length = d.buffer.length ∧
      deque_view d2 = if d.buffer = [] then [] else (deque_view d).drop 1 ++ [v] := by
  rcases hv with hlt | ⟨he, ho⟩
  · have hne : d.buffer ≠ [] := by
      intro e; rw [e] at hlt; simp at hlt
    have hb : bytes_bool d.buffer = true := by simp [bytes_bool]; omega
    refine ⟨{ buffer := d.buffer.set d.offset v,
              offset := (d.offset + 1) % d.buffer.length }, ?_, ?_, ?_, ?_⟩
    · simp [deque_append, hb, bytes_setitem, hlt, bytes_len]
    · left
      simp only [List.length_set]
      exact Nat.mod_lt _ (by omega)
    · simp
    · simp only [deque_view, hne, if_false]
      obtain ⟨A, x, B, hAB, hA⟩ : ∃ A x B, d.buffer = A ++ x :: B ∧ A.length = d.offset := by
        refine ⟨d.buffer.take d.offset, d.buffer[d.offset], d.buffer.drop (d.offset + 1), ?_, ?_⟩
        · rw [List.getElem_cons_drop, List.take_append_drop]
        · rw [List.length_take]; omega
      rw [hAB, ← hA]
      have h1 : (A ++ x :: B).set A.length v = A ++ v :: B := by simp
      have h2 : (A ++ x :: B).rotate A.length = x :: B ++ A := List.rotate_append_length_eq _ _
      rw [h1, h2]
      simp only [List.cons_append, List.drop_succ_cons, List.drop_zero, List.length_append,
        List.length_cons]
      by_cases hB : B = []
      · subst hB
        simp only [List.length_nil, Nat.zero_add, Nat.mod_self, List.rotate_zero, List.nil_append]
      · have hpos : 0 < B.length := List.length_pos.mpr hB
        rw [Nat.mod_eq_of_lt (by omega)]
        have h3 : (A ++ v :: B) = (A ++ [v]) ++ B := by simp
        have h4 : A.length + 1 = (A ++ [v]).length := by simp
        rw [h3, h4, List.rotate_append_length_eq]
        simp
  · refine ⟨d, ?_, Or.inr ⟨he, ho⟩, rfl, ?_⟩
    · simp [deque_append, bytes_bool, he]
    · simp [deque_view, he]

theorem Key_calculate_sum_eq (K : Key) (d : deque) (hlen : d.buffer.length = K.prefix_len)
    (haxes : ∀ k, k < K.prefix_len → ∃ table, K.axes[k]? = some table ∧
      ∀ e ∈ d.buffer, e.val < table.length) :
    Key_calculate_sum K d = some (history_sum K.axes (deque_view d)) := by
  have hsum := foldlM_sum (deque_view d).enum
    (fun entry => ((K.axes.getD entry.1 []).getD entry.2.val 0).val)
    (fun (sum : Nat) (entry : Nat × byte) =>
      (list_getitem K.axes entry.1).bind fun table =>
        (bytes_getitem table entry.2.val).bind fun value => some (sum + value.val))
    (by
      intro s e he
      obtain ⟨i, x⟩ := e
      have hi := (List.mem_enum he).1
      have hx := mem_enum_snd _ _ he
      rw [deque_view_length, hlen] at hi
      obtain ⟨table, ht, hb⟩ := haxes i hi
      have hx2 : x.val < table.length := hb x ((mem_deque_view d x).1 hx)
      have e1 : K.axes.getD i [] = table := by
        rw [List.getD_eq_getElem?_getD, ht]; rfl
      simp only [list_getitem, ht, Option.some_bind, bytes_getitem,
        List.getElem?_eq_getElem hx2, e1, List.getD_eq_getElem _ _ hx2])
    0
  simp only [Key_calculate_sum, deque_len, bytes_len, hlen, decide_True, assert, if_true,
    Option.bind_eq_bind, Option.some_bind, deque_items_eq, pure]
  rw [hsum, Nat.zero_add, history_sum]

/-! ## Shape of the tables -/

theorem mod_add_inj (r a b n : Nat) (ha : a < n) (hb : b < n)
    (h : (r + a) % n = (r + b) % n) : a = b := by
  have h1 : a ≡ b [MOD n] := Nat.ModEq.add_left_cancel' r h
  exact Nat.ModEq.eq_of_lt_of_lt h1 ha hb

theorem decoder_row_writes_pairwise (base order : bytes) (size rotation : Nat)
    (hbase : base.length = size) (horder : order.length = size) (hbnd : base.Nodup)
    (hmem : ∀ b, b ∈ base → b ∈ order) :
    (decoder_row_writes base order size rotation).Pairwise (fun a b => a.1 ≠ b.1) := by
  have hsize : ∀ i, i < order.length → 0 < size := fun i hi => by omega
  rw [decoder_row_writes, List.pairwise_iff_getElem]
  intro i j hi hj hij
  simp only [List.length_map, List.enum_length] at hi hj
  simp only [List.getElem_map, List.getElem_enum]
  intro he
  have hpos : 0 < size := hsize i hi
  have hlt : ∀ k, (rotation + k) % size < base.length := fun k => by
    rw [hbase]; exact Nat.mod_lt _ hpos
  have hin : ∀ k, base.getD ((rotation + k) % size) 0 ∈ order := fun k => by
    apply hmem
    rw [List.getD_eq_getElem _ _ (hlt k)]
    exact List.getElem_mem _
  have h1 := (List.indexOf_inj (hin i) (hin j)).1 he
  rw [List.getD_eq_getElem _ _ (hlt i), List.getD_eq_getElem _ _ (hlt j)] at h1
  have h2 := (List.Nodup.getElem_inj_iff hbnd).1 h1
  have h3 := mod_add_inj rotation i j size (by omega) (by omega) h2
  omega

theorem decoder_row_length (base order : bytes) (size rotation : Nat) :
    (decoder_row base order size rotation).length = size := by
  rw [decoder_row, foldl_set_length, bytes_call, List.length_replicate]

theorem decoder_row_writes_lt (base order : bytes) (size rotation : Nat) (hsize : 0 < size)
    (hbase : base.length = size) (horder : order.length = size)
    (hmem : ∀ b, b ∈ base → b ∈ order) :
    ∀ p ∈ decoder_row_writes base order size rotation, p.1 < (bytes_call size).length := by
  intro p hp
  obtain ⟨e, -, rfl⟩ := List.mem_map.mp hp
  have hlt : (rotation + e.1) % size < base.length := by
    rw [hbase]; exact Nat.mod_lt _ hsize
  have hin : base.getD ((rotation + e.1) % size) 0 ∈ order := by
    apply hmem
    rw [List.getD_eq_getElem _ _ hlt]
    exact List.getElem_mem _
  have hlt2 := List.indexOf_lt_length.mpr hin
  simp only [bytes_call, List.length_replicate]
  omega

theorem decoder_row_mem (base order : bytes) (size rotation : Nat) (hsize : 0 < size)
    (hbase : base.length = size) (horder : order.length = size) (hbnd : base.Nodup)
    (hmem : ∀ b, b ∈ base → b ∈ order) :
    ∀ v ∈ decoder_row base order size rotation, v ∈ order := by
  intro v hv
  obtain ⟨p, hp, rfl⟩ := foldl_set_mem_of_cover (decoder_row_writes base order size rotation)
    (bytes_call size) (decoder_row_writes_pairwise base order size rotation hbase horder hbnd hmem)
    (decoder_row_writes_lt base order size rotation hsize hbase horder hmem)
    (by simp [decoder_row_writes, bytes_call, horder]) v hv
  obtain ⟨e, he, rfl⟩ := List.mem_map.mp hp
  exact mem_enum_snd order e he

theorem decoder_grid_length (base order : bytes) (size offset : Nat) :
    (decoder_grid base order size offset).length = size := by
  rw [decoder_grid, foldl_set_length, list_call, List.length_replicate]

theorem decoder_grid_mem (base order : bytes) (size offset : Nat) (hsize : 0 < size) :
    ∀ row ∈ decoder_grid base order size offset,
      ∃ r, r < size ∧ row = decoder_row base order size r := by
  intro row hrow
  have hpw : ((List.range size).map
      (fun r => ((r + offset) % size, decoder_row base order size r))).Pairwise
      (fun a b => a.1 ≠ b.1) := by
    rw [List.pairwise_iff_getElem]
    intro i j hi hj hij
    simp only [List.length_map, List.length_range] at hi hj
    simp only [List.getElem_map, List.getElem_range]
    intro he
    rw [Nat.add_comm i, Nat.add_comm j] at he
    have := mod_add_inj offset i j size hi hj he
    omega
  obtain ⟨p, hp, rfl⟩ := foldl_set_mem_of_cover _ (list_call size) hpw
    (by
      intro p hp
      obtain ⟨r, -, rfl⟩ := List.mem_map.mp hp
      simp only [list_call, List.length_replicate]
      exact Nat.mod_lt _ hsize)
    (by simp [list_call]) row hrow
  obtain ⟨r, hr, rfl⟩ := List.mem_map.mp hp
  exact ⟨r, List.mem_range.mp hr, rfl⟩

theorem key_tables_wf (data : list) (h : KeyRules data) : KeyWF (key_tables data) := by
  obtain ⟨hb0, hb2, hbnd⟩ := KeyRules_base data h
  have hlen := h.1
  have h256 := nodup_length_le_256 _ hbnd
  refine ⟨?_, hb2, h256, rfl, hbnd, rfl, ?_, ?_, ?_, ?_, ?_, ?_⟩
  · show 1 ≤ data.length - 1
    omega
  · simp [key_tables]
  · intro table ht
    simp only [key_tables, List.mem_map, List.mem_range] at ht
    obtain ⟨j, hj, rfl⟩ := ht
    obtain ⟨block, e1, e2, -, -, -⟩ := KeyRules_blocks data h (data.length - 1 - j) (by omega)
    have e3 : data.getD (data.length - 1 - j) [] = block := by
      rw [List.getD_eq_getElem?_getD, e1]; rfl
    rw [e3, axes_table, List.length_map, e2]
    rfl
  · simp [key_tables, List.length_rotate]
  · intro v hv
    simp only [key_tables, List.mem_rotate] at hv
    exact hv
  · exact decoder_grid_length _ _ _ _
  · intro row hrow
    obtain ⟨r, -, rfl⟩ := decoder_grid_mem _ _ _ _ (by omega) row hrow
    refine ⟨decoder_row_length _ _ _ _, ?_⟩
    intro v hv
    have := decoder_row_mem (data.headD []) (bytes_sort (data.headD [])) (data.headD []).length r
      (by omega) rfl (bytes_sort_length _) hbnd (fun b hb => (mem_bytes_sort _ b).2 hb) v hv
    exact (mem_bytes_sort _ v).1 this

theorem Key_call_wf (data : list) (K : Key) (hn : data.length ≤ 32768)
    (h : Key_call data = some K) : KeyWF K := by
  obtain ⟨hr, rfl⟩ := (Key_call_eq_some_iff data K hn).1 h
  exact key_tables_wf data hr

theorem KeyWF_base (K : Key) (h : KeyWF K) : KeyBase K := by
  obtain ⟨h1, h2, h3, h4, h5, h6, -, -, h7, h8, h9, h10⟩ := h
  exact ⟨h1, h2, h3, h4, h5, h6, h7, h8, h9, h10⟩

/-- Every key that `Key_call` returned has the base, the order, the encoder
and the decoder of a well-formed key, whatever the number of its blocks. -/
theorem Key_call_base (data : list) (K : Key) (h : Key_call data = some K) : KeyBase K := by
  obtain ⟨hlen, hb2, hbnd, o, axes, -, hlt, -, rfl⟩ := Key_call_parts data K h
  have h256 := nodup_length_le_256 _ hbnd
  refine ⟨?_, hb2, h256, rfl, hbnd, rfl, ?_, ?_, ?_, ?_⟩
  · show 1 ≤ data.length - 1
    omega
  · simp [List.length_rotate]
  · intro v hv
    simp only [List.mem_rotate] at hv
    exact hv
  · exact decoder_grid_length _ _ _ _
  · intro row hrow
    obtain ⟨r, -, rfl⟩ := decoder_grid_mem _ _ _ _ (by omega) row hrow
    refine ⟨decoder_row_length _ _ _ _, ?_⟩
    intro v hv
    have := decoder_row_mem (data.headD []) (bytes_sort (data.headD [])) (data.headD []).length r
      (by omega) rfl (bytes_sort_length _) hbnd (fun b hb => (mem_bytes_sort _ b).2 hb) v hv
    exact (mem_bytes_sort _ v).1 this

/-! ## One recognised byte -/

theorem KeyBase_order (K : Key) (h : KeyBase K) :
    K.order.Nodup ∧ K.order.Sorted (fun x y => x ≤ y) ∧ K.order.length = K.size ∧
      ∀ b, b ∈ K.base ↔ b ∈ K.order := by
  obtain ⟨-, -, -, hlen, hnd, hord, -⟩ := h
  rw [hord]
  exact ⟨bytes_sort_nodup _ hnd, bytes_sort_sorted _, by rw [bytes_sort_length, hlen],
    fun b => (mem_bytes_sort _ b).symm⟩

theorem KeyWF_order (K : Key) (h : KeyWF K) :
    K.order.Nodup ∧ K.order.Sorted (fun x y => x ≤ y) ∧ K.order.length = K.size ∧
      ∀ b, b ∈ K.base ↔ b ∈ K.order :=
  KeyBase_order K (KeyWF_base K h)

theorem Key_calculate_sum_congr (K : Key) (d1 d2 : deque)
    (h : deque_view d1 = deque_view d2) : Key_calculate_sum K d1 = Key_calculate_sum K d2 := by
  have hl : deque_len d1 = deque_len d2 := by
    rw [deque_len, deque_len, bytes_len, bytes_len, ← deque_view_length, ← deque_view_length, h]
  simp only [Key_calculate_sum, hl, deque_items_eq, h]

theorem Key_encode_congr (K : Key) (d1 d2 : deque) (c : byte)
    (h : deque_view d1 = deque_view d2) : Key_encode K d1 c = Key_encode K d2 c := by
  simp only [Key_encode, Key_calculate_sum_congr K d1 d2 h]

theorem Key_decode_congr (K : Key) (d1 d2 : deque) (c : byte)
    (h : deque_view d1 = deque_view d2) : Key_decode K d1 c = Key_decode K d2 c := by
  simp only [Key_decode, Key_calculate_sum_congr K d1 d2 h]

theorem Key_calculate_sum_of_inv (K : Key) (d : deque) (hK : KeyWF K) (hd : PrefixInv K d) :
    Key_calculate_sum K d = some (history_sum K.axes (deque_view d)) := by
  obtain ⟨-, -, -, -, -, -, hal, hat, -⟩ := hK
  obtain ⟨-, hlen, hent⟩ := hd
  apply Key_calculate_sum_eq K d hlen
  intro k hk
  have hk2 : k < K.axes.length := by omega
  refine ⟨K.axes[k], List.getElem?_eq_getElem hk2, ?_⟩
  intro e he
  rw [hat _ (List.getElem_mem hk2)]
  exact hent e he

theorem Key_encode_of_inv (K : Key) (d : deque) (c : byte) (hK : KeyWF K)
    (hd : PrefixInv K d) :
    ∃ o, Key_encode K d c = some o ∧ o ∈ K.base ∧
      K.encoder[(history_sum K.axes (deque_view d) + c.val) % K.size]? = some o := by
  have hsum := Key_calculate_sum_of_inv K d hK hd
  obtain ⟨-, h2, -, -, -, -, -, -, hel, hem, -⟩ := hK
  have hlt : (history_sum K.axes (deque_view d) + c.val) % K.size < K.encoder.length := by
    rw [hel]; exact Nat.mod_lt _ (by omega)
  have hne : decide (K.size ≠ 0) = true := by simp; omega
  refine ⟨K.encoder[(history_sum K.axes (deque_view d) + c.val) % K.size], ?_,
    hem _ (List.getElem_mem hlt), List.getElem?_eq_getElem hlt⟩
  simp only [Key_encode, hsum, Option.bind_eq_bind, Option.some_bind, hne, assert, if_true,
    bytes_getitem, List.getElem?_eq_getElem hlt]

theorem Key_decode_of_inv (K : Key) (d : deque) (c : byte) (hK : KeyWF K)
    (hd : PrefixInv K d) (hc : c.val < K.size) :
    ∃ o, Key_decode K d c = some o ∧ o ∈ K.base ∧
      (K.decoder.getD (history_sum K.axes (deque_view d) % K.size) [])[c.val]? = some o := by
  have hsum := Key_calculate_sum_of_inv K d hK hd
  obtain ⟨-, h2, -, -, -, -, -, -, -, -, hdl, hdm⟩ := hK
  have hlt : history_sum K.axes (deque_view d) % K.size < K.decoder.length := by
    rw [hdl]; exact Nat.mod_lt _ (by omega)
  have hne : decide (K.size ≠ 0) = true := by simp; omega
  have hrow := hdm _ (List.getElem_mem hlt)
  have hc2 : c.val < (K.decoder[history_sum K.axes (deque_view d) % K.size]).length := by
    rw [hrow.1]; exact hc
  refine ⟨(K.decoder[history_sum K.axes (deque_view d) % K.size])[c.val], ?_,
    hrow.2 _ (List.getElem_mem hc2), ?_⟩
  · simp only [Key_decode, hsum, Option.bind_eq_bind, Option.some_bind, hne, assert, if_true,
      list_getitem, bytes_getitem, List.getElem?_eq_getElem hlt, List.getElem?_eq_getElem hc2]
  · rw [List.getD_eq_getElem _ _ hlt, List.getElem?_eq_getElem hc2]

theorem deque_append_of_base (K : Key) (d : deque) (c : byte) (hK : KeyBase K)
    (hd : PrefixInv K d) (hc : c.val < K.size) :
    ∃ d2, deque_append d c = some d2 ∧ PrefixInv K d2 ∧
      deque_view d2 = (deque_view d).drop 1 ++ [c] := by
  obtain ⟨hv, hlen, hent⟩ := hd
  obtain ⟨d2, h1, h2, h3, h4⟩ := deque_append_view d c hv
  have hne : d.buffer ≠ [] := by
    intro e
    rw [e] at hlen
    have := hK.1
    simp at hlen
    omega
  rw [if_neg hne] at h4
  refine ⟨d2, h1, ⟨h2, by rw [h3, hlen], ?_⟩, h4⟩
  intro e he
  rw [← mem_deque_view, h4, List.mem_append] at he
  rcases he with he | he
  · exact hent e ((mem_deque_view d e).1 (List.mem_of_mem_drop he))
  · rw [List.mem_singleton] at he
    rw [he]; exact hc

theorem deque_append_of_inv (K : Key) (d : deque) (c : byte) (hK : KeyWF K)
    (hd : PrefixInv K d) (hc : c.val < K.size) :
    ∃ d2, deque_append d c = some d2 ∧ PrefixInv K d2 ∧
      deque_view d2 = (deque_view d).drop 1 ++ [c] :=
  deque_append_of_base K d c (KeyWF_base K hK) hd hc

/-- Whatever `Key_encode` returns is a byte of the alphabet. -/
theorem Key_encode_mem (K : Key) (d : deque) (c o : byte) (hK : KeyBase K)
    (h : Key_encode K d c = some o) : o ∈ K.base := by
  obtain ⟨-, -, -, -, -, -, -, hem, -⟩ := hK
  simp only [Key_encode, Option.bind_eq_bind, Option.bind_eq_some, bytes_getitem] at h
  obtain ⟨sum, -, u, -, h3⟩ := h
  exact hem o (List.getElem?_mem h3)

/-- Whatever `Key_decode` returns is a byte of the alphabet. -/
theorem Key_decode_mem (K : Key) (d : deque) (c o : byte) (hK : KeyBase K)
    (h : Key_decode K d c = some o) : o ∈ K.base := by
  obtain ⟨-, -, -, -, -, -, -, -, -, hdm⟩ := hK
  simp only [Key_decode, Option.bind_eq_bind, Option.bind_eq_some, bytes_getitem,
    list_getitem] at h
  obtain ⟨sum, -, u, -, row, h3, h4⟩ := h
  exact (hdm row (List.getElem?_mem h3)).2 o (List.getElem?_mem h4)

/-- A step of the Encrypter that returns keeps the invariant of the prefix and
puts out a byte of the alphabet, whatever the tables of `axes` hold. -/
theorem Encrypter_step_keeps (K : Key) (d : deque) (v o : byte) (d2 : deque) (hK : KeyBase K)
    (hd : PrefixInv K d) (h : Encrypter_step (encoder_dict K.order) K d v = some (o, d2)) :
    PrefixInv K d2 ∧ o ∈ K.base ∧ v ∈ K.base ∧
      deque_view d2 = (deque_view d).drop 1 ++ [code_of K.order v] := by
  obtain ⟨hnd, -, hol, hmem⟩ := KeyBase_order K hK
  simp only [Encrypter_step, encoder_dict_getitem _ hnd, Option.bind_eq_some] at h
  obtain ⟨code, h1, out, h2, next, h3, h4⟩ := h
  by_cases hv : v ∈ K.order
  · rw [if_pos hv] at h1
    have hcode : code = code_of K.order v := (Option.some.inj h1).symm
    subst hcode
    have hc : (code_of K.order v).val < K.size := by
      rw [← hol]; exact code_of_lt _ hnd v hv
    obtain ⟨d3, e1, e2, e3⟩ := deque_append_of_base K d (code_of K.order v) hK hd hc
    rw [e1] at h3
    simp only [Option.some.injEq, Prod.mk.injEq] at h3 h4
    obtain ⟨ho, hd2⟩ := h4
    subst h3
    subst hd2
    subst ho
    exact ⟨e2, Key_encode_mem K d _ _ hK h2, (hmem v).2 hv, e3⟩
  · rw [if_neg hv] at h1
    cases h1

/-- A step of the Decrypter that returns keeps the invariant of the prefix and
puts out a byte of the alphabet, whatever the tables of `axes` hold. -/
theorem Decrypter_step_keeps (K : Key) (d : deque) (v o : byte) (d2 : deque) (hK : KeyBase K)
    (hd : PrefixInv K d) (h : Decrypter_step (encoder_dict K.order) K d v = some (o, d2)) :
    PrefixInv K d2 ∧ o ∈ K.base ∧ v ∈ K.base ∧
      deque_view d2 = (deque_view d).drop 1 ++ [code_of K.order o] := by
  obtain ⟨hnd, -, hol, hmem⟩ := KeyBase_order K hK
  simp only [Decrypter_step, encoder_dict_getitem _ hnd, Option.bind_eq_some] at h
  obtain ⟨index, h1, code, h2, next, h3, after, h4, h5⟩ := h
  by_cases hv : v ∈ K.order
  · by_cases hcode : code ∈ K.order
    · rw [if_pos hcode] at h3
      have hnext : next = code_of K.order code := (Option.some.inj h3).symm
      subst hnext
      have hc : (code_of K.order code).val < K.size := by
        rw [← hol]; exact code_of_lt _ hnd code hcode
      obtain ⟨d3, e1, e2, e3⟩ := deque_append_of_base K d (code_of K.order code) hK hd hc
      rw [e1] at h4
      simp only [Option.some.injEq, Prod.mk.injEq] at h4 h5
      obtain ⟨ho, hd2⟩ := h5
      subst h4
      subst hd2
      subst ho
      exact ⟨e2, (hmem code).2 hcode, (hmem v).2 hv, e3⟩
    · rw [if_neg hcode] at h3
      cases h3
  · rw [if_neg hv] at h1
    cases h1

theorem Encrypter_step_of_inv (K : Key) (d : deque) (v : byte) (hK : KeyWF K)
    (hd : PrefixInv K d) (hv : v ∈ K.base) :
    ∃ o d2, Encrypter_step (encoder_dict K.order) K d v = some (o, d2) ∧ PrefixInv K d2 ∧
      o ∈ K.base ∧ Key_encode K d (code_of K.order v) = some o ∧
      deque_view d2 = (deque_view d).drop 1 ++ [code_of K.order v] := by
  obtain ⟨hnd, -, hol, hmem⟩ := KeyWF_order K hK
  have hv2 := (hmem v).1 hv
  have hc : (code_of K.order v).val < K.size := by
    rw [← hol]; exact code_of_lt _ hnd v hv2
  obtain ⟨o, ho1, ho2, -⟩ := Key_encode_of_inv K d (code_of K.order v) hK hd
  obtain ⟨d2, hd1, hd2, hd3⟩ := deque_append_of_inv K d (code_of K.order v) hK hd hc
  refine ⟨o, d2, ?_, hd2, ho2, ho1, hd3⟩
  simp only [Encrypter_step, encoder_dict_getitem _ hnd, if_pos hv2, Option.some_bind, ho1, hd1]

theorem Decrypter_step_of_inv (K : Key) (d : deque) (v : byte) (hK : KeyWF K)
    (hd : PrefixInv K d) (hv : v ∈ K.base) :
    ∃ o d2, Decrypter_step (encoder_dict K.order) K d v = some (o, d2) ∧ PrefixInv K d2 ∧
      o ∈ K.base ∧ Key_decode K d (code_of K.order v) = some o ∧
      deque_view d2 = (deque_view d).drop 1 ++ [code_of K.order o] := by
  obtain ⟨hnd, -, hol, hmem⟩ := KeyWF_order K hK
  have hv2 := (hmem v).1 hv
  have hc : (code_of K.order v).val < K.size := by
    rw [← hol]; exact code_of_lt _ hnd v hv2
  obtain ⟨o, ho1, ho2, -⟩ := Key_decode_of_inv K d (code_of K.order v) hK hd hc
  have ho3 := (hmem o).1 ho2
  have hc2 : (code_of K.order o).val < K.size := by
    rw [← hol]; exact code_of_lt _ hnd o ho3
  obtain ⟨d2, hd1, hd2, hd3⟩ := deque_append_of_inv K d (code_of K.order o) hK hd hc2
  refine ⟨o, d2, ?_, hd2, ho2, ho1, hd3⟩
  simp only [Decrypter_step, encoder_dict_getitem _ hnd, if_pos hv2, if_pos ho3,
    Option.some_bind, ho1, hd1]

/-! ## Properties of the byte-by-byte loop -/

theorem run_length (step : deque → byte → Option (byte × deque)) (contains : byte → Bool)
    (data : bytes) : ∀ (d : deque) (out : bytes) (d2 : deque),
      run step contains d data = some (out, d2) → out.length = data.length := by
  induction data with
  | nil =>
    intro d out d2 h
    simp only [run, Option.some.injEq, Prod.mk.injEq] at h
    rw [← h.1]
  | cons v rest ih =>
    intro d out d2 h
    rw [run] at h
    by_cases hc : contains v = true
    · rw [if_pos hc] at h
      cases hs : step d v with
      | none => rw [hs] at h; simp at h
      | some r =>
        rw [hs] at h
        simp only [Option.some_bind] at h
        cases hr : run step contains r.2 rest with
        | none => rw [hr] at h; simp at h
        | some s =>
          rw [hr] at h
          simp only [Option.some_bind, Option.map_some', Option.some.injEq, Prod.mk.injEq] at h
          rw [← h.1, List.length_cons, List.length_cons, ih r.2 s.1 s.2 hr]
    · rw [if_neg hc] at h
      cases hr : run step contains d rest with
      | none => rw [hr] at h; simp at h
      | some s =>
        rw [hr] at h
        simp only [Option.map_some', Option.some.injEq, Prod.mk.injEq] at h
        rw [← h.1, List.length_cons, List.length_cons, ih d s.1 s.2 hr]

theorem run_append (step : deque → byte → Option (byte × deque)) (contains : byte → Bool)
    (a b : bytes) : ∀ d : deque,
      run step contains d (a ++ b) =
        (run step contains d a).bind fun r =>
          (run step contains r.2 b).map fun s => (r.1 ++ s.1, s.2) := by
  induction a with
  | nil =>
    intro d
    simp only [List.nil_append, run, Option.some_bind]
    cases run step contains d b <;> simp
  | cons v rest ih =>
    intro d
    rw [List.cons_append, run, run]
    by_cases hc : contains v = true
    · simp only [hc, if_true]
      cases hs : step d v with
      | none => simp
      | some r =>
        simp only [Option.some_bind, ih r.2]
        cases run step contains r.2 rest with
        | none => simp
        | some s =>
          simp only [Option.some_bind, Option.map_some']
          cases run step contains s.2 b <;> simp
    · simp only [hc, if_false, Bool.false_eq_true, ih d]
      cases run step contains d rest with
      | none => simp
      | some s =>
        simp only [Option.some_bind, Option.map_some']
        cases run step contains s.2 b <;> simp

theorem run_unrecognised (step : deque → byte → Option (byte × deque)) (contains : byte → Bool)
    (data : bytes) (d : deque) (h : ∀ v ∈ data, contains v = false) :
    run step contains d data = some (data, d) := by
  induction data with
  | nil => rfl
  | cons v rest ih =>
    rw [run, h v (List.mem_cons_self _ _)]
    simp only [Bool.false_eq_true, if_false]
    rw [ih (fun w hw => h w (List.mem_cons_of_mem _ hw))]
    rfl

theorem run_getElem_unrecognised (step : deque → byte → Option (byte × deque))
    (contains : byte → Bool) (data : bytes) : ∀ (d : deque) (out : bytes) (d2 : deque),
      run step contains d data = some (out, d2) →
        ∀ (i : Nat) (h : i < data.length), contains data[i] = false →
          out[i]? = some data[i] := by
  induction data with
  | nil => intro d out d2 _ i h; simp at h
  | cons v rest ih =>
    intro d out d2 h i hi hci
    rw [run] at h
    by_cases hc : contains v = true
    · rw [if_pos hc] at h
      cases hs : step d v with
      | none => rw [hs] at h; simp at h
      | some r =>
        rw [hs] at h
        simp only [Option.some_bind] at h
        cases hr : run step contains r.2 rest with
        | none => rw [hr] at h; simp at h
        | some s =>
          rw [hr] at h
          simp only [Option.some_bind, Option.map_some', Option.some.injEq, Prod.mk.injEq] at h
          rw [← h.1]
          cases i with
          | zero =>
            simp only [List.getElem_cons_zero] at hci
            rw [hci] at hc
            cases hc
          | succ j =>
            simp only [List.getElem_cons_succ] at hci
            rw [List.getElem?_cons_succ, List.getElem_cons_succ]
            exact ih r.2 s.1 s.2 hr j (by simpa using hi) hci
    · rw [if_neg hc] at h
      cases hr : run step contains d rest with
      | none => rw [hr] at h; simp at h
      | some s =>
        rw [hr] at h
        simp only [Option.map_some', Option.some.injEq, Prod.mk.injEq] at h
        rw [← h.1]
        cases i with
        | zero => simp
        | succ j =>
          simp only [List.getElem_cons_succ] at hci
          rw [List.getElem?_cons_succ, List.getElem_cons_succ]
          exact ih d s.1 s.2 hr j (by simpa using hi) hci

/-- The loop returns whenever each step on a recognised byte returns and keeps
the invariant. -/
theorem run_total (step : deque → byte → Option (byte × deque)) (contains : byte → Bool)
    (Inv : deque → Prop)
    (hstep : ∀ d v, Inv d → contains v = true → ∃ o d2, step d v = some (o, d2) ∧ Inv d2)
    (data : bytes) : ∀ d : deque, Inv d →
      ∃ out d2, run step contains d data = some (out, d2) ∧ Inv d2 := by
  induction data with
  | nil => intro d hd; exact ⟨[], d, rfl, hd⟩
  | cons v rest ih =>
    intro d hd
    rw [run]
    by_cases hc : contains v = true
    · obtain ⟨o, d1, h1, h2⟩ := hstep d v hd hc
      obtain ⟨out, d2, h3, h4⟩ := ih d1 h2
      exact ⟨o :: out, d2, by simp [hc, h1, h3], h4⟩
    · obtain ⟨out, d2, h3, h4⟩ := ih d hd
      exact ⟨v :: out, d2, by simp [hc, h3], h4⟩

/-- Two prefixes with the same entries, oldest first, give the same outputs. -/
theorem run_congr (step : deque → byte → Option (byte × deque)) (contains : byte → Bool)
    (Inv : deque → Prop)
    (hstep : ∀ d1 d2 v, Inv d1 → Inv d2 → deque_view d1 = deque_view d2 → contains v = true →
      ∃ o e1 e2, step d1 v = some (o, e1) ∧ step d2 v = some (o, e2) ∧ Inv e1 ∧ Inv e2 ∧
        deque_view e1 = deque_view e2)
    (data : bytes) : ∀ d1 d2 : deque, Inv d1 → Inv d2 → deque_view d1 = deque_view d2 →
      ∃ out e1 e2, run step contains d1 data = some (out, e1) ∧
        run step contains d2 data = some (out, e2) ∧ Inv e1 ∧ Inv e2 ∧
        deque_view e1 = deque_view e2 := by
  induction data with
  | nil => intro d1 d2 h1 h2 hv; exact ⟨[], d1, d2, rfl, rfl, h1, h2, hv⟩
  | cons v rest ih =>
    intro d1 d2 h1 h2 hv
    rw [run, run]
    by_cases hc : contains v = true
    · obtain ⟨o, e1, e2, s1, s2, i1, i2, hv2⟩ := hstep d1 d2 v h1 h2 hv hc
      obtain ⟨out, f1, f2, r1, r2, j1, j2, hv3⟩ := ih e1 e2 i1 i2 hv2
      exact ⟨o :: out, f1, f2, by simp [hc, s1, r1], by simp [hc, s2, r2], j1, j2, hv3⟩
    · obtain ⟨out, f1, f2, r1, r2, j1, j2, hv3⟩ := ih d1 d2 h1 h2 hv
      exact ⟨v :: out, f1, f2, by simp [hc, r1], by simp [hc, r2], j1, j2, hv3⟩

/-- The loop keeps an invariant of the prefix that every returning step on a
recognised byte keeps. -/
theorem run_keeps (step : deque → byte → Option (byte × deque)) (contains : byte → Bool)
    (Inv : deque → Prop)
    (hstep : ∀ d v, Inv d → contains v = true → ∀ o d2, step d v = some (o, d2) → Inv d2)
    (x : bytes) :
    ∀ (d : deque) (out : bytes) (d2 : deque), Inv d → run step contains d x = some (out, d2) →
      Inv d2 := by
  induction x with
  | nil =>
    intro d out d2 hd h
    simp only [run, Option.some.injEq, Prod.mk.injEq] at h
    rw [← h.2]
    exact hd
  | cons v rest ih =>
    intro d out d2 hd h
    by_cases hc : contains v = true
    · simp only [run, hc, if_true] at h
      cases hs : step d v with
      | none => rw [hs] at h; simp at h
      | some r =>
        rw [hs] at h
        simp only [Option.some_bind] at h
        cases hr : run step contains r.2 rest with
        | none => rw [hr] at h; simp at h
        | some s =>
          rw [hr] at h
          simp only [Option.map_some', Option.some.injEq, Prod.mk.injEq] at h
          rw [← h.2]
          exact ih r.2 s.1 s.2 (hstep d v hd hc r.1 r.2 hs) hr
    · simp only [run, hc, Bool.false_eq_true, if_false] at h
      cases hr : run step contains d rest with
      | none => rw [hr] at h; simp at h
      | some s =>
        rw [hr] at h
        simp only [Option.map_some', Option.some.injEq, Prod.mk.injEq] at h
        rw [← h.2]
        exact ih d s.1 s.2 hd hr

/-! ## Reachable processor states -/

theorem processor_tables_base (K : Key) (vector : Primer) (hK : KeyBase K)
    (hc : Compatible K vector) : PrefixInv K (processor_tables K vector).prefix_ := by
  obtain ⟨hnd, -, hol, hmem⟩ := KeyBase_order K hK
  refine ⟨deque_valid_call _, ?_, ?_⟩
  · simp [processor_tables, deque_call, hc.1]
  · intro e he
    simp only [processor_tables, deque_call, List.mem_map] at he
    obtain ⟨v, hv, rfl⟩ := he
    rw [← hol]
    exact code_of_lt _ hnd v ((hmem v).1 (hc.2 v hv))

theorem processor_tables_inv (K : Key) (vector : Primer) (hK : KeyWF K)
    (hc : Compatible K vector) : PrefixInv K (processor_tables K vector).prefix_ :=
  processor_tables_base K vector (KeyWF_base K hK) hc

theorem _Processor_call_base (K : Key) (vector : Primer) (P : _Processor)
    (hK : KeyBase K) :
    _Processor_call K vector = some P ↔ Compatible K vector ∧ P = processor_tables K vector := by
  obtain ⟨hnd, hs, -, hmem⟩ := KeyBase_order K hK
  by_cases hc : Compatible K vector
  · rw [_Processor_call_of_compatible K vector hs hnd hmem hc]
    simp [hc, eq_comm]
  · rw [_Processor_call_of_not_compatible K vector hc]
    simp [hc]

theorem _Processor_call_eq_some_iff (K : Key) (vector : Primer) (P : _Processor)
    (hK : KeyWF K) :
    _Processor_call K vector = some P ↔ Compatible K vector ∧ P = processor_tables K vector :=
  _Processor_call_base K vector P (KeyWF_base K hK)

/-- A call of `Encrypter_process` that returns changes the prefix only, and
keeps its invariant. -/
theorem Encrypter_process_keeps (K : Key) (P : _Processor) (x out : bytes) (after : _Processor)
    (hK : KeyBase K) (hp : P.primary = K) (he : P.encoder = encoder_dict K.order)
    (hd : PrefixInv K P.prefix_) (h : Encrypter_process P x = some (out, after)) :
    ∃ d2, after = { P with prefix_ := d2 } ∧ PrefixInv K d2 := by
  rw [Encrypter_process_eq_run] at h
  cases hr : run (Encrypter_step P.encoder P.primary) (dict_contains P.encoder) P.prefix_ x with
  | none => rw [hr] at h; simp at h
  | some r =>
    rw [hr] at h
    simp only [Option.map_some', Option.some.injEq, Prod.mk.injEq] at h
    refine ⟨r.2, h.2.symm, ?_⟩
    rw [he, hp] at hr
    exact run_keeps _ _ (PrefixInv K)
      (fun d v hd _ o d2 hs => (Encrypter_step_keeps K d v o d2 hK hd hs).1) x P.prefix_ r.1 r.2
      hd hr

/-- A call of `Decrypter_process` that returns changes the prefix only, and
keeps its invariant. -/
theorem Decrypter_process_keeps (K : Key) (P : _Processor) (x out : bytes) (after : _Processor)
    (hK : KeyBase K) (hp : P.primary = K) (he : P.encoder = encoder_dict K.order)
    (hd : PrefixInv K P.prefix_) (h : Decrypter_process P x = some (out, after)) :
    ∃ d2, after = { P with prefix_ := d2 } ∧ PrefixInv K d2 := by
  rw [Decrypter_process_eq_run] at h
  cases hr : run (Decrypter_step P.encoder P.primary) (dict_contains P.encoder) P.prefix_ x with
  | none => rw [hr] at h; simp at h
  | some r =>
    rw [hr] at h
    simp only [Option.map_some', Option.some.injEq, Prod.mk.injEq] at h
    refine ⟨r.2, h.2.symm, ?_⟩
    rw [he, hp] at hr
    exact run_keeps _ _ (PrefixInv K)
      (fun d v hd _ o d2 hs => (Decrypter_step_keeps K d v o d2 hK hd hs).1) x P.prefix_ r.1 r.2
      hd hr

/-- The tables and the invariant of the prefix in every reachable state,
whatever the tables of `axes` hold. -/
theorem Reachable_base (K : Key) (P : _Processor) (hK : KeyBase K) (hR : Reachable K P) :
    P.primary = K ∧ P.encoder = encoder_dict K.order ∧ P.decoder = K.order ∧
      PrefixInv K P.prefix_ := by
  induction hR with
  | init vector P h =>
    obtain ⟨hc, rfl⟩ := (_Processor_call_base K vector P hK).1 h
    exact ⟨rfl, rfl, rfl, processor_tables_base K vector hK hc⟩
  | encrypt P data out after _ h ih =>
    obtain ⟨hp, he, hdec, hd⟩ := ih
    obtain ⟨d2, rfl, h2⟩ := Encrypter_process_keeps K P data out after hK hp he hd h
    exact ⟨hp, he, hdec, h2⟩
  | decrypt P data out after _ h ih =>
    obtain ⟨hp, he, hdec, hd⟩ := ih
    obtain ⟨d2, rfl, h2⟩ := Decrypter_process_keeps K P data out after hK hp he hd h
    exact ⟨hp, he, hdec, h2⟩

theorem Encrypter_process_of_inv (K : Key) (P : _Processor) (x : bytes) (hK : KeyWF K)
    (hp : P.primary = K) (he : P.encoder = encoder_dict K.order)
    (hd : PrefixInv K P.prefix_) :
    ∃ out d2, Encrypter_process P x = some (out, { P with prefix_ := d2 }) ∧
      PrefixInv K d2 ∧ out.length = x.length := by
  obtain ⟨-, -, -, hmem⟩ := KeyWF_order K hK
  obtain ⟨out, d2, h1, h2⟩ := run_total (Encrypter_step P.encoder P.primary)
    (dict_contains P.encoder) (PrefixInv K)
    (by
      intro d v hd hv
      rw [he, encoder_dict_contains, decide_eq_true_eq] at hv
      rw [he, hp]
      obtain ⟨o, d2, h1, h2, -⟩ := Encrypter_step_of_inv K d v hK hd ((hmem v).2 hv)
      exact ⟨o, d2, h1, h2⟩)
    x P.prefix_ hd
  refine ⟨out, d2, ?_, h2, run_length _ _ _ _ _ _ h1⟩
  rw [Encrypter_process_eq_run, h1]
  rfl

theorem Decrypter_process_of_inv (K : Key) (P : _Processor) (x : bytes) (hK : KeyWF K)
    (hp : P.primary = K) (he : P.encoder = encoder_dict K.order)
    (hd : PrefixInv K P.prefix_) :
    ∃ out d2, Decrypter_process P x = some (out, { P with prefix_ := d2 }) ∧
      PrefixInv K d2 ∧ out.length = x.length := by
  obtain ⟨-, -, -, hmem⟩ := KeyWF_order K hK
  obtain ⟨out, d2, h1, h2⟩ := run_total (Decrypter_step P.encoder P.primary)
    (dict_contains P.encoder) (PrefixInv K)
    (by
      intro d v hd hv
      rw [he, encoder_dict_contains, decide_eq_true_eq] at hv
      rw [he, hp]
      obtain ⟨o, d2, h1, h2, -⟩ := Decrypter_step_of_inv K d v hK hd ((hmem v).2 hv)
      exact ⟨o, d2, h1, h2⟩)
    x P.prefix_ hd
  refine ⟨out, d2, ?_, h2, run_length _ _ _ _ _ _ h1⟩
  rw [Decrypter_process_eq_run, h1]
  rfl

theorem Reachable_inv (K : Key) (P : _Processor) (hK : KeyWF K) (hR : Reachable K P) :
    P.primary = K ∧ P.encoder = encoder_dict K.order ∧ P.decoder = K.order ∧
      PrefixInv K P.prefix_ :=
  Reachable_base K P (KeyWF_base K hK) hR

/-! ## Exporting the prefix as a primer -/

theorem fin_ofNat_self (e : byte) : (Fin.ofNat e.val : byte) = e := by
  apply Fin.ext
  rw [fin_ofNat_val e.val e.isLt]

theorem _Processor_get_primer_of_base (K : Key) (P : _Processor) (hK : KeyBase K)
    (hdec : P.decoder = K.order) (hd : PrefixInv K P.prefix_) :
    _Processor_get_primer P =
      some { data := (deque_view P.prefix_).map (fun e => K.order.getD e.val 0) } := by
  obtain ⟨-, -, hol, -⟩ := KeyBase_order K hK
  obtain ⟨hv, hlen, hent⟩ := hd
  have hfill := foldlM_fill (deque_view P.prefix_) (fun e => bytes_getitem P.decoder e.val)
    (fun (data : bytes) (entry : Nat × byte) =>
      (bytes_getitem P.decoder entry.2.val).bind fun value => bytes_setitem data entry.1 value)
    (fun _ _ => rfl) [] (bytes_call (deque_len P.prefix_))
    (by simp [bytes_call, deque_len, bytes_len, deque_view_length])
  have hmap : (deque_view P.prefix_).mapM (fun e => bytes_getitem P.decoder e.val) =
      some ((deque_view P.prefix_).map (fun e => K.order.getD e.val 0)) := by
    apply mapM_eq_some_map
    intro e he
    have hlt : e.val < K.order.length := by
      rw [hol]; exact hent e ((mem_deque_view _ e).1 he)
    rw [hdec, bytes_getitem, List.getElem?_eq_getElem hlt, List.getD_eq_getElem _ _ hlt]
  rw [hmap] at hfill
  simp only [List.length_nil, List.nil_append, Option.map_some'] at hfill
  have hdrop : List.drop (deque_view P.prefix_).length (bytes_call (deque_len P.prefix_)) = [] := by
    apply List.drop_of_length_le
    simp [bytes_call, deque_len, bytes_len, deque_view_length]
  rw [hdrop, List.append_nil] at hfill
  have hne : bytes_bool ((deque_view P.prefix_).map (fun e => K.order.getD e.val 0)) = true := by
    have := hK.1
    simp [bytes_bool, deque_view_length, hlen]
    omega
  simp only [_Processor_get_primer, deque_items_eq, Option.bind_eq_bind, Option.some_bind,
    List.enum]
  rw [hfill]
  simp only [Option.some_bind, Primer_call, Primer_test_data, hne, assert, if_true,
    Option.bind_eq_bind, pure]

theorem _Processor_get_primer_of_inv (K : Key) (P : _Processor) (hK : KeyWF K)
    (hdec : P.decoder = K.order) (hd : PrefixInv K P.prefix_) :
    _Processor_get_primer P =
      some { data := (deque_view P.prefix_).map (fun e => K.order.getD e.val 0) } :=
  _Processor_get_primer_of_base K P (KeyWF_base K hK) hdec hd

theorem exported_primer_compatible (K : Key) (d : deque) (hK : KeyWF K) (hd : PrefixInv K d) :
    Compatible K { data := (deque_view d).map (fun e => K.order.getD e.val 0) } ∧
      (processor_tables K { data := (deque_view d).map (fun e => K.order.getD e.val 0) }).prefix_ =
        deque_call (deque_view d) := by
  obtain ⟨hnd, -, hol, hmem⟩ := KeyWF_order K hK
  obtain ⟨hv, hlen, hent⟩ := hd
  have hlt : ∀ e ∈ deque_view d, e.val < K.order.length := by
    intro e he
    rw [hol]; exact hent e ((mem_deque_view _ e).1 he)
  refine ⟨⟨?_, ?_⟩, ?_⟩
  · simp [deque_view_length, hlen]
  · intro b hb
    simp only [List.mem_map] at hb
    obtain ⟨e, he, rfl⟩ := hb
    rw [hmem, List.getD_eq_getElem _ _ (hlt e he)]
    exact List.getElem_mem _
  · simp only [processor_tables, List.map_map]
    congr 1
    conv_rhs => rw [← List.map_id (deque_view d)]
    apply List.map_congr_left
    intro e he
    simp only [Function.comp, id]
    rw [List.getD_eq_getElem _ _ (hlt e he), code_of_getElem _ hnd, fin_ofNat_self]

theorem PrefixInv_call_view (K : Key) (d : deque) (hd : PrefixInv K d) :
    PrefixInv K (deque_call (deque_view d)) := by
  obtain ⟨hv, hlen, hent⟩ := hd
  refine ⟨deque_valid_call _, ?_, ?_⟩
  · simp [deque_call, deque_view_length, hlen]
  · intro e he
    exact hent e ((mem_deque_view d e).1 he)

theorem Encrypter_step_congr (K : Key) (hK : KeyWF K) (d1 d2 : deque) (v : byte)
    (h1 : PrefixInv K d1) (h2 : PrefixInv K d2) (hv : deque_view d1 = deque_view d2)
    (hc : dict_contains (encoder_dict K.order) v = true) :
    ∃ o e1 e2, Encrypter_step (encoder_dict K.order) K d1 v = some (o, e1) ∧
      Encrypter_step (encoder_dict K.order) K d2 v = some (o, e2) ∧
      PrefixInv K e1 ∧ PrefixInv K e2 ∧ deque_view e1 = deque_view e2 := by
  obtain ⟨-, -, -, hmem⟩ := KeyWF_order K hK
  rw [encoder_dict_contains, decide_eq_true_eq] at hc
  obtain ⟨o1, e1, s1, i1, -, k1, v1⟩ := Encrypter_step_of_inv K d1 v hK h1 ((hmem v).2 hc)
  obtain ⟨o2, e2, s2, i2, -, k2, v2⟩ := Encrypter_step_of_inv K d2 v hK h2 ((hmem v).2 hc)
  rw [Key_encode_congr K d1 d2 _ hv, k2] at k1
  have ho : o2 = o1 := Option.some.inj k1
  subst ho
  exact ⟨o2, e1, e2, s1, s2, i1, i2, by rw [v1, v2, hv]⟩

theorem Decrypter_step_congr (K : Key) (hK : KeyWF K) (d1 d2 : deque) (v : byte)
    (h1 : PrefixInv K d1) (h2 : PrefixInv K d2) (hv : deque_view d1 = deque_view d2)
    (hc : dict_contains (encoder_dict K.order) v = true) :
    ∃ o e1 e2, Decrypter_step (encoder_dict K.order) K d1 v = some (o, e1) ∧
      Decrypter_step (encoder_dict K.order) K d2 v = some (o, e2) ∧
      PrefixInv K e1 ∧ PrefixInv K e2 ∧ deque_view e1 = deque_view e2 := by
  obtain ⟨-, -, -, hmem⟩ := KeyWF_order K hK
  rw [encoder_dict_contains, decide_eq_true_eq] at hc
  obtain ⟨o1, e1, s1, i1, -, k1, v1⟩ := Decrypter_step_of_inv K d1 v hK h1 ((hmem v).2 hc)
  obtain ⟨o2, e2, s2, i2, -, k2, v2⟩ := Decrypter_step_of_inv K d2 v hK h2 ((hmem v).2 hc)
  rw [Key_decode_congr K d1 d2 _ hv, k2] at k1
  have ho : o2 = o1 := Option.some.inj k1
  subst ho
  exact ⟨o2, e1, e2, s1, s2, i1, i2, by rw [v1, v2, hv]⟩

/-- A processor rebuilt from the exported primer of a reachable state gives
the outputs of that state, for both directions. -/
theorem continuation_of_reachable (K : Key) (P : _Processor) (b : bytes) (hK : KeyWF K)
    (hR : Reachable K P) :
    ∃ vector2 P2, _Processor_get_primer P = some vector2 ∧
      _Processor_call K vector2 = some P2 ∧
      deque_items P2.prefix_ = deque_items P.prefix_ ∧
      (∃ out A B, Encrypter_process P2 b = some (out, A) ∧
        Encrypter_process P b = some (out, B)) ∧
      (∃ out A B, Decrypter_process P2 b = some (out, A) ∧
        Decrypter_process P b = some (out, B)) := by
  obtain ⟨hp, he, hdec, hd⟩ := Reachable_inv K P hK hR
  obtain ⟨hnd, hs, -, hmem⟩ := KeyWF_order K hK
  obtain ⟨hcomp, hpre⟩ := exported_primer_compatible K P.prefix_ hK hd
  have hd2 := PrefixInv_call_view K P.prefix_ hd
  have hget := _Processor_get_primer_of_inv K P hK hdec hd
  obtain ⟨vec2, hvec2⟩ : ∃ vec2 : Primer,
      vec2 = { data := (deque_view P.prefix_).map (fun e => K.order.getD e.val 0) } := ⟨_, rfl⟩
  rw [← hvec2] at hcomp hpre hget
  have hcall := _Processor_call_of_compatible K vec2 hs hnd hmem hcomp
  have hpe : (processor_tables K vec2).encoder = encoder_dict K.order := rfl
  have hpp : (processor_tables K vec2).primary = K := rfl
  refine ⟨vec2, processor_tables K vec2, hget, hcall, ?_, ?_, ?_⟩
  · rw [hpre, deque_items_eq, deque_items_eq, deque_view_call]
  · obtain ⟨out, e1, e2, r1, r2, -, -, -⟩ := run_congr
      (Encrypter_step (encoder_dict K.order) K) (dict_contains (encoder_dict K.order))
      (PrefixInv K)
      (fun d1 d2 v i1 i2 hv hc => Encrypter_step_congr K hK d1 d2 v i1 i2 hv hc)
      b (deque_call (deque_view P.prefix_)) P.prefix_ hd2 hd (deque_view_call _)
    have hA : Encrypter_process (processor_tables K vec2) b =
        some (out, { processor_tables K vec2 with prefix_ := e1 }) := by
      rw [Encrypter_process_eq_run, hpe, hpp, hpre, r1]
      rfl
    have hB : Encrypter_process P b = some (out, { P with prefix_ := e2 }) := by
      rw [Encrypter_process_eq_run, he, hp, r2]
      rfl
    exact ⟨out, _, _, hA, hB⟩
  · obtain ⟨out, e1, e2, r1, r2, -, -, -⟩ := run_congr
      (Decrypter_step (encoder_dict K.order) K) (dict_contains (encoder_dict K.order))
      (PrefixInv K)
      (fun d1 d2 v i1 i2 hv hc => Decrypter_step_congr K hK d1 d2 v i1 i2 hv hc)
      b (deque_call (deque_view P.prefix_)) P.prefix_ hd2 hd (deque_view_call _)
    have hA : Decrypter_process (processor_tables K vec2) b =
        some (out, { processor_tables K vec2 with prefix_ := e1 }) := by
      rw [Decrypter_process_eq_run, hpe, hpp, hpre, r1]
      rfl
    have hB : Decrypter_process P b = some (out, { P with prefix_ := e2 }) := by
      rw [Decrypter_process_eq_run, he, hp, r2]
      rfl
    exact ⟨out, _, _, hA, hB⟩

/-! ## The random source -/

set_option maxRecDepth 100000 in
theorem int_bit_length_small :
    ∀ n : Fin 256, 1 ≤ n.val → 1 ≤ int_bit_length n.val ∧ int_bit_length n.val ≤ 8 := by
  decide

theorem draw_size_one (stop : Nat) (h2 : 2 ≤ stop) (h256 : stop ≤ 256) :
    (int_ceildiv (int_bit_length (stop - 1)) 8).toNat = 1 := by
  have h := int_bit_length_small ⟨stop - 1, by omega⟩ (by simp; omega)
  simp only [] at h
  generalize int_bit_length (stop - 1) = bits at h
  obtain ⟨h1, h8⟩ := h
  interval_cases bits <;> decide

theorem mask_bits_small (stop : Nat) (h2 : 2 ≤ stop) (h256 : stop ≤ 256) :
    int_bit_length (stop - 1) % 32 = int_bit_length (stop - 1) := by
  have h := int_bit_length_small ⟨stop - 1, by omega⟩ (by simp; omega)
  simp only [] at h
  exact Nat.mod_eq_of_lt (by omega)

theorem random_range_nil (stop : Nat) (h2 : 2 ≤ stop) (h256 : stop ≤ 256) :
    random_range [] stop = none := by
  have h1 : ¬ stop < 2 := by omega
  simp [random_range, h1, draw_size_one stop h2 h256, random_range_loop, random_bytes]

theorem random_range_cons (b : byte) (rest : List byte) (stop : Nat) (h2 : 2 ≤ stop)
    (h256 : stop ≤ 256) :
    random_range (b :: rest) stop =
      if accepted stop b = true then
        some (b.val &&& ((1 <<< int_bit_length (stop - 1)) - 1), rest)
      else random_range rest stop := by
  have h1 : ¬ stop < 2 := by omega
  simp only [random_range, h1, if_false, draw_size_one stop h2 h256, List.length_cons,
    random_range_loop, random_bytes, accepted, decide_eq_true_eq,
    mask_bits_small stop h2 h256]
  have hle : 1 ≤ rest.length + 1 := by omega
  simp only [hle, if_true, List.take_succ_cons, List.take_zero, List.drop_succ_cons,
    List.drop_zero, List.foldl_cons, List.foldl_nil, Nat.zero_shiftLeft, Nat.zero_add]
  by_cases ha : (b.val &&& ((1 <<< int_bit_length (stop - 1)) - 1)) < stop
  · have : ¬ (b.val &&& ((1 <<< int_bit_length (stop - 1)) - 1)) ≥ stop := by omega
    simp [ha, this]
  · have : (b.val &&& ((1 <<< int_bit_length (stop - 1)) - 1)) ≥ stop := by omega
    simp [ha, this]

/-- `random_range` drawing single bytes: it returns a value below `stop` and
consumes the source up to and including the first accepted byte, or the source
has no accepted byte and runs out. -/
theorem random_range_spec (stop : Nat) (h2 : 2 ≤ stop) (h256 : stop ≤ 256)
    (source : List byte) :
    (random_range source stop = none ∧ source.countP (accepted stop) = 0) ∨
    (∃ n rest, random_range source stop = some (n, rest) ∧ n < stop ∧
      rest.countP (accepted stop) + 1 = source.countP (accepted stop)) := by
  induction source with
  | nil => left; exact ⟨random_range_nil stop h2 h256, rfl⟩
  | cons b rest ih =>
    rw [random_range_cons b rest stop h2 h256]
    by_cases ha : accepted stop b = true
    · right
      refine ⟨_, rest, by rw [if_pos ha], ?_, ?_⟩
      · simpa [accepted] using ha
      · rw [List.countP_cons_of_pos _ _ ha]
    · rw [if_neg ha, List.countP_cons_of_neg _ _ ha]
      exact ih

theorem random_range_small (stop : Nat) (h : stop < 2) (source : List byte) :
    random_range source stop = some (0, source) := by
  simp [random_range, h]

theorem boole_getElem_le_count (l : bytes) (i : Nat) (h : i < l.length) (b : byte) :
    (if l[i] == b then 1 else 0) ≤ l.count b := by
  have := List.boole_getElem_le_countP (fun x => x == b) l i h
  simpa [List.count_eq_countP] using this

/-- Exchanging the bytes at two positions of a buffer permutes the buffer. -/
theorem swap_perm (l : bytes) (i j : Nat) (hi : i < l.length) (hj : j < l.length) :
    ((l.set i l[j]).set j l[i]).Perm l := by
  rw [List.perm_iff_count]
  intro b
  have hj2 : j < (l.set i l[j]).length := by rw [List.length_set]; exact hj
  rw [List.count_set _ _ _ _ hj2, List.count_set _ _ _ _ hi]
  have e : (l.set i l[j])[j] = l[j] := by
    rw [List.getElem_set]
    split
    · rfl
    · rfl
  rw [e]
  have h1 := boole_getElem_le_count l i hi b
  have h2 := boole_getElem_le_count l j hj b
  omega

theorem random_shuffle_body_spec (buffer : bytes) (source : List byte) (offset : Nat)
    (h3 : 3 ≤ buffer.length) (h256 : buffer.length ≤ 257) (ho : offset < buffer.length) :
    (random_shuffle_body (buffer.length - 1) offset buffer source = Drawn.starved ∧
      source.countP (accepted (buffer.length - 1)) = 0) ∨
    (∃ out rest, random_shuffle_body (buffer.length - 1) offset buffer source =
        Drawn.value out rest ∧ out.Perm buffer ∧
      rest.countP (accepted (buffer.length - 1)) + 1 =
        source.countP (accepted (buffer.length - 1))) := by
  rcases random_range_spec (buffer.length - 1) (by omega) (by omega) source with
    ⟨hr, hc⟩ | ⟨n, rest, hr, hn, hc⟩
  · left
    refine ⟨?_, hc⟩
    simp [random_shuffle_body, bytes_getitem, List.getElem?_eq_getElem ho, hr]
  · right
    have hch : (if n ≥ offset then n + 1 else n) < buffer.length := by
      split <;> omega
    generalize hchoice : (if n ≥ offset then n + 1 else n) = choice at hch
    refine ⟨(buffer.set offset buffer[choice]).set choice buffer[offset], rest, ?_,
      swap_perm buffer offset choice ho hch, hc⟩
    simp [random_shuffle_body, bytes_getitem, List.getElem?_eq_getElem ho, hr, hchoice,
      List.getElem?_eq_getElem hch, bytes_setitem, ho, hch, Drawn.ofOption]

theorem random_shuffle_loop_spec (n : Nat) (h3 : 3 ≤ n) (h256 : n ≤ 257) (offsets : List Nat)
    (ho : ∀ o ∈ offsets, o < n) :
    ∀ (buffer : bytes) (source : List byte), buffer.length = n →
      (random_shuffle_loop (n - 1) offsets buffer source = Drawn.starved ∧
        source.countP (accepted (n - 1)) < offsets.length) ∨
      (∃ out rest, random_shuffle_loop (n - 1) offsets buffer source = Drawn.value out rest ∧
        out.Perm buffer ∧
        rest.countP (accepted (n - 1)) + offsets.length = source.countP (accepted (n - 1))) := by
  induction offsets with
  | nil =>
    intro buffer source _
    right
    exact ⟨buffer, source, rfl, List.Perm.refl _, rfl⟩
  | cons o os ih =>
    intro buffer source hlen
    have hbody := random_shuffle_body_spec buffer source o (by omega) (by omega)
      (by rw [hlen]; exact ho o (List.mem_cons_self _ _))
    rw [hlen] at hbody
    rcases hbody with ⟨hb, hc⟩ | ⟨out, rest, hb, hp, hc⟩
    · left
      refine ⟨?_, by rw [hc]; simp⟩
      rw [random_shuffle_loop, hb]
      rfl
    · have hlen2 : out.length = n := by rw [hp.length_eq, hlen]
      rcases ih (fun x hx => ho x (List.mem_cons_of_mem _ hx)) out rest hlen2 with
        ⟨hl, hc2⟩ | ⟨out2, rest2, hl, hp2, hc2⟩
      · left
        refine ⟨?_, by simp only [List.length_cons]; omega⟩
        rw [random_shuffle_loop, hb]
        exact hl
      · right
        refine ⟨out2, rest2, ?_, hp2.trans hp, by simp only [List.length_cons]; omega⟩
        rw [random_shuffle_loop, hb]
        exact hl

/-- `random_shuffle` on a buffer of at most 257 bytes: it returns a
permutation of the buffer and consumes one accepted byte for each position, or
the source has fewer accepted bytes than the buffer has positions. -/
theorem random_shuffle_spec (buffer : bytes) (source : List byte) (h256 : buffer.length ≤ 257) :
    (buffer.length ≤ 2 ∧ random_shuffle source buffer = Drawn.value buffer source) ∨
    (2 < buffer.length ∧
      ((random_shuffle source buffer = Drawn.starved ∧
          source.countP (accepted (buffer.length - 1)) < buffer.length) ∨
        (∃ out rest, random_shuffle source buffer = Drawn.value out rest ∧ out.Perm buffer ∧
          rest.countP (accepted (buffer.length - 1)) + buffer.length =
            source.countP (accepted (buffer.length - 1))))) := by
  by_cases h : buffer.length ≤ 2
  · left
    refine ⟨h, ?_⟩
    have : ¬ bytes_len buffer > 2 := by simp [bytes_len]; omega
    simp [random_shuffle, this]
  · right
    refine ⟨by omega, ?_⟩
    have hgt : buffer.length > 2 := by omega
    have := random_shuffle_loop_spec buffer.length (by omega) h256
      (List.range buffer.length) (fun o ho => List.mem_range.mp ho) buffer source rfl
    simp only [List.length_range] at this
    simp only [random_shuffle, bytes_len, hgt, if_true]
    exact this

theorem random_shuffle_cases (buffer : bytes) (source : List byte) (h256 : buffer.length ≤ 257) :
    (random_shuffle source buffer = Drawn.starved ∧ 2 < buffer.length ∧
      source.countP (accepted (buffer.length - 1)) < buffer.length) ∨
    (∃ out rest, random_shuffle source buffer = Drawn.value out rest ∧ out.Perm buffer ∧
      (2 < buffer.length →
        rest.countP (accepted (buffer.length - 1)) + buffer.length =
          source.countP (accepted (buffer.length - 1))) ∧
      (buffer.length ≤ 2 → rest = source)) := by
  rcases random_shuffle_spec buffer source h256 with ⟨h2, hv⟩ | ⟨h2, ⟨hs, hc⟩ | ⟨out, rest, hv, hp, hc⟩⟩
  · right
    exact ⟨buffer, source, hv, List.Perm.refl _, fun h => by omega, fun _ => rfl⟩
  · left
    exact ⟨hs, h2, hc⟩
  · right
    exact ⟨out, rest, hv, hp, fun _ => hc, fun h => by omega⟩

theorem Key_create_loop_spec (n : Nat) (hn : n ≤ 256) (offsets : List Int) :
    ∀ (selection : bytes) (blocks : list) (source : List byte), selection.length = n →
      (∀ o ∈ offsets, o.toNat < blocks.length) →
      (Key_create_loop offsets selection blocks source = Drawn.starved ∧ 2 < n ∧
        source.countP (accepted (n - 1)) < offsets.length * n) ∨
      (∃ out rest, Key_create_loop offsets selection blocks source = Drawn.value out rest ∧
        out.length = blocks.length ∧
        (∀ j, (j ∈ offsets.map Int.toNat → ∃ block, out[j]? = some block ∧ block.Perm selection) ∧
          (j ∉ offsets.map Int.toNat → out[j]? = blocks[j]?)) ∧
        (2 < n → rest.countP (accepted (n - 1)) + offsets.length * n =
          source.countP (accepted (n - 1))) ∧
        (n ≤ 2 → rest = source)) := by
  induction offsets with
  | nil =>
    intro selection blocks source _ _
    right
    refine ⟨blocks, source, rfl, rfl, ?_, ?_, fun _ => rfl⟩
    · intro j
      simp
    · intro _
      simp
  | cons o os ih =>
    intro selection blocks source hlen hlt
    have hsh := random_shuffle_cases selection source (by omega)
    rw [hlen] at hsh
    rcases hsh with ⟨hs, h2, hc⟩ | ⟨sel1, rest1, hv, hp, hc, hsame⟩
    · left
      refine ⟨?_, h2, ?_⟩
      · rw [Key_create_loop, hs]; rfl
      · simp only [List.length_cons]
        calc List.countP (accepted (n - 1)) source < n := hc
          _ ≤ (os.length + 1) * n := Nat.le_mul_of_pos_left n (by omega)
    · have ho : o.toNat < blocks.length := hlt o (List.mem_cons_self _ _)
      have hset : list_setitem blocks o.toNat (bytes_deepcopy sel1) =
          some (blocks.set o.toNat sel1) := by
        simp [list_setitem, ho, bytes_deepcopy]
      have hstep : Key_create_loop (o :: os) selection blocks source =
          Key_create_loop os sel1 (blocks.set o.toNat sel1) rest1 := by
        rw [Key_create_loop, hv]
        simp only [Drawn.bind, hset, Drawn.ofOption]
      have hlen1 : sel1.length = n := by rw [hp.length_eq, hlen]
      rcases ih sel1 (blocks.set o.toNat sel1) rest1 hlen1
          (by
            intro x hx
            rw [List.length_set]
            exact hlt x (List.mem_cons_of_mem _ hx)) with
        ⟨hs2, h2, hc2⟩ | ⟨out, rest, hv2, hol, hj, hc2, hsame2⟩
      · left
        refine ⟨by rw [hstep]; exact hs2, h2, ?_⟩
        have := hc h2
        simp only [List.length_cons, Nat.add_mul, Nat.one_mul]
        omega
      · right
        refine ⟨out, rest, by rw [hstep]; exact hv2, by rw [hol, List.length_set], ?_, ?_, ?_⟩
        · intro j
          constructor
          · intro hjm
            by_cases hjos : j ∈ os.map Int.toNat
            · obtain ⟨block, hb1, hb2⟩ := (hj j).1 hjos
              exact ⟨block, hb1, hb2.trans hp⟩
            · have hjo : j = o.toNat := by
                simp only [List.map_cons, List.mem_cons] at hjm
                rcases hjm with h | h
                · exact h
                · exact absurd h hjos
              refine ⟨sel1, ?_, hp⟩
              rw [(hj j).2 hjos, hjo, List.getElem?_set_self ho]
          · intro hjm
            simp only [List.map_cons, List.mem_cons, not_or] at hjm
            rw [(hj j).2 hjm.2, List.getElem?_set_ne (fun e => hjm.1 e.symm)]
        · intro h2
          have h1 := hc h2
          have h3 := hc2 h2
          simp only [List.length_cons, Nat.add_mul, Nat.one_mul]
          omega
        · intro h2
          rw [hsame2 h2, hsame h2]

theorem range_items_stop (n : Nat) (hn : n ≤ 32767) :
    range_items (range_stop n) = (List.range n).map (fun (k : Nat) => (k : Int)) := by
  have := range_items_up 0 n (Nat.zero_le _) (by omega)
  simpa [range_stop] using this

theorem range_items_stop_toNat (n : Nat) (hn : n ≤ 32767) :
    (range_items (range_stop n)).map Int.toNat = List.range n := by
  rw [range_items_stop n hn, List.map_map]
  conv_rhs => rw [← List.map_id (List.range n)]
  apply List.map_congr_left
  intro k _
  simp

theorem selection_facts (bytes_used : bytes) :
    (bytes_from_set (set_from_bytes bytes_used)).Nodup ∧
    (bytes_from_set (set_from_bytes bytes_used)).length = set_len (set_from_bytes bytes_used) ∧
    ∀ b, b ∈ bytes_from_set (set_from_bytes bytes_used) ↔ b ∈ bytes_used := by
  refine ⟨set_members_nodup _, (set_len_eq_length _).symm, ?_⟩
  intro b
  rw [bytes_from_set, mem_set_members, set_from_bytes_member, decide_eq_true_eq]

/-- The blocks that the loop of `Key_create` leaves: `chain_size` permutations
of the selection; they satisfy the rules of a key. -/
theorem KeyRules_of_perms (selection : bytes) (blocks : list) (h2 : 2 ≤ blocks.length)
    (hsel : 2 ≤ selection.length) (hnd : selection.Nodup)
    (hp : ∀ j, j < blocks.length → ∃ block, blocks[j]? = some block ∧ block.Perm selection) :
    KeyRules blocks := by
  have hall : ∀ block ∈ blocks, block.Perm selection := by
    intro block hb
    obtain ⟨j, hj, hjb⟩ := List.getElem_of_mem hb
    obtain ⟨block2, h1, h2⟩ := hp j hj
    rw [List.getElem?_eq_getElem hj, hjb] at h1
    rw [Option.some.inj h1]
    exact h2
  have hhead : blocks.headD [] ∈ blocks := by
    cases blocks with
    | nil => simp at h2
    | cons a t => simp
  refine ⟨h2, ?_, ?_, ?_, ?_⟩
  · intro block hb
    rw [(hall block hb).length_eq]; exact hsel
  · intro block hb
    exact (hall block hb).nodup_iff.mpr hnd
  · intro block hb other ho
    rw [(hall block hb).length_eq, (hall other ho).length_eq]
  · intro block hb b
    rw [(hall block hb).mem_iff, (hall _ hhead).mem_iff]

theorem Key_create_spec (source : List byte) (bytes_used : bytes) (chain_size : Nat)
    (hn : 2 ≤ set_len (set_from_bytes bytes_used)) (hc : 2 ≤ chain_size)
    (hb : chain_size ≤ 32767) :
    (Key_create source bytes_used chain_size = Drawn.starved ∧
      2 < set_len (set_from_bytes bytes_used) ∧
      source.countP (accepted (set_len (set_from_bytes bytes_used) - 1)) <
        chain_size * set_len (set_from_bytes bytes_used)) ∨
    (∃ blocks rest, Key_create source bytes_used chain_size =
        Drawn.value (key_tables blocks) rest ∧
      KeyRules blocks ∧ blocks.length = chain_size ∧
      (∀ block ∈ blocks, block.Perm (bytes_from_set (set_from_bytes bytes_used))) ∧
      (2 < set_len (set_from_bytes bytes_used) →
        rest.countP (accepted (set_len (set_from_bytes bytes_used) - 1)) +
          chain_size * set_len (set_from_bytes bytes_used) =
          source.countP (accepted (set_len (set_from_bytes bytes_used) - 1))) ∧
      (set_len (set_from_bytes bytes_used) ≤ 2 → rest = source)) := by
  obtain ⟨hnd, hlen, hmem⟩ := selection_facts bytes_used
  have h256 : set_len (set_from_bytes bytes_used) ≤ 256 := by
    rw [← hlen]; exact nodup_length_le_256 _ hnd
  have hspec := Key_create_loop_spec (set_len (set_from_bytes bytes_used)) h256
    (range_items (range_stop chain_size)) (bytes_from_set (set_from_bytes bytes_used))
    (list_call chain_size) source hlen
    (by
      intro o ho
      have : o.toNat ∈ (range_items (range_stop chain_size)).map Int.toNat :=
        List.mem_map_of_mem _ ho
      rw [range_items_stop_toNat _ hb] at this
      simpa [list_call] using this)
  have hol : (range_items (range_stop chain_size)).length = chain_size := by
    rw [range_items_stop _ hb]; simp
  rw [hol, range_items_stop_toNat _ hb] at hspec
  rcases hspec with ⟨hs, h2, hcount⟩ | ⟨out, rest, hv, hlen2, hj, hcount, hsame⟩
  · left
    refine ⟨?_, h2, hcount⟩
    rw [Key_create]
    simp only [hs, Drawn.bind]
  · right
    have hlen3 : out.length = chain_size := by rw [hlen2]; simp [list_call]
    have hperm : ∀ j, j < out.length →
        ∃ block, out[j]? = some block ∧
          block.Perm (bytes_from_set (set_from_bytes bytes_used)) := by
      intro j hjlt
      exact (hj j).1 (List.mem_range.mpr (by omega))
    have hrules := KeyRules_of_perms _ out (by omega) (by omega) hnd hperm
    refine ⟨out, rest, ?_, hrules, hlen3, ?_, hcount, hsame⟩
    · rw [Key_create]
      simp only [hv, Drawn.bind, (Key_call_eq_some_iff out _ (by omega)).2 ⟨hrules, rfl⟩,
        Drawn.ofOption]
    · intro block hb
      obtain ⟨j, hj2, hjb⟩ := List.getElem_of_mem hb
      obtain ⟨block2, h1, h2⟩ := hperm j hj2
      rw [List.getElem?_eq_getElem hj2, hjb] at h1
      rw [Option.some.inj h1]
      exact h2

theorem random_choice_spec (base : bytes) (h2 : 2 ≤ base.length) (h256 : base.length ≤ 256)
    (source : List byte) :
    (random_choice source base = Drawn.starved ∧
      source.countP (accepted base.length) = 0) ∨
    (∃ v rest, random_choice source base = Drawn.value v rest ∧ v ∈ base ∧
      rest.countP (accepted base.length) + 1 = source.countP (accepted base.length)) := by
  rcases random_range_spec base.length h2 h256 source with ⟨hr, hc⟩ | ⟨n, rest, hr, hn, hc⟩
  · left
    refine ⟨?_, hc⟩
    simp [random_choice, bytes_len, hr]
  · right
    refine ⟨base[n], rest, ?_, List.getElem_mem hn, hc⟩
    simp [random_choice, bytes_len, hr, bytes_getitem, List.getElem?_eq_getElem hn,
      Drawn.ofOption]

theorem Primer_create_loop_spec (base : bytes) (h2 : 2 ≤ base.length)
    (h256 : base.length ≤ 256) (offsets : List Int) :
    ∀ (data : bytes) (source : List byte), (∀ o ∈ offsets, o.toNat < data.length) →
      (Primer_create_loop base offsets data source = Drawn.starved ∧
        source.countP (accepted base.length) < offsets.length) ∨
      (∃ out rest, Primer_create_loop base offsets data source = Drawn.value out rest ∧
        out.length = data.length ∧
        (∀ j, (j ∈ offsets.map Int.toNat → ∃ v, out[j]? = some v ∧ v ∈ base) ∧
          (j ∉ offsets.map Int.toNat → out[j]? = data[j]?)) ∧
        rest.countP (accepted base.length) + offsets.length =
          source.countP (accepted base.length)) := by
  induction offsets with
  | nil =>
    intro data source _
    right
    refine ⟨data, source, rfl, rfl, ?_, rfl⟩
    intro j
    simp
  | cons o os ih =>
    intro data source hlt
    rcases random_choice_spec base h2 h256 source with ⟨hs, hc⟩ | ⟨v, rest1, hv, hvb, hc⟩
    · left
      refine ⟨?_, by rw [hc]; simp⟩
      rw [Primer_create_loop, hs]; rfl
    · have ho : o.toNat < data.length := hlt o (List.mem_cons_self _ _)
      have hset : bytes_setitem data o.toNat v = some (data.set o.toNat v) := by
        simp [bytes_setitem, ho]
      have hstep : Primer_create_loop base (o :: os) data source =
          Primer_create_loop base os (data.set o.toNat v) rest1 := by
        rw [Primer_create_loop, hv]
        simp only [Drawn.bind, hset, Drawn.ofOption]
      rcases ih (data.set o.toNat v) rest1
          (by
            intro x hx
            rw [List.length_set]
            exact hlt x (List.mem_cons_of_mem _ hx)) with
        ⟨hs2, hc2⟩ | ⟨out, rest, hv2, hol, hj, hc2⟩
      · left
        refine ⟨by rw [hstep]; exact hs2, ?_⟩
        simp only [List.length_cons]
        omega
      · right
        refine ⟨out, rest, by rw [hstep]; exact hv2, by rw [hol, List.length_set], ?_, ?_⟩
        · intro j
          constructor
          · intro hjm
            by_cases hjos : j ∈ os.map Int.toNat
            · exact (hj j).1 hjos
            · have hjo : j = o.toNat := by
                simp only [List.map_cons, List.mem_cons] at hjm
                rcases hjm with h | h
                · exact h
                · exact absurd h hjos
              refine ⟨v, ?_, hvb⟩
              rw [(hj j).2 hjos, hjo, List.getElem?_set_self ho]
          · intro hjm
            simp only [List.map_cons, List.mem_cons, not_or] at hjm
            rw [(hj j).2 hjm.2, List.getElem?_set_ne (fun e => hjm.1 e.symm)]
        · simp only [List.length_cons]
          omega

theorem Primer_create_spec (source : List byte) (K : Key) (hK : KeyBase K)
    (hb : K.prefix_len ≤ 32767) :
    (Primer_create source K = Drawn.starved ∧
      source.countP (accepted K.size) < K.prefix_len) ∨
    (∃ p rest, Primer_create source K = Drawn.value p rest ∧ Compatible K p ∧
      rest.countP (accepted K.size) + K.prefix_len = source.countP (accepted K.size)) := by
  obtain ⟨h1, h2, h256, hlen, -⟩ := hK
  have hspec := Primer_create_loop_spec K.base (by omega) (by omega)
    (range_items (range_stop K.prefix_len)) (bytes_call K.prefix_len) source
    (by
      intro o ho
      have : o.toNat ∈ (range_items (range_stop K.prefix_len)).map Int.toNat :=
        List.mem_map_of_mem _ ho
      rw [range_items_stop_toNat _ hb] at this
      simpa [bytes_call] using this)
  have hol : (range_items (range_stop K.prefix_len)).length = K.prefix_len := by
    rw [range_items_stop _ hb]; simp
  rw [hol, range_items_stop_toNat _ hb, hlen] at hspec
  rcases hspec with ⟨hs, hc⟩ | ⟨out, rest, hv, hlen2, hj, hc⟩
  · left
    refine ⟨?_, hc⟩
    simp only [Primer_create, Key_get_base, Key_get_prefix_len, hs, Drawn.bind]
  · right
    have hlen3 : out.length = K.prefix_len := by rw [hlen2]; simp [bytes_call]
    have hne : bytes_bool out = true := by simp [bytes_bool]; omega
    refine ⟨{ data := out }, rest, ?_, ⟨hlen3, ?_⟩, hc⟩
    · simp only [Primer_create, Key_get_base, Key_get_prefix_len, hv, Drawn.bind, Primer_call,
        Primer_test_data, hne, assert, if_true, Option.bind_eq_bind, Option.some_bind, pure,
        Drawn.ofOption]
    · intro b hb
      have hb2 : b ∈ out := hb
      obtain ⟨j, hj2, hjb⟩ := List.getElem_of_mem hb2
      obtain ⟨v, hv1, hv2⟩ := (hj j).1 (List.mem_range.mpr (by omega))
      rw [List.getElem?_eq_getElem hj2, hjb] at hv1
      rw [Option.some.inj hv1]
      exact hv2

/-! ## Further lemmas on the tables of a key -/

theorem key_offset_call (data : list) (hn : data.length ≤ 32768) (h : KeyRules data) :
    Key_calculate_offset data (data.length - 1) (data.headD []) (data.headD []).length =
      some (key_offset data) := by
  obtain ⟨hb0, hb2, hbnd⟩ := KeyRules_base data h
  have hlen := h.1
  have hoff := Key_calculate_offset_eq data (data.length - 1) (data.headD [])
    (data.headD []).length (by omega) (by omega) (by omega) (by
      intro k hk1 hk2
      obtain ⟨block, e1, e2, -, e4, e5⟩ := KeyRules_blocks data h k (by omega)
      have hpos : 0 < block.length := by omega
      refine ⟨block, block[0], e1, List.getElem?_eq_getElem hpos, ?_⟩
      exact (e4 _).1 (List.getElem_mem hpos))
  rw [hoff, key_offset]

theorem Key_call_offset (data : list) (K : Key) (o : Nat) (hn : data.length ≤ 32768)
    (hK : Key_call data = some K)
    (ho : Key_calculate_offset K.data K.prefix_len K.base K.size = some o) :
    KeyRules data ∧ K = key_tables data ∧ o = key_offset data := by
  obtain ⟨hr, rfl⟩ := (Key_call_eq_some_iff data K hn).1 hK
  refine ⟨hr, rfl, ?_⟩
  have h := key_offset_call data hn hr
  have ho2 : Key_calculate_offset data (data.length - 1) (data.headD []) (data.headD []).length =
      some o := ho
  rw [h] at ho2
  exact (Option.some.inj ho2).symm

theorem run_take (step : deque → byte → Option (byte × deque)) (contains : byte → Bool)
    (x : bytes) : ∀ (n : Nat) (d : deque) (out : bytes) (d2 : deque),
      run step contains d x = some (out, d2) →
        ∃ mid, run step contains d (x.take n) = some (out.take n, mid) := by
  induction x with
  | nil =>
    intro n d out d2 h
    simp only [run, Option.some.injEq, Prod.mk.injEq] at h
    refine ⟨d, ?_⟩
    rw [← h.1]
    simp [run]
  | cons v rest ih =>
    intro n d out d2 h
    cases n with
    | zero => exact ⟨d, by simp [run]⟩
    | succ m =>
      rw [List.take_succ_cons]
      by_cases hc : contains v = true
      · simp only [run, hc, if_true] at h ⊢
        cases hs : step d v with
        | none => rw [hs] at h; simp at h
        | some r =>
          rw [hs] at h
          simp only [Option.some_bind] at h ⊢
          cases hr : run step contains r.2 rest with
          | none => rw [hr] at h; simp at h
          | some s =>
            rw [hr] at h
            simp only [Option.map_some', Option.some.injEq, Prod.mk.injEq] at h
            obtain ⟨mid, hm⟩ := ih m r.2 s.1 s.2 hr
            refine ⟨mid, ?_⟩
            rw [hm, ← h.1]
            simp
      · simp only [run, hc, Bool.false_eq_true, if_false] at h ⊢
        cases hr : run step contains d rest with
        | none => rw [hr] at h; simp at h
        | some s =>
          rw [hr] at h
          simp only [Option.map_some', Option.some.injEq, Prod.mk.injEq] at h
          obtain ⟨mid, hm⟩ := ih m d s.1 s.2 hr
          refine ⟨mid, ?_⟩
          rw [hm, ← h.1]
          simp

/-! ## Integer helpers -/

theorem tmod_nonpos (a b : Int) (ha : a ≤ 0) : Int.tmod a b ≤ 0 := by
  cases a with
  | ofNat m =>
    have hm : m = 0 := by
      have : (m : Int) ≤ 0 := ha
      omega
    subst hm
    simp
  | negSucc m =>
    cases b with
    | ofNat n =>
      show -(((m + 1) % n : Nat) : Int) ≤ 0
      omega
    | negSucc n =>
      show -(((m + 1) % (n + 1) : Nat) : Int) ≤ 0
      omega

theorem int_mod_congr (a m : Int) : (int_mod a m - a) % m = 0 := by
  have e1 := Int.tmod_def a m
  have e2 := Int.tmod_def (Int.tmod a m + m) m
  have h : int_mod a m - a =
      m * (1 - a.tdiv m - (Int.tmod a m + m).tdiv m) := by
    show Int.tmod (Int.tmod a m + m) m - a = _
    rw [e2]
    generalize (Int.tmod a m + m).tdiv m = q2
    rw [e1]
    ring
  rw [h, Int.mul_emod_right]

theorem int_mod_neg (a m : Int) (hm : m < 0) : m < int_mod a m ∧ int_mod a m ≤ 0 := by
  have h2 := tmod_gt_neg a (-m) (by omega)
  have h3 : Int.tmod a (-m) < -m := Int.tmod_lt_of_pos a (by omega)
  rw [Int.tmod_neg] at h2 h3
  have h4 := tmod_gt_neg (Int.tmod a m + m) (-m) (by omega)
  rw [Int.tmod_neg] at h4
  have h5 := tmod_nonpos (Int.tmod a m + m) m (by omega)
  exact ⟨by simpa using h4, h5⟩

/-! ## The offset and the axes of a key -/

theorem offset_sum_set (data : list) (L : Nat) (base block : bytes) :
    offset_sum (data.set L block) L base = offset_sum data L base := by
  unfold offset_sum
  congr 1
  apply List.map_congr_left
  intro k hk
  rw [List.mem_range] at hk
  have hne : L ≠ 1 + k := by omega
  simp only [List.getD_eq_getElem?_getD, List.getElem?_set_ne hne]

theorem key_offset_int (data : list) (h : KeyRules data) :
    ((key_offset data : Nat) : Int) =
      (-(offset_sum data (data.length - 1) (data.headD []) : Int)) %
        ((data.headD []).length : Int) := by
  obtain ⟨-, h2, h3⟩ := KeyRules_base data h
  have h256 := nodup_length_le_256 _ h3
  have hpos : (0 : Int) < ((data.headD []).length : Int) := by omega
  have hlt := int_mod_toNat_lt (-(offset_sum data (data.length - 1) (data.headD []) : Int))
    (data.headD []).length (by omega)
  rw [key_offset, Nat.mod_eq_of_lt (by omega), int_mod_eq_emod _ _ hpos]
  exact Int.toNat_of_nonneg (Int.emod_nonneg _ (by omega))

theorem Key_calculate_offset_set (data : list) (hn : data.length ≤ 32768) (h : KeyRules data)
    (block : bytes) :
    Key_calculate_offset (data.set (data.length - 1) block) (data.length - 1) (data.headD [])
      (data.headD []).length = some (key_offset data) := by
  obtain ⟨hb0, hb2, hbnd⟩ := KeyRules_base data h
  have hlen := h.1
  have hoff := Key_calculate_offset_eq (data.set (data.length - 1) block) (data.length - 1)
    (data.headD []) (data.headD []).length (by omega) (by omega) (by omega) (by
      intro k hk1 hk2
      obtain ⟨blk, e1, e2, -, e4, e5⟩ := KeyRules_blocks data h k (by omega)
      have hpos : 0 < blk.length := by omega
      have hne : data.length - 1 ≠ k := by omega
      refine ⟨blk, blk[0], ?_, List.getElem?_eq_getElem hpos, ?_⟩
      · rw [List.getElem?_set_ne hne, e1]
      · exact (e4 _).1 (List.getElem_mem hpos))
  rw [hoff, offset_sum_set, key_offset]

theorem key_tables_axes_getElem (data : list) (h : KeyRules data) (j : Nat)
    (hj : j < data.length - 1) :
    ∃ block, data[data.length - 1 - j]? = some block ∧
      block.length = (data.headD []).length ∧ (∀ b ∈ block, b ∈ data.headD []) ∧
      (key_tables data).axes[j]? = some (axes_table (data.headD []) block) := by
  obtain ⟨block, e1, e2, -, e4, -⟩ := KeyRules_blocks data h (data.length - 1 - j) (by omega)
  refine ⟨block, e1, e2, fun b hb => (e4 b).1 hb, ?_⟩
  show ((List.range (data.length - 1)).map
    (fun j => axes_table (data.headD []) (data.getD (data.length - 1 - j) [])))[j]? = _
  rw [List.getElem?_map, List.getElem?_range hj]
  simp only [Option.map_some', List.getD_eq_getElem?_getD, e1, Option.getD_some]

theorem int_ceildiv_pos (a b : Int) (hb : 0 < b) :
    b * (int_ceildiv a b - 1) < a ∧ a ≤ b * int_ceildiv a b := by
  have e := Int.tmod_add_tdiv a b
  have h1 := tmod_gt_neg a b hb
  have h2 := Int.tmod_lt_of_pos a hb
  unfold int_ceildiv
  generalize Int.tmod a b = r at *
  generalize Int.tdiv a b = q at *
  split_ifs with h
  · constructor <;> nlinarith
  · constructor <;> nlinarith

/-! ## Position by position -/

theorem run_rel (step : deque → byte → Option (byte × deque)) (contains : byte → Bool)
    (Inv : deque → Prop) (R : byte → byte → Prop)
    (hstep : ∀ d v, Inv d → contains v = true → ∀ o d2, step d v = some (o, d2) →
      Inv d2 ∧ R o v)
    (hcopy : ∀ v, contains v = false → R v v) (x : bytes) :
    ∀ (d : deque) (out : bytes) (d2 : deque), Inv d → run step contains d x = some (out, d2) →
      List.Forall₂ R out x := by
  induction x with
  | nil =>
    intro d out d2 _ h
    simp only [run, Option.some.injEq, Prod.mk.injEq] at h
    rw [← h.1]
    exact List.Forall₂.nil
  | cons v rest ih =>
    intro d out d2 hd h
    by_cases hc : contains v = true
    · simp only [run, hc, if_true] at h
      cases hs : step d v with
      | none => rw [hs] at h; simp at h
      | some r =>
        rw [hs] at h
        simp only [Option.some_bind] at h
        cases hr : run step contains r.2 rest with
        | none => rw [hr] at h; simp at h
        | some s =>
          rw [hr] at h
          simp only [Option.map_some', Option.some.injEq, Prod.mk.injEq] at h
          obtain ⟨hi, hR⟩ := hstep d v hd hc r.1 r.2 hs
          rw [← h.1]
          exact List.Forall₂.cons hR (ih r.2 s.1 s.2 hi hr)
    · simp only [run, hc, Bool.false_eq_true, if_false] at h
      cases hr : run step contains d rest with
      | none => rw [hr] at h; simp at h
      | some s =>
        rw [hr] at h
        simp only [Option.map_some', Option.some.injEq, Prod.mk.injEq] at h
        rw [← h.1]
        exact List.Forall₂.cons (hcopy v (by simpa using hc)) (ih d s.1 s.2 hd hr)

theorem forall₂_getElem {α β : Type} (R : α → β → Prop) (l1 : List α) (l2 : List β)
    (h : List.Forall₂ R l1 l2) :
    ∀ (i : Nat) (hi : i < l2.length), ∃ a, l1[i]? = some a ∧ R a l2[i] := by
  induction h with
  | nil => intro i hi; simp at hi
  | @cons a b t1 t2 hab _ ih =>
    intro i hi
    cases i with
    | zero => exact ⟨a, by simp, by simpa using hab⟩
    | succ j =>
      obtain ⟨a, h1, h2⟩ := ih j (by simpa using hi)
      exact ⟨a, by simpa using h1, by simpa using h2⟩

theorem deque_view_getElem (d : deque) (k : Nat) (hk : k < d.buffer.length) :
    (deque_view d)[k]? = d.buffer[(d.offset + k) % d.buffer.length]? := by
  rw [deque_view, List.getElem?_rotate hk, Nat.add_comm]

/-! ## The decoder grid, entry by entry -/

theorem shift_positions_pairwise (size offset : Nat) {β : Type} (f : Nat → β) :
    ((List.range size).map (fun r => ((r + offset) % size, f r))).Pairwise
      (fun a b => a.1 ≠ b.1) := by
  rw [List.pairwise_iff_getElem]
  intro i j hi hj hij
  simp only [List.length_map, List.length_range] at hi hj
  simp only [List.getElem_map, List.getElem_range]
  intro he
  rw [Nat.add_comm i, Nat.add_comm j] at he
  have := mod_add_inj offset i j size hi hj he
  omega

theorem shift_cover (size offset s : Nat) (hs : s < size) :
    ∃ r, r < size ∧ (r + offset) % size = s := by
  have hnd : ((List.range size).map (fun r => (r + offset) % size)).Nodup := by
    rw [List.Nodup, List.pairwise_iff_getElem]
    intro i j hi hj hij
    simp only [List.length_map, List.length_range] at hi hj
    simp only [List.getElem_map, List.getElem_range]
    intro he
    rw [Nat.add_comm i, Nat.add_comm j] at he
    have := mod_add_inj offset i j size hi hj he
    omega
  have hcov := positions_cover _ size hnd
    (by
      intro q hq
      obtain ⟨r, -, rfl⟩ := List.mem_map.mp hq
      exact Nat.mod_lt _ (by omega))
    (by simp) s hs
  obtain ⟨r, hr, hrs⟩ := List.mem_map.mp hcov
  exact ⟨r, List.mem_range.mp hr, hrs⟩

theorem decoder_grid_getElem (base order : bytes) (size offset r : Nat) (hr : r < size) :
    (decoder_grid base order size offset)[(r + offset) % size]? =
      some (decoder_row base order size r) := by
  have h := foldl_set_getElem?_of_mem
    ((List.range size).map (fun r => ((r + offset) % size, decoder_row base order size r)))
    (list_call size) (shift_positions_pairwise size offset _)
    (by
      intro p hp
      obtain ⟨r, -, rfl⟩ := List.mem_map.mp hp
      simp only [list_call, List.length_replicate]
      exact Nat.mod_lt _ (by omega))
    ((r + offset) % size, decoder_row base order size r)
    (List.mem_map.mpr ⟨r, List.mem_range.mpr hr, rfl⟩)
  exact h

theorem decoder_row_getElem (base order : bytes) (size r i : Nat) (hsize : 0 < size)
    (hbase : base.length = size) (horder : order.length = size) (hbnd : base.Nodup)
    (hmem : ∀ b, b ∈ base → b ∈ order) (hi : i < size) :
    (decoder_row base order size r)[List.indexOf (base.getD ((r + i) % size) 0) order]? =
      order[i]? := by
  have hi2 : i < order.length := by omega
  have h := foldl_set_getElem?_of_mem (decoder_row_writes base order size r) (bytes_call size)
    (decoder_row_writes_pairwise base order size r hbase horder hbnd hmem)
    (decoder_row_writes_lt base order size r hsize hbase horder hmem)
    (List.indexOf (base.getD ((r + i) % size) 0) order, order[i])
    (by
      rw [decoder_row_writes]
      exact List.mem_map.mpr ⟨(i, order[i]),
        List.mk_mem_enum_iff_getElem?.mpr (List.getElem?_eq_getElem hi2), rfl⟩)
  rw [List.getElem?_eq_getElem hi2]
  exact h

theorem decoder_row_perm (base order : bytes) (size r : Nat) (hsize : 0 < size)
    (hbase : base.length = size) (horder : order.length = size) (hbnd : base.Nodup)
    (hond : order.Nodup) (hmem : ∀ b, b ∈ base → b ∈ order) :
    (decoder_row base order size r).Perm order := by
  have hsub : order ⊆ decoder_row base order size r := by
    intro v hv
    obtain ⟨i, hi, rfl⟩ := List.getElem_of_mem hv
    have h := decoder_row_getElem base order size r i hsize hbase horder hbnd hmem (by omega)
    rw [List.getElem?_eq_getElem hi] at h
    exact List.getElem?_mem h
  have hp := (List.subperm_of_subset hond hsub).perm_of_length_le
    (by rw [decoder_row_length, horder])
  exact hp.symm

theorem decoder_row_positions_perm (base order : bytes) (size r : Nat) (hsize : 0 < size)
    (hbase : base.length = size) (horder : order.length = size) (hbnd : base.Nodup)
    (hmem : ∀ b, b ∈ base → b ∈ order) :
    ((decoder_row_writes base order size r).map Prod.fst).Perm (List.range size) := by
  have hpw := decoder_row_writes_pairwise base order size r hbase horder hbnd hmem
  have hnd : ((decoder_row_writes base order size r).map Prod.fst).Nodup := by
    rw [List.Nodup, List.pairwise_map]
    exact hpw
  have hsub : (decoder_row_writes base order size r).map Prod.fst ⊆ List.range size := by
    intro q hq
    obtain ⟨p, hp, rfl⟩ := List.mem_map.mp hq
    have := decoder_row_writes_lt base order size r hsize hbase horder hmem p hp
    simp only [bytes_call, List.length_replicate] at this
    exact List.mem_range.mpr this
  exact (List.subperm_of_subset hnd hsub).perm_of_length_le
    (by simp [decoder_row_writes, horder])

/-! ## Decoding after encoding -/

theorem shift_arith (n r o S c : Nat) (hro : (r + o) % n = S % n) :
    (r + (c + 2 * o) % n) % n = ((S + c) % n + o) % n := by
  have h1 : r + (c + 2 * o) % n ≡ r + (c + 2 * o) [MOD n] :=
    Nat.ModEq.add_left r (Nat.mod_modEq _ _)
  have h2 : r + (c + 2 * o) = (r + o) + (c + o) := by omega
  have h3 : (r + o) + (c + o) ≡ S + (c + o) [MOD n] := Nat.ModEq.add_right _ hro
  have h4 : S + (c + o) = (S + c) + o := by omega
  have h5 : (S + c) % n + o ≡ (S + c) + o [MOD n] := Nat.ModEq.add_right o (Nat.mod_modEq _ _)
  rw [h2] at h1
  rw [h4] at h3
  exact (h1.trans h3).trans h5.symm

theorem key_tables_decoder_getElem (data : list) (r : Nat) (hr : r < (data.headD []).length) :
    (key_tables data).decoder[(r + key_offset data) % (data.headD []).length]? =
      some (decoder_row (data.headD []) (bytes_sort (data.headD [])) (data.headD []).length r) :=
  decoder_grid_getElem _ _ _ _ r hr

theorem decode_encode_core (data : list) (hr : KeyRules data) (d : deque) (c : byte)
    (hd : PrefixInv (key_tables data) d) :
    ∃ y z, Key_encode (key_tables data) d c = some y ∧ y ∈ (key_tables data).base ∧
      Key_decode (key_tables data) d (code_of (key_tables data).order y) = some z ∧
      (key_tables data).order[(c.val + 2 * key_offset data) % (key_tables data).size]? =
        some z := by
  have hwf := key_tables_wf data hr
  obtain ⟨hnd, hs, hol, hmem⟩ := KeyWF_order _ hwf
  obtain ⟨hb0, hb2, hbnd⟩ := KeyRules_base data hr
  obtain ⟨y, hy1, hy2, hy3⟩ := Key_encode_of_inv _ d c hwf hd
  have hy4 := (hmem y).1 hy2
  have hcl := code_of_lt _ hnd y hy4
  have hcv := code_of_val _ hnd y hy4
  obtain ⟨z, hz1, hz2, hz3⟩ := Key_decode_of_inv _ d (code_of (key_tables data).order y) hwf hd
    (by rw [← hol]; exact hcl)
  refine ⟨y, z, hy1, hy2, hz1, ?_⟩
  have hn : 0 < (data.headD []).length := by omega
  have hsz : (key_tables data).size = (data.headD []).length := rfl
  obtain ⟨r, hr1, hr2⟩ := shift_cover (data.headD []).length (key_offset data)
    (history_sum (key_tables data).axes (deque_view d) % (data.headD []).length)
    (Nat.mod_lt _ hn)
  have hrow := key_tables_decoder_getElem data r hr1
  rw [hr2] at hrow
  have hgd : (key_tables data).decoder.getD
      (history_sum (key_tables data).axes (deque_view d) % (key_tables data).size) [] =
      decoder_row (data.headD []) (bytes_sort (data.headD [])) (data.headD []).length r := by
    rw [List.getD_eq_getElem?_getD, hsz, hrow]
    rfl
  rw [hgd, hcv] at hz3
  have hi : (c.val + 2 * key_offset data) % (data.headD []).length < (data.headD []).length :=
    Nat.mod_lt _ hn
  have hrg := decoder_row_getElem (data.headD []) (bytes_sort (data.headD []))
    (data.headD []).length r ((c.val + 2 * key_offset data) % (data.headD []).length) hn rfl
    (bytes_sort_length _) hbnd (fun b hb => (mem_bytes_sort _ b).2 hb) hi
  have har := shift_arith (data.headD []).length r (key_offset data)
    (history_sum (key_tables data).axes (deque_view d)) c.val
    hr2
  have hy5 : ((data.headD []).rotate (key_offset data))[
      (history_sum (key_tables data).axes (deque_view d) + c.val) % (data.headD []).length]? =
      some y := hy3
  rw [List.getElem?_rotate (Nat.mod_lt _ hn)] at hy5
  have hgy : (data.headD []).getD
      ((r + (c.val + 2 * key_offset data) % (data.headD []).length) % (data.headD []).length) 0 =
      y := by
    rw [har, List.getD_eq_getElem?_getD, hy5]
    rfl
  rw [hgy] at hrg
  show (bytes_sort (data.headD []))[(c.val + 2 * key_offset data) % (data.headD []).length]? = _
  rw [← hrg]
  exact hz3

theorem deque_call_inv (K : Key) (H : bytes) (hlen : H.length = K.prefix_len)
    (hH : ∀ e ∈ H, e.val < K.size) : PrefixInv K (deque_call H) :=
  ⟨deque_valid_call H, hlen, hH⟩

theorem shift_fixed_iff (n c o : Nat) (hc : c < n) : (c + 2 * o) % n = c ↔ (2 * o) % n = 0 := by
  constructor
  · intro h
    have h1 : c + 2 * o ≡ c + 0 [MOD n] := by
      show (c + 2 * o) % n = (c + 0) % n
      rw [h, Nat.add_zero, Nat.mod_eq_of_lt hc]
    have h2 := Nat.ModEq.add_left_cancel' c h1
    exact h2
  · intro h
    have h1 : c + 2 * o ≡ c + 0 [MOD n] := Nat.ModEq.add_left c h
    have h2 : (c + 2 * o) % n = (c + 0) % n := h1
    rw [h2, Nat.add_zero, Nat.mod_eq_of_lt hc]

/-! ## The round trip for keys whose doubled offset vanishes -/

theorem round_trip_step (data : list) (hr : KeyRules data)
    (h2 : (2 * key_offset data) % (key_tables data).size = 0) (d : deque) (v : byte)
    (hd : PrefixInv (key_tables data) d) (hv : v ∈ (key_tables data).base) :
    ∃ y d2, Encrypter_step (encoder_dict (key_tables data).order) (key_tables data) d v =
        some (y, d2) ∧
      Decrypter_step (encoder_dict (key_tables data).order) (key_tables data) d y =
        some (v, d2) ∧
      PrefixInv (key_tables data) d2 ∧ y ∈ (key_tables data).base := by
  have hwf := key_tables_wf data hr
  obtain ⟨hnd, -, hol, hmem⟩ := KeyWF_order _ hwf
  have hv2 := (hmem v).1 hv
  have hcl := code_of_lt _ hnd v hv2
  have hc : (code_of (key_tables data).order v).val < (key_tables data).size := by
    rw [← hol]; exact hcl
  obtain ⟨y, z, hy1, hy2, hz1, hz2⟩ := decode_encode_core data hr d
    (code_of (key_tables data).order v) hd
  have hy3 := (hmem y).1 hy2
  rw [(shift_fixed_iff _ _ _ hc).2 h2, getElem_code_of _ hnd v hv2] at hz2
  have hzv : z = v := (Option.some.inj hz2).symm
  subst hzv
  obtain ⟨d2, hd1, hd2, -⟩ := deque_append_of_inv _ d (code_of (key_tables data).order z) hwf hd hc
  refine ⟨y, d2, ?_, ?_, hd2, hy2⟩
  · simp only [Encrypter_step, encoder_dict_getitem _ hnd, if_pos hv2, Option.some_bind, hy1, hd1]
  · simp only [Decrypter_step, encoder_dict_getitem _ hnd, if_pos hy3, Option.some_bind, hz1,
      if_pos hv2, hd1]

theorem run_inverse (enc dec : deque → byte → Option (byte × deque)) (contains : byte → Bool)
    (Inv : deque → Prop)
    (hstep : ∀ d v, Inv d → contains v = true →
      ∃ y d2, enc d v = some (y, d2) ∧ dec d y = some (v, d2) ∧ Inv d2 ∧ contains y = true)
    (x : bytes) : ∀ d : deque, Inv d →
      ∃ out d2, run enc contains d x = some (out, d2) ∧
        run dec contains d out = some (x, d2) ∧ Inv d2 := by
  induction x with
  | nil =>
    intro d hd
    exact ⟨[], d, rfl, rfl, hd⟩
  | cons v rest ih =>
    intro d hd
    by_cases hc : contains v = true
    · obtain ⟨y, d1, h1, h2, h3, h4⟩ := hstep d v hd hc
      obtain ⟨out, d2, e1, e2, e3⟩ := ih d1 h3
      refine ⟨y :: out, d2, ?_, ?_, e3⟩
      · simp only [run, hc, if_true, h1, Option.some_bind, e1, Option.map_some']
      · simp only [run, h4, if_true, h2, Option.some_bind, e2, Option.map_some']
    · obtain ⟨out, d2, e1, e2, e3⟩ := ih d hd
      refine ⟨v :: out, d2, ?_, ?_, e3⟩
      · simp only [run, hc, Bool.false_eq_true, if_false, e1, Option.map_some']
      · simp only [run, hc, Bool.false_eq_true, if_false, e2, Option.map_some']

theorem offset_sum_zero (data : list) (L : Nat) (base : bytes)
    (h : ∀ k, 1 ≤ k → k < L → (data.getD k []).headD 0 = base.headD 0) (hb : base ≠ []) :
    offset_sum data L base = 0 := by
  unfold offset_sum
  apply List.sum_eq_zero
  intro n hn
  obtain ⟨k, hk, rfl⟩ := List.mem_map.mp hn
  rw [List.mem_range] at hk
  rw [h (1 + k) (by omega) (by omega)]
  cases base with
  | nil => exact absurd rfl hb
  | cons a t => simp

/-! ## Permutations in the axes and along the axes of the grid -/

theorem index_map_eq_range (base : bytes) (hbnd : base.Nodup) :
    base.map (fun b => List.indexOf b base) = List.range base.length := by
  apply List.ext_getElem
  · simp
  · intro i h1 h2
    simp only [List.getElem_map, List.getElem_range]
    exact List.indexOf_getElem hbnd i _

theorem axes_table_perm (base block : bytes) (hbnd : base.Nodup) (hblk : block.Nodup)
    (hmem : ∀ b, b ∈ block ↔ b ∈ base) (h256 : base.length ≤ 256) :
    ((axes_table base block).map Fin.val).Perm (List.range base.length) := by
  have hp : block.Perm base := (List.perm_ext_iff_of_nodup hblk hbnd).2 hmem
  have h1 : (axes_table base block).map Fin.val = block.map (fun b => List.indexOf b base) := by
    rw [axes_table, List.map_map]
    apply List.map_congr_left
    intro b hb
    have hlt := List.indexOf_lt_length.2 ((hmem b).1 hb)
    exact fin_ofNat_val _ (by omega)
  rw [h1, ← index_map_eq_range base hbnd]
  exact hp.map _

theorem history_sum_set (axes : list) (H : bytes) (k : Nat) (hk : k < H.length) :
    ∃ C, ∀ h : byte,
      history_sum axes (H.set k h) = C + ((axes.getD k []).getD h.val 0).val := by
  obtain ⟨A, x, B, hAB, hA⟩ : ∃ A x B, H = A ++ x :: B ∧ A.length = k := by
    refine ⟨H.take k, H[k], H.drop (k + 1), ?_, ?_⟩
    · rw [List.getElem_cons_drop, List.take_append_drop]
    · rw [List.length_take]; omega
  refine ⟨((A.enum.map
      (fun entry => ((axes.getD entry.1 []).getD entry.2.val 0).val)).sum) +
    (((B.enumFrom (k + 1)).map
      (fun entry => ((axes.getD entry.1 []).getD entry.2.val 0).val)).sum), ?_⟩
  intro h
  have hset : H.set k h = A ++ h :: B := by
    rw [hAB, ← hA]
    simp
  rw [hset, history_sum, List.enum_append, hA]
  simp only [List.enumFrom_cons, List.map_append, List.map_cons, List.sum_append, List.sum_cons]
  omega

theorem Key_encode_eq (K : Key) (H : bytes) (c : byte) (hK : KeyWF K)
    (hlen : H.length = K.prefix_len) (hH : ∀ e ∈ H, e.val < K.size) :
    Key_encode K (deque_call H) c = K.encoder[(history_sum K.axes H + c.val) % K.size]? ∧
    ∃ y ∈ K.base, Key_encode K (deque_call H) c = some y := by
  obtain ⟨y, h1, h2, h3⟩ := Key_encode_of_inv K (deque_call H) c hK (deque_call_inv K H hlen hH)
  rw [deque_view_call] at h3
  exact ⟨by rw [h1, h3], y, h2, h1⟩

theorem grid_axis_bijection (E : bytes) (n : Nat) (hn : n ≤ 256) (hE : E.length = n)
    (hnd : E.Nodup) (g : byte → Nat)
    (hinj : ∀ x1 x2 : byte, x1.val < n → x2.val < n → g x1 % n = g x2 % n → x1 = x2)
    (hsurj : ∀ j, j < n → ∃ x : byte, x.val < n ∧ g x % n = j) :
    (∀ x1 x2 : byte, x1.val < n → x2.val < n → E[g x1 % n]? = E[g x2 % n]? → x1 = x2) ∧
    (∀ b ∈ E, ∃ x : byte, x.val < n ∧ E[g x % n]? = some b) := by
  constructor
  · intro x1 x2 h1 h2 he
    have hpos : 0 < n := by omega
    have l1 : g x1 % n < E.length := by rw [hE]; exact Nat.mod_lt _ hpos
    have l2 : g x2 % n < E.length := by rw [hE]; exact Nat.mod_lt _ hpos
    rw [List.getElem?_eq_getElem l1, List.getElem?_eq_getElem l2, Option.some.injEq,
      List.Nodup.getElem_inj_iff hnd] at he
    exact hinj x1 x2 h1 h2 he
  · intro b hb
    obtain ⟨j, hj, rfl⟩ := List.getElem_of_mem hb
    obtain ⟨x, hx1, hx2⟩ := hsurj j (by omega)
    refine ⟨x, hx1, ?_⟩
    rw [hx2, List.getElem?_eq_getElem hj]

theorem table_values (T : bytes) (n : Nat) (hlen : T.length = n)
    (hperm : (T.map Fin.val).Perm (List.range n)) :
    (∀ h1 h2 : byte, h1.val < n → h2.val < n →
      (T.getD h1.val 0).val = (T.getD h2.val 0).val → h1 = h2) ∧
    (∀ h : byte, h.val < n → (T.getD h.val 0).val < n) ∧
    (∀ t, t < n → ∃ h : Nat, h < n ∧ (T.getD h 0).val = t) := by
  have hndv : (T.map Fin.val).Nodup := hperm.nodup_iff.2 (List.nodup_range n)
  have hnd : T.Nodup := List.Nodup.of_map _ hndv
  refine ⟨?_, ?_, ?_⟩
  · intro h1 h2 l1 l2 he
    have l1' : h1.val < T.length := by omega
    have l2' : h2.val < T.length := by omega
    rw [List.getD_eq_getElem _ _ l1', List.getD_eq_getElem _ _ l2'] at he
    have he2 : T[h1.val] = T[h2.val] := Fin.ext he
    exact Fin.ext ((List.Nodup.getElem_inj_iff hnd).1 he2)
  · intro h l
    have l' : h.val < T.length := by omega
    rw [List.getD_eq_getElem _ _ l']
    have hm : (T[h.val]).val ∈ T.map Fin.val := List.mem_map.mpr ⟨_, List.getElem_mem l', rfl⟩
    exact List.mem_range.mp (hperm.mem_iff.1 hm)
  · intro t ht
    have hm : t ∈ T.map Fin.val := hperm.mem_iff.2 (List.mem_range.mpr ht)
    obtain ⟨x, hx, rfl⟩ := List.mem_map.mp hm
    obtain ⟨h, hh, rfl⟩ := List.getElem_of_mem hx
    exact ⟨h, by omega, by rw [List.getD_eq_getElem _ _ hh]⟩

theorem axes_permutations_aux (data : list) (K : Key) (k : Nat) (hn : data.length ≤ 32768)
    (hK : Key_call data = some K) (hk : k < K.prefix_len) :
    ∃ table, K.axes[k]? = some table ∧ table.length = K.size ∧
      (table.map Fin.val).Perm (List.range K.size) ∧ table.Nodup := by
  obtain ⟨hr, rfl⟩ := (Key_call_eq_some_iff data K hn).1 hK
  obtain ⟨-, -, hbnd⟩ := KeyRules_base data hr
  have h256 := nodup_length_le_256 _ hbnd
  obtain ⟨block, e1, e2, -, e4⟩ := key_tables_axes_getElem data hr k hk
  obtain ⟨blk, f1, -, f3, f4, -⟩ := KeyRules_blocks data hr (data.length - 1 - k) (by
    have : k < data.length - 1 := hk
    omega)
  rw [e1] at f1
  obtain rfl := Option.some.inj f1
  have hp := axes_table_perm (data.headD []) block hbnd f3 f4 h256
  refine ⟨_, e4, ?_, hp, ?_⟩
  · rw [axes_table, List.length_map, e2]
    rfl
  · exact List.Nodup.of_map _ (hp.nodup_iff.2 (List.nodup_range _))

/-! ## The prefix as the recent plaintext -/

theorem drop_window {α : Type} (A W : List α) (L : Nat) (h : L ≤ W.length) :
    (A ++ W).drop ((A ++ W).length - L) = W.drop (W.length - L) := by
  have e : (A ++ W).length - L = A.length + (W.length - L) := by
    rw [List.length_append]; omega
  rw [e, List.drop_append]

theorem window_step {α : Type} (V R : List α) (c : α) (L : Nat) (hV : V.length = L)
    (hL : 1 ≤ L) :
    ((V.drop 1 ++ [c]) ++ R).drop (((V.drop 1 ++ [c]) ++ R).length - L) =
      (V ++ c :: R).drop ((V ++ c :: R).length - L) := by
  have e : V ++ c :: R = V.take 1 ++ ((V.drop 1 ++ [c]) ++ R) := by
    simp only [List.append_assoc, List.singleton_append]
    rw [← List.append_assoc, List.take_append_drop]
  rw [e]
  refine (drop_window (V.take 1) ((V.drop 1 ++ [c]) ++ R) L ?_).symm
  simp only [List.length_append, List.length_drop, List.length_singleton]
  omega

theorem run_view_encrypt (K : Key) (hK : KeyWF K) (x : bytes) :
    ∀ d : deque, PrefixInv K d →
      ∃ out d2, run (Encrypter_step (encoder_dict K.order) K)
          (dict_contains (encoder_dict K.order)) d x = some (out, d2) ∧ PrefixInv K d2 ∧
        deque_view d2 =
          (deque_view d ++ (x.filter (fun b => decide (b ∈ K.base))).map (code_of K.order)).drop
            ((deque_view d ++
              (x.filter (fun b => decide (b ∈ K.base))).map (code_of K.order)).length -
              K.prefix_len) := by
  obtain ⟨-, -, -, hmem⟩ := KeyWF_order K hK
  induction x with
  | nil =>
    intro d hd
    refine ⟨[], d, rfl, hd, ?_⟩
    have hl : (deque_view d).length = K.prefix_len := by rw [deque_view_length]; exact hd.2.1
    simp [hl]
  | cons v rest ih =>
    intro d hd
    have hl : (deque_view d).length = K.prefix_len := by rw [deque_view_length]; exact hd.2.1
    by_cases hv : v ∈ K.base
    · have hc : dict_contains (encoder_dict K.order) v = true := by
        rw [encoder_dict_contains, decide_eq_true_eq]; exact (hmem v).1 hv
      obtain ⟨o, d1, h1, h2, -, -, h5⟩ := Encrypter_step_of_inv K d v hK hd hv
      obtain ⟨out, d2, e1, e2, e3⟩ := ih d1 h2
      refine ⟨o :: out, d2, ?_, e2, ?_⟩
      · simp only [run, hc, if_true, h1, Option.some_bind, e1, Option.map_some']
      · rw [e3, h5, List.filter_cons_of_pos (by simpa using hv), List.map_cons]
        exact window_step _ _ _ _ hl hK.1
    · have hc : dict_contains (encoder_dict K.order) v = false := by
        rw [encoder_dict_contains, decide_eq_false_iff_not]
        intro h; exact hv ((hmem v).2 h)
      obtain ⟨out, d2, e1, e2, e3⟩ := ih d hd
      refine ⟨v :: out, d2, ?_, e2, ?_⟩
      · simp only [run, hc, Bool.false_eq_true, if_false, e1, Option.map_some']
      · rw [e3, List.filter_cons_of_neg (by simpa using hv)]

theorem run_view_decrypt (K : Key) (hK : KeyWF K) (x : bytes) :
    ∀ d : deque, PrefixInv K d →
      ∃ out d2, run (Decrypter_step (encoder_dict K.order) K)
          (dict_contains (encoder_dict K.order)) d x = some (out, d2) ∧ PrefixInv K d2 ∧
        deque_view d2 =
          (deque_view d ++
            (out.filter (fun b => decide (b ∈ K.base))).map (code_of K.order)).drop
            ((deque_view d ++
              (out.filter (fun b => decide (b ∈ K.base))).map (code_of K.order)).length -
              K.prefix_len) := by
  obtain ⟨-, -, -, hmem⟩ := KeyWF_order K hK
  induction x with
  | nil =>
    intro d hd
    refine ⟨[], d, rfl, hd, ?_⟩
    have hl : (deque_view d).length = K.prefix_len := by rw [deque_view_length]; exact hd.2.1
    simp [hl]
  | cons v rest ih =>
    intro d hd
    have hl : (deque_view d).length = K.prefix_len := by rw [deque_view_length]; exact hd.2.1
    by_cases hv : v ∈ K.base
    · have hc : dict_contains (encoder_dict K.order) v = true := by
        rw [encoder_dict_contains, decide_eq_true_eq]; exact (hmem v).1 hv
      obtain ⟨o, d1, h1, h2, h3, -, h5⟩ := Decrypter_step_of_inv K d v hK hd hv
      obtain ⟨out, d2, e1, e2, e3⟩ := ih d1 h2
      refine ⟨o :: out, d2, ?_, e2, ?_⟩
      · simp only [run, hc, if_true, h1, Option.some_bind, e1, Option.map_some']
      · rw [e3, h5, List.filter_cons_of_pos (by simpa using h3), List.map_cons]
        exact window_step _ _ _ _ hl hK.1
    · have hc : dict_contains (encoder_dict K.order) v = false := by
        rw [encoder_dict_contains, decide_eq_false_iff_not]
        intro h; exact hv ((hmem v).2 h)
      obtain ⟨out, d2, e1, e2, e3⟩ := ih d hd
      refine ⟨v :: out, d2, ?_, e2, ?_⟩
      · simp only [run, hc, Bool.false_eq_true, if_false, e1, Option.map_some']
      · rw [e3, List.filter_cons_of_neg (by simpa using hv)]

theorem decode_window (K : Key) (hK : KeyWF K) (W : bytes) (hW : ∀ w ∈ W, w ∈ K.base)
    (n : Nat) :
    ((W.map (code_of K.order)).drop n).map (fun e => K.order.getD e.val 0) = W.drop n := by
  obtain ⟨hnd, -, -, hmem⟩ := KeyWF_order K hK
  rw [← List.map_drop, List.map_map]
  conv_rhs => rw [← List.map_id (W.drop n)]
  apply List.map_congr_left
  intro w hw
  have hw2 := (hmem w).1 (hW w (List.mem_of_mem_drop hw))
  have hlt := code_of_lt K.order hnd w hw2
  have hg := getElem_code_of K.order hnd w hw2
  simp only [Function.comp, id]
  rw [List.getD_eq_getElem _ _ hlt]
  rw [List.getElem?_eq_getElem hlt] at hg
  exact Option.some.inj hg

/-! ## The shuffle on buffers of any length -/

theorem random_range_loop_lt (size mask stop : Nat) :
    ∀ (fuel : Nat) (source : List byte) (n : Nat) (rest : List byte),
      random_range_loop size mask stop fuel source = some (n, rest) → n < stop := by
  intro fuel
  induction fuel with
  | zero =>
    intro source n rest h
    simp [random_range_loop] at h
  | succ f ih =>
    intro source n rest h
    rw [random_range_loop] at h
    cases hb : random_bytes source size with
    | none => rw [hb] at h; simp at h
    | some r =>
      rw [hb] at h
      simp only [] at h
      split at h
      · exact ih _ _ _ h
      · simp only [Option.some.injEq, Prod.mk.injEq] at h
        omega

theorem random_range_lt (source : List byte) (stop n : Nat) (rest : List byte)
    (h2 : 2 ≤ stop) (h : random_range source stop = some (n, rest)) : n < stop := by
  have h1 : ¬ stop < 2 := by omega
  simp only [random_range, h1, if_false] at h
  exact random_range_loop_lt _ _ _ _ _ _ _ h

theorem shuffle_swap_perm (l : bytes) (i j : Nat) (hi : i < l.length) (hj : j < l.length) :
    (shuffle_swap l i j).Perm l := by
  rw [shuffle_swap, List.getD_eq_getElem _ _ hi, List.getD_eq_getElem _ _ hj]
  exact swap_perm l i j hi hj

theorem random_shuffle_body_eq (buffer : bytes) (source : List byte) (offset : Nat)
    (h3 : 3 ≤ buffer.length) (ho : offset < buffer.length) :
    (random_range source (buffer.length - 1) = none ∧
      random_shuffle_body (buffer.length - 1) offset buffer source = Drawn.starved) ∨
    (∃ j rest, random_range source (buffer.length - 1) = some (j, rest) ∧
      j < buffer.length - 1 ∧
      random_shuffle_body (buffer.length - 1) offset buffer source =
        Drawn.value (shuffle_swap buffer offset (if j ≥ offset then j + 1 else j)) rest ∧
      (shuffle_swap buffer offset (if j ≥ offset then j + 1 else j)).Perm buffer) := by
  cases hr : random_range source (buffer.length - 1) with
  | none =>
    left
    refine ⟨rfl, ?_⟩
    simp [random_shuffle_body, bytes_getitem, List.getElem?_eq_getElem ho, hr]
  | some r =>
    obtain ⟨j, rest⟩ := r
    right
    have hj := random_range_lt source (buffer.length - 1) j rest (by omega) hr
    have hch : (if j ≥ offset then j + 1 else j) < buffer.length := by
      split <;> omega
    refine ⟨j, rest, rfl, hj, ?_, shuffle_swap_perm buffer offset _ ho hch⟩
    generalize hchoice : (if j ≥ offset then j + 1 else j) = choice at hch
    simp [random_shuffle_body, bytes_getitem, List.getElem?_eq_getElem ho, hr, hchoice,
      List.getElem?_eq_getElem hch, bytes_setitem, ho, hch, Drawn.ofOption, shuffle_swap,
      List.getD_eq_getElem _ _ ho, List.getD_eq_getElem _ _ hch]

theorem random_shuffle_loop_eq (n : Nat) (h3 : 3 ≤ n) (offsets : List Nat)
    (ho : ∀ o ∈ offsets, o < n) :
    ∀ (buffer : bytes) (source : List byte), buffer.length = n →
      random_shuffle_loop (n - 1) offsets buffer source = shuffle_visit n offsets buffer source ∧
      random_shuffle_loop (n - 1) offsets buffer source ≠ Drawn.raised ∧
      ∀ out rest, random_shuffle_loop (n - 1) offsets buffer source = Drawn.value out rest →
        out.Perm buffer := by
  induction offsets with
  | nil =>
    intro buffer source _
    refine ⟨rfl, by simp [random_shuffle_loop], ?_⟩
    intro out rest h
    simp only [random_shuffle_loop, Drawn.value.injEq] at h
    rw [← h.1]
  | cons o os ih =>
    intro buffer source hlen
    have hbody := random_shuffle_body_eq buffer source o (by omega)
      (by rw [hlen]; exact ho o (List.mem_cons_self _ _))
    rw [hlen] at hbody
    rcases hbody with ⟨hr, hb⟩ | ⟨j, rest, hr, hj, hb, hp⟩
    · refine ⟨?_, ?_, ?_⟩
      · rw [random_shuffle_loop, hb, shuffle_visit, hr]
        rfl
      · rw [random_shuffle_loop, hb]
        simp [Drawn.bind]
      · intro out rest h
        rw [random_shuffle_loop, hb] at h
        simp [Drawn.bind] at h
    · have hlen2 : (shuffle_swap buffer o (if j ≥ o then j + 1 else j)).length = n := by
        rw [hp.length_eq, hlen]
      obtain ⟨e1, e2, e3⟩ := ih (fun x hx => ho x (List.mem_cons_of_mem _ hx)) _ rest hlen2
      refine ⟨?_, ?_, ?_⟩
      · rw [random_shuffle_loop, hb, shuffle_visit, hr]
        exact e1
      · rw [random_shuffle_loop, hb]
        exact e2
      · intro out rest2 h
        rw [random_shuffle_loop, hb] at h
        exact (e3 out rest2 h).trans hp

theorem random_shuffle_eq (buffer : bytes) (source : List byte) :
    random_shuffle source buffer ≠ Drawn.raised ∧
    (∀ out rest, random_shuffle source buffer = Drawn.value out rest → out.Perm buffer) ∧
    (2 < buffer.length → random_shuffle source buffer =
      shuffle_visit buffer.length (List.range buffer.length) buffer source) ∧
    (buffer.length ≤ 2 → random_shuffle source buffer = Drawn.value buffer source) := by
  by_cases h : 2 < buffer.length
  · obtain ⟨e1, e2, e3⟩ := random_shuffle_loop_eq buffer.length (by omega)
      (List.range buffer.length) (fun o ho => List.mem_range.mp ho) buffer source rfl
    have hs : random_shuffle source buffer =
        random_shuffle_loop (buffer.length - 1) (List.range buffer.length) buffer source := by
      simp [random_shuffle, bytes_len, h]
    rw [hs]
    exact ⟨e2, e3, fun _ => e1, fun h2 => absurd h (by omega)⟩
  · have hs : random_shuffle source buffer = Drawn.value buffer source := by
      simp [random_shuffle, bytes_len, h]
    rw [hs]
    refine ⟨by simp, ?_, fun h2 => absurd h2 h, fun _ => rfl⟩
    intro out rest he
    simp only [Drawn.value.injEq] at he
    rw [← he.1]

/-! ## The tests of `main` -/

theorem KeyRules_replicate (block : bytes) (n : Nat) (hn : 2 ≤ n) (hl : 2 ≤ block.length)
    (hnd : block.Nodup) : KeyRules (List.replicate n block) := by
  refine ⟨by simpa using hn, ?_, ?_, ?_, ?_⟩
  · intro b hb; rw [List.eq_of_mem_replicate hb]; exact hl
  · intro b hb; rw [List.eq_of_mem_replicate hb]; exact hnd
  · intro b hb c hc; rw [List.eq_of_mem_replicate hb, List.eq_of_mem_replicate hc]
  · intro b hb x
    rw [List.eq_of_mem_replicate hb]
    obtain ⟨m, rfl⟩ : ∃ m, n = m + 1 := ⟨n - 1, by omega⟩
    simp [List.replicate_succ]

theorem main_array_four (block : bytes) :
    ((list_setitem (list_call 4) 0 block).bind fun array =>
      (list_setitem array 1 block).bind fun array =>
        (list_setitem array 2 block).bind fun array => list_setitem array 3 block) =
      some (List.replicate 4 block) := by
  simp [list_setitem, list_call, List.replicate]

set_option maxRecDepth 100000 in
theorem main_key_call :
    Key_call (List.replicate 4 (bytes_from_string "ejpszgwufrdmxbhkcatvolnyqi")) =
      some (key_tables (List.replicate 4 (bytes_from_string "ejpszgwufrdmxbhkcatvolnyqi"))) :=
  (Key_call_eq_some_iff _ _ (by simp)).2
    ⟨KeyRules_replicate _ 4 (by decide!) (by decide!) (by decide!), rfl⟩

theorem main_key_test_unfold :
    main_key_test =
      (Key_call (List.replicate 4 (bytes_from_string "ejpszgwufrdmxbhkcatvolnyqi"))).bind
        fun fob => main_key_test_loop fob (deque_call [1, 2, 3]) [4, 5, 6, 7, 8] := by
  have h4 : ∀ block : bytes,
      ((((list_call 4).set 0 block).set 1 block).set 2 block).set 3 block =
        List.replicate 4 block := fun _ => rfl
  simp only [main_key_test, list_setitem, list_call, List.length_replicate, List.length_set,
    Nat.reduceLT, if_true, Option.bind_eq_bind, Option.some_bind]
  rw [← list_call, h4]

/-! ## `Key_create` on degenerate and on two-byte alphabets -/

theorem Key_create_degenerate (source : List byte) (bytes_used : bytes) (chain_size : Nat)
    (hb : chain_size ≤ 32767)
    (hd : set_len (set_from_bytes bytes_used) < 2 ∨ chain_size < 2) :
    Key_create source bytes_used chain_size = Drawn.raised ∨
    (Key_create source bytes_used chain_size = Drawn.starved ∧
      2 < set_len (set_from_bytes bytes_used) ∧ chain_size = 1 ∧
      source.countP (accepted (set_len (set_from_bytes bytes_used) - 1)) <
        set_len (set_from_bytes bytes_used)) := by
  obtain ⟨hnd, hlen, hmem⟩ := selection_facts bytes_used
  have h256 : set_len (set_from_bytes bytes_used) ≤ 256 := by
    rw [← hlen]; exact nodup_length_le_256 _ hnd
  have hspec := Key_create_loop_spec (set_len (set_from_bytes bytes_used)) h256
    (range_items (range_stop chain_size)) (bytes_from_set (set_from_bytes bytes_used))
    (list_call chain_size) source hlen
    (by
      intro o ho
      have : o.toNat ∈ (range_items (range_stop chain_size)).map Int.toNat :=
        List.mem_map_of_mem _ ho
      rw [range_items_stop_toNat _ hb] at this
      simpa [list_call] using this)
  have hol : (range_items (range_stop chain_size)).length = chain_size := by
    rw [range_items_stop _ hb]; simp
  rw [hol, range_items_stop_toNat _ hb] at hspec
  rcases hspec with ⟨hs, h2, hcount⟩ | ⟨out, rest, hv, hlen2, hj, -, -⟩
  · right
    have hc1 : chain_size = 1 := by
      rcases hd with h | h
      · omega
      · interval_cases chain_size
        · simp at hcount
        · rfl
    refine ⟨?_, h2, hc1, ?_⟩
    · rw [Key_create]
      simp only [hs, Drawn.bind]
    · rw [hc1] at hcount
      simpa using hcount
  · left
    have hlen3 : out.length = chain_size := by rw [hlen2]; simp [list_call]
    have hnot : ¬ KeyRules out := by
      intro hr
      have h2 := hr.1
      rcases hd with h | h
      · obtain ⟨block, hb1, hb2⟩ := (hj 0).1 (List.mem_range.mpr (by omega))
        have hbl := hr.2.1 block (List.getElem?_mem hb1)
        rw [hb2.length_eq, hlen] at hbl
        omega
      · omega
    have hcall : Key_call out = none := by
      cases hk : Key_call out with
      | none => rfl
      | some K => exact absurd ((Key_call_eq_some_iff out K (by omega)).1 hk).1 hnot
    rw [Key_create]
    simp only [hv, Drawn.bind, hcall, Drawn.ofOption]

theorem Key_create_loop_short (selection : bytes) (hs : selection.length ≤ 2)
    (offsets : List Int) :
    ∀ (blocks : list) (source : List byte), (∀ o ∈ offsets, o.toNat < blocks.length) →
      Key_create_loop offsets selection blocks source =
        Drawn.value
          ((offsets.map (fun o => (o.toNat, selection))).foldl
            (fun t p => t.set p.1 p.2) blocks) source := by
  induction offsets with
  | nil =>
    intro blocks source _
    rfl
  | cons o os ih =>
    intro blocks source ho
    have h1 := (random_shuffle_eq selection source).2.2.2 hs
    have h2 : o.toNat < blocks.length := ho o (List.mem_cons_self _ _)
    rw [Key_create_loop, h1]
    simp only [Drawn.bind, list_setitem, h2, if_true, Drawn.ofOption, bytes_deepcopy]
    rw [ih (blocks.set o.toNat selection) source (by
      intro x hx
      rw [List.length_set]
      exact ho x (List.mem_cons_of_mem _ hx))]
    rfl

theorem fill_replicate (n : Nat) (selection : bytes) :
    (((List.range n).map (fun (k : Nat) => (k : Int))).map
      (fun o => (o.toNat, selection))).foldl (fun t p => t.set p.1 p.2) (list_call n) =
      List.replicate n selection := by
  have hps : ((List.range n).map (fun (k : Nat) => (k : Int))).map
      (fun o => (o.toNat, selection)) = (List.range n).map (fun k => (k, selection)) := by
    rw [List.map_map]
    apply List.map_congr_left
    intro k _
    simp
  rw [hps]
  have hpw : ((List.range n).map (fun k => (k, selection))).Pairwise
      (fun a b => a.1 ≠ b.1) := by
    rw [List.pairwise_map]
    exact List.nodup_range n
  have hlt : ∀ p ∈ (List.range n).map (fun k => (k, selection)), p.1 < (list_call n).length := by
    intro p hp
    obtain ⟨k, hk, rfl⟩ := List.mem_map.mp hp
    simpa [list_call] using hk
  apply List.ext_getElem?
  intro j
  by_cases hj : j < n
  · have h := foldl_set_getElem?_of_mem _ (list_call n) hpw hlt (j, selection)
      (List.mem_map.mpr ⟨j, List.mem_range.mpr hj, rfl⟩)
    rw [h, List.getElem?_replicate, if_pos hj]
  · have hl : (((List.range n).map (fun k => (k, selection))).foldl
        (fun t p => t.set p.1 p.2) (list_call n)).length = n := by
      rw [foldl_set_length]; simp [list_call]
    rw [List.getElem?_eq_none (by omega), List.getElem?_eq_none (by simp; omega)]

theorem Key_create_short (source : List byte) (bytes_used : bytes) (chain_size : Nat)
    (hn : set_len (set_from_bytes bytes_used) = 2) (hc : 2 ≤ chain_size)
    (hb : chain_size ≤ 32767) :
    Key_create source bytes_used chain_size =
      Drawn.value
        (key_tables (List.replicate chain_size (bytes_from_set (set_from_bytes bytes_used))))
        source := by
  obtain ⟨hnd, hlen, hmem⟩ := selection_facts bytes_used
  have hloop := Key_create_loop_short (bytes_from_set (set_from_bytes bytes_used))
    (by omega) (range_items (range_stop chain_size)) (list_call chain_size) source
    (by
      intro o ho
      have : o.toNat ∈ (range_items (range_stop chain_size)).map Int.toNat :=
        List.mem_map_of_mem _ ho
      rw [range_items_stop_toNat _ hb] at this
      simpa [list_call] using this)
  rw [range_items_stop _ hb, fill_replicate] at hloop
  have hrules := KeyRules_replicate (bytes_from_set (set_from_bytes bytes_used)) chain_size hc
    (by omega) hnd
  rw [Key_create]
  simp only [range_items_stop _ hb, hloop, Drawn.bind,
    (Key_call_eq_some_iff _ _ (by simp; omega)).2 ⟨hrules, rfl⟩, Drawn.ofOption]

theorem sorted_pair (l : bytes) (hs : l.Sorted (fun x y => x < y)) (hl : l.length = 2) :
    ∃ a b : byte, l = [a, b] ∧ a < b := by
  match l, hl with
  | [a, b], _ =>
    refine ⟨a, b, rfl, ?_⟩
    simpa using hs

/-- With a chain size that does not fit the 16-bit field `finish` of the range
iterator, the loop of `Key_create` stores no block, and `Key_call` raises on
the list of unassigned slots. -/
theorem Key_create_cut (source : List byte) (bytes_used : bytes) (chain_size : Nat)
    (h0 : 32768 ≤ chain_size) (h1 : chain_size ≤ 65535) :
    Key_create source bytes_used chain_size = Drawn.raised := by
  have hr : range_items (range_stop chain_size) = [] := by
    have := range_items_up_cut 0 chain_size (by omega) (by omega)
    simpa [range_stop] using this
  have hcall : Key_call (list_call chain_size) = none := by
    obtain ⟨m, rfl⟩ : ∃ m, chain_size = m + 1 := ⟨chain_size - 1, by omega⟩
    simp [Key_call, Key_test_data, list_call, list_len, list_getitem, List.replicate_succ,
      bytes_len, assert]
  rw [Key_create]
  simp only [hr, Key_create_loop, Drawn.bind, hcall, Drawn.ofOption]

/-! ## `random_range` as rejection sampling -/

theorem size_half (n : Nat) (hn : 0 < n) : Nat.size n = Nat.size (n / 2) + 1 := by
  have h1 : Nat.size n ≤ Nat.size (n / 2) + 1 := by
    rw [Nat.size_le, Nat.pow_succ]
    have := Nat.lt_size_self (n / 2)
    omega
  have h2 : Nat.size (n / 2) < Nat.size n := by
    rw [Nat.lt_size]
    cases hk : Nat.size (n / 2) with
    | zero => simpa using hn
    | succ m =>
      have h3 : m < Nat.size (n / 2) := by omega
      rw [Nat.lt_size] at h3
      rw [Nat.pow_succ]
      omega
  omega

theorem int_bit_length_loop_eq :
    ∀ (fuel number length : Nat), number ≤ fuel → length + Nat.size number < 256 →
      int_bit_length_loop fuel number length = length + Nat.size number := by
  intro fuel
  induction fuel with
  | zero =>
    intro number length h _
    have : number = 0 := by omega
    subst this
    simp [int_bit_length_loop]
  | succ f ih =>
    intro number length h hl
    rw [int_bit_length_loop]
    by_cases hn : number > 0
    · rw [if_pos hn]
      have hs := size_half number hn
      have hsh : number >>> 1 = number / 2 := by
        rw [Nat.shiftRight_eq_div_pow]
      rw [hsh, Nat.mod_eq_of_lt (by omega), ih (number / 2) (length + 1) (by omega) (by omega)]
      omega
    · rw [if_neg hn]
      have : number = 0 := by omega
      subst this
      simp

theorem int_bit_length_eq_size (n : Nat) (h : n < 2 ^ 255) : int_bit_length n = Nat.size n := by
  have hs : Nat.size n ≤ 255 := Nat.size_le.2 h
  rw [int_bit_length, int_bit_length_loop_eq n n 0 (Nat.le_refl _) (by omega)]
  omega

theorem int_ceildiv_eight (k : Nat) : (int_ceildiv (k : Int) 8).toNat = (k + 7) / 8 := by
  rw [int_ceildiv, Int.tdiv_eq_ediv (by omega) (by omega),
    Int.tmod_eq_emod (by omega) (by omega)]
  split <;> omega

theorem foldl_big_endian (buffer : List byte) :
    buffer.foldl (fun (number : Nat) (value : byte) => (number <<< 8) + value.val) 0 =
      big_endian buffer := by
  have hf : (fun (number : Nat) (value : byte) => (number <<< 8) + value.val) =
      (fun (number : Nat) (value : byte) => number * 256 + value.val) := by
    funext n v
    rw [Nat.shiftLeft_eq]
  rw [hf, big_endian]

theorem random_range_loop_find (size bits stop : Nat) :
    ∀ (fuel : Nat) (source : List byte),
      (random_range_loop size (2 ^ bits - 1) stop fuel source).map Prod.fst =
        (draw_candidates size bits fuel source).find? (fun c => decide (c < stop)) := by
  intro fuel
  induction fuel with
  | zero =>
    intro source
    simp [random_range_loop, draw_candidates]
  | succ f ih =>
    intro source
    rw [random_range_loop, draw_candidates]
    by_cases hs : size ≤ source.length
    · simp only [random_bytes, hs, if_true, foldl_big_endian, Nat.and_pow_two_sub_one_eq_mod]
      by_cases hc : big_endian (source.take size) % 2 ^ bits < stop
      · have hge : ¬ big_endian (source.take size) % 2 ^ bits ≥ stop := by omega
        simp [hge, hc]
      · have hge : big_endian (source.take size) % 2 ^ bits ≥ stop := by omega
        simp only [hge, if_true, List.find?_cons, hc, decide_False]
        exact ih _
    · simp [random_bytes, hs]

/-- For `stop` up to `2 ^ 30` the shift of the mask is within what C defines
for an `int`, and the mask keeps the low bits of the bit length. -/
theorem random_range_find (source : List byte) (stop : Nat) (h2 : 2 ≤ stop)
    (hstop : stop ≤ 2 ^ 30) :
    (random_range source stop).map Prod.fst =
      (draw_candidates ((Nat.size (stop - 1) + 7) / 8) (Nat.size (stop - 1))
        (source.length + 1) source).find? (fun c => decide (c < stop)) := by
  have h1 : ¬ stop < 2 := by omega
  have hb : int_bit_length (stop - 1) = Nat.size (stop - 1) :=
    int_bit_length_eq_size _ (by
      have : (2 : Nat) ^ 30 ≤ 2 ^ 255 := Nat.pow_le_pow_right (by omega) (by omega)
      omega)
  have hs : Nat.size (stop - 1) ≤ 30 := Nat.size_le.2 (by omega)
  have hm : Nat.size (stop - 1) % 32 = Nat.size (stop - 1) := Nat.mod_eq_of_lt (by omega)
  simp only [random_range, h1, if_false, hb, int_ceildiv_eight, hm, Nat.one_shiftLeft]
  exact random_range_loop_find _ _ _ _ _

/-! ## Keys of more than `2 ^ 15` blocks -/

/-- With an unassigned first table in `axes`, the sum over a prefix that is
not empty raises: either the check of the length fails or the first probe
does. -/
theorem Key_calculate_sum_unassigned (K : Key) (d : deque) (haxes : K.axes[0]? = some [])
    (hne : d.buffer ≠ []) : Key_calculate_sum K d = none := by
  have hv : deque_view d ≠ [] := by
    intro e
    have := congrArg List.length e
    rw [deque_view_length] at this
    exact hne (List.length_eq_zero.1 this)
  obtain ⟨a, t, hat⟩ := List.exists_cons_of_ne_nil hv
  simp only [Key_calculate_sum, deque_items_eq, hat, Option.bind_eq_bind, Option.some_bind]
  cases assert (decide (deque_len d = K.prefix_len)) with
  | none => rfl
  | some u =>
    simp [List.enum_cons, list_getitem, haxes, bytes_getitem]

theorem Key_encode_unassigned (K : Key) (d : deque) (c : byte) (haxes : K.axes[0]? = some [])
    (hne : d.buffer ≠ []) : Key_encode K d c = none := by
  simp [Key_encode, Key_calculate_sum_unassigned K d haxes hne]

theorem Key_decode_unassigned (K : Key) (d : deque) (c : byte) (haxes : K.axes[0]? = some [])
    (hne : d.buffer ≠ []) : Key_decode K d c = none := by
  simp [Key_decode, Key_calculate_sum_unassigned K d haxes hne]

/-- The loop raises when the input holds a recognised byte and the step raises
on every recognised byte from the starting prefix (the bytes before the first
recognised one leave the prefix as it is). -/
theorem run_raises (step : deque → byte → Option (byte × deque)) (contains : byte → Bool)
    (d : deque) (hstep : ∀ v, contains v = true → step d v = none) (x : bytes)
    (hx : ∃ v ∈ x, contains v = true) : run step contains d x = none := by
  induction x with
  | nil => obtain ⟨v, hv, -⟩ := hx; cases hv
  | cons a t ih =>
    by_cases hc : contains a = true
    · simp [run, hc, hstep a hc]
    · have hx2 : ∃ v ∈ t, contains v = true := by
        obtain ⟨v, hv, hcv⟩ := hx
        rcases List.mem_cons.1 hv with e | hm
        · subst e; exact absurd hcv hc
        · exact ⟨v, hm, hcv⟩
      simp [run, hc, ih hx2]

/-- With an unassigned first table in `axes`, both directions raise on every
input that holds a recognised byte. -/
theorem process_unassigned (P : _Processor) (x : bytes)
    (hx : ∃ v ∈ x, dict_contains P.encoder v = true) (haxes : P.primary.axes[0]? = some [])
    (hne : P.prefix_.buffer ≠ []) :
    Encrypter_process P x = none ∧ Decrypter_process P x = none := by
  constructor
  · rw [Encrypter_process_eq_run, run_raises _ _ _ _ x hx]
    · rfl
    · intro v _
      simp only [Encrypter_step, Key_encode_unassigned _ _ _ haxes hne]
      cases dict_getitem P.encoder v <;> simp
  · rw [Decrypter_process_eq_run, run_raises _ _ _ _ x hx]
    · rfl
    · intro v _
      simp only [Decrypter_step, Key_decode_unassigned _ _ _ haxes hne]
      cases dict_getitem P.encoder v <;> simp

theorem long_data_length : long_data.length = 32770 :=
  (List.length_cons _ _).trans (congrArg (· + 1) (List.length_replicate _ _))

theorem long_data_head : long_data.headD [] = [65, 66] := rfl

theorem long_key_call : Key_call long_data = some (key_tables_cut long_data) :=
  (Key_call_cut long_data _ (Nat.le_of_eq long_data_length.symm)
    (by rw [long_data_length]; omega)).2
    ⟨by rw [long_data_head]; exact ⟨by decide, by decide⟩, rfl⟩

theorem long_key_base : KeyBase (key_tables_cut long_data) :=
  Key_call_base _ _ long_key_call

theorem key_tables_cut_prefix_len (data : list) :
    (key_tables_cut data).prefix_len = data.length - 1 := rfl

theorem long_key_prefix_len : (key_tables_cut long_data).prefix_len = 32769 :=
  (key_tables_cut_prefix_len long_data).trans (by rw [long_data_length])

theorem key_tables_cut_axes (data : list) (j : Nat) (hj : j < (key_tables_cut data).prefix_len) :
    (key_tables_cut data).axes[j]? = some [] := by
  have hj2 : j < data.length - 1 := hj
  show (List.replicate (data.length - 1) ([] : bytes))[j]? = some []
  rw [List.getElem?_replicate, if_pos hj2]

theorem key_tables_cut_axes_length (data : list) :
    (key_tables_cut data).axes.length = (key_tables_cut data).prefix_len :=
  List.length_replicate _ _

theorem key_tables_cut_data (data : list) : (key_tables_cut data).data = data := rfl

theorem key_tables_cut_base (data : list) : (key_tables_cut data).base = data.headD [] := rfl

theorem key_tables_cut_size (data : list) :
    (key_tables_cut data).size = (data.headD []).length := rfl

theorem long_key_axes_zero : (key_tables_cut long_data).axes[0]? = some [] :=
  key_tables_cut_axes long_data 0 (by rw [long_key_prefix_len]; omega)

theorem decode_after_encode_raises (data : list) (history : bytes) (c : byte) (K : Key)
    (hK : Key_call data = some K) (he : Key_encode K (deque_call history) c = none) :
    decode_after_encode data history c = none := by
  simp only [decode_after_encode, hK, Option.bind_eq_bind, Option.some_bind, he,
    Option.none_bind]

theorem round_trip_raises (data : list) (primer plain : bytes) (K : Key) (vector : Primer)
    (P : _Processor) (hK : Key_call data = some K) (hv : Primer_call primer = some vector)
    (hP : _Processor_call K vector = some P) (he : Encrypter_process P plain = none) :
    round_trip data primer plain = none := by
  simp only [round_trip, hK, hv, Encrypter_call, hP, he, Option.bind_eq_bind,
    Option.some_bind, Option.none_bind]

theorem Primer_call_of_ne (vector : Primer) (h : vector.data ≠ []) :
    Primer_call vector.data = some vector := by
  have hne : bytes_bool vector.data = true := by
    simp only [bytes_bool, decide_eq_true_eq]
    exact List.length_pos.2 h
  simp only [Primer_call, Primer_test_data, hne, assert, if_true, Option.bind_eq_bind,
    Option.some_bind, pure]

theorem long_primer_length : long_primer.data.length = 32769 :=
  List.length_replicate _ _

theorem long_primer_ne : long_primer.data ≠ [] := by
  intro e
  have h := congrArg List.length e
  rw [long_primer_length] at h
  exact absurd h (by decide)

theorem long_primer_compatible : Compatible (key_tables_cut long_data) long_primer := by
  refine ⟨long_primer_length.trans long_key_prefix_len.symm, ?_⟩
  intro b hb
  have : b = 65 := List.eq_of_mem_replicate hb
  subst this
  show (65 : byte) ∈ long_data.headD []
  rw [long_data_head]
  decide

theorem long_processor_call :
    _Processor_call (key_tables_cut long_data) long_primer = some long_processor :=
  (_Processor_call_base _ _ _ long_key_base).2 ⟨long_primer_compatible, rfl⟩

theorem long_processor_prefix : long_processor.prefix_.buffer ≠ [] := by
  intro e
  have h := congrArg List.length e
  have h2 : long_processor.prefix_.buffer.length = long_primer.data.length :=
    List.length_map _ _
  rw [h2, long_primer_length] at h
  exact absurd h (by decide)

theorem long_processor_contains (v : byte) (hv : v = 65 ∨ v = 66) :
    dict_contains long_processor.encoder v = true := by
  show dict_contains (encoder_dict (bytes_sort (long_data.headD []))) v = true
  rw [encoder_dict_contains, decide_eq_true_eq, mem_bytes_sort, long_data_head]
  rcases hv with h | h <;> subst h <;> decide

theorem long_processor_reachable : Reachable (key_tables_cut long_data) long_processor :=
  Reachable.init long_primer long_processor long_processor_call

/-- The processor of the long key raises, in both directions, on every input
that holds an 'A' or a 'B'. -/
theorem long_processor_raises (x : bytes) (hx : (65 : byte) ∈ x ∨ (66 : byte) ∈ x) :
    Encrypter_process long_processor x = none ∧ Decrypter_process long_processor x = none := by
  apply process_unassigned long_processor x _ long_key_axes_zero long_processor_prefix
  rcases hx with h | h
  · exact ⟨65, h, long_processor_contains 65 (Or.inl rfl)⟩
  · exact ⟨66, h, long_processor_contains 66 (Or.inr rfl)⟩

theorem long_history_length : long_history.length = 32769 := List.length_replicate _ _

theorem long_history_ne : (deque_call long_history).buffer ≠ [] := by
  intro e
  have h := congrArg List.length e
  have h2 : (deque_call long_history).buffer.length = 32769 := List.length_replicate _ _
  rw [h2] at h
  exact absurd h (by decide)

theorem long_key_offset :
    Key_calculate_offset (key_tables_cut long_data).data (key_tables_cut long_data).prefix_len
      (key_tables_cut long_data).base (key_tables_cut long_data).size = some 0 :=
  Key_calculate_offset_cut _ _ _ _ (by rw [long_key_prefix_len])
    (by rw [long_key_prefix_len]; omega) (by show 0 < (long_data.headD []).length; decide)

theorem long_data_repeated_length : long_data_repeated.length = 32770 :=
  (List.length_cons _ _).trans (congrArg (· + 1)
    ((List.length_cons _ _).trans (congrArg (· + 1) (List.length_replicate _ _))))

theorem long_data_repeated_call :
    Key_call long_data_repeated = some (key_tables_cut long_data_repeated) :=
  (Key_call_cut long_data_repeated _ (Nat.le_of_eq long_data_repeated_length.symm)
    (by rw [long_data_repeated_length]; omega)).2
    ⟨by show 2 ≤ ([65, 66] : bytes).length ∧ ([65, 66] : bytes).Nodup
        exact ⟨by decide, by decide⟩, rfl⟩

theorem long_data_repeated_rules : ¬ KeyRules long_data_repeated := by
  intro h
  have hm : ([65, 65] : bytes) ∈ long_data_repeated :=
    List.mem_cons_of_mem _ (List.mem_cons_self _ _)
  exact absurd (h.2.2.1 _ hm) (by decide)

theorem long_data_shifted_length : long_data_shifted.length = 32770 :=
  (List.length_cons _ _).trans (congrArg (· + 1)
    ((List.length_cons _ _).trans (congrArg (· + 1) (List.length_replicate _ _))))

theorem long_data_shifted_call :
    Key_call long_data_shifted = some (key_tables_cut long_data_shifted) :=
  (Key_call_cut long_data_shifted _ (Nat.le_of_eq long_data_shifted_length.symm)
    (by rw [long_data_shifted_length]; omega)).2
    ⟨by show 2 ≤ ([65, 66] : bytes).length ∧ ([65, 66] : bytes).Nodup
        exact ⟨by decide, by decide⟩, rfl⟩

/-- The sum of the offset formula over the blocks `x`, `y`, `x`, ..., `x`: the
block `y` contributes the index of its first byte, each later block but the
last the index of the first byte of `x`. -/
theorem offset_sum_shifted (m L n : Nat) (hm : m = n + 1) (hL : L = n + 2) (x y base : bytes) :
    offset_sum (x :: y :: List.replicate m x) L base =
      List.indexOf (y.headD 0) base + n * List.indexOf (x.headD 0) base := by
  subst hm hL
  unfold offset_sum
  have hr : n + 2 - 1 = n + 1 := by omega
  rw [hr, List.range_succ_eq_map, List.map_cons, List.sum_cons, List.map_map]
  have h0 : (x :: y :: List.replicate (n + 1) x).getD (1 + 0) [] = y := rfl
  rw [h0]
  congr 1
  have hc : ∀ k ∈ List.range n,
      ((fun k => List.indexOf (((x :: y :: List.replicate (n + 1) x).getD (1 + k) []).headD 0)
        base) ∘ Nat.succ) k = List.indexOf (x.headD 0) base := by
    intro k hk
    have hk2 := List.mem_range.1 hk
    have hget : (x :: y :: List.replicate (n + 1) x).getD (1 + k.succ) [] = x := by
      have e : 1 + k.succ = (k + 1) + 1 := by omega
      rw [e, List.getD_cons_succ, List.getD_cons_succ, List.getD_eq_getElem?_getD,
        List.getElem?_replicate, if_pos (by omega)]
      rfl
    simp only [Function.comp, hget]
  rw [List.map_congr_left hc, List.map_const', List.sum_replicate, List.length_range,
    smul_eq_mul]

theorem long_data_shifted_sum : offset_sum long_data_shifted 32769 [65, 66] = 1 :=
  (offset_sum_shifted 32768 32769 32767 (by decide) (by decide) [65, 66] [66, 65] [65, 66]).trans
    (by decide)

/-- With `2 ^ 15` bytes or more to draw, the range of `Primer_create` is cut
to nothing: the buffer is returned as it was allocated, and nothing is drawn. -/
theorem Primer_create_cut (source : List byte) (K : Key) (h0 : 32768 ≤ K.prefix_len)
    (h1 : K.prefix_len ≤ 65535) :
    Primer_create source K = Drawn.value { data := bytes_call K.prefix_len } source := by
  have hr : range_items (range_stop K.prefix_len) = [] := by
    have := range_items_up_cut 0 K.prefix_len (by omega) (by omega)
    simpa [range_stop] using this
  have hne : bytes_bool (bytes_call K.prefix_len) = true := by
    simp only [bytes_bool, bytes_call, List.length_replicate, decide_eq_true_eq]
    omega
  simp only [Primer_create, Key_get_base, Key_get_prefix_len, hr, Primer_create_loop,
    Drawn.bind, Primer_call, Primer_test_data, hne, assert, if_true, Option.bind_eq_bind,
    Option.some_bind, pure, Drawn.ofOption]

/-! ## Concrete keys and processors -/

set_option maxRecDepth 100000 in
theorem sample_key_call : Key_call sample_data = some (key_tables sample_data) := by
  decide

set_option maxRecDepth 100000 in
theorem sample_processor_call :
    _Processor_call (key_tables sample_data) sample_primer =
      some (processor_tables (key_tables sample_data) sample_primer) := by
  rfl

set_option maxRecDepth 100000 in
theorem sample_primer_test : Primer_test_key sample_primer (key_tables sample_data) = some () := by
  decide

set_option maxRecDepth 100000 in
theorem sample_encrypt :
    Encrypter_process (processor_tables (key_tables sample_data) sample_primer) [66, 97, 67] =
      some ([66, 97, 65],
        { processor_tables (key_tables sample_data) sample_primer with
          prefix_ := { buffer := [1, 2], offset := 0 } }) := by
  rfl

/-! ## The claims -/

set_option maxRecDepth 100000 in
/-- C1 (fails on the code): with the blocks "ABC", "BCA", "ABC", which
`Key_test_data` accepts, and the compatible primer "AA", a fresh Encrypter
turns the plaintext "A" into "A" and a fresh Decrypter turns that ciphertext
into "B": the round trip does not return the plaintext. -/
theorem round_trip_fails :
    round_trip sample_data sample_primer.data [65] = some [66] := by
  decide

set_option maxRecDepth 100000 in
/-- C2 (fails on the code): for the key of the blocks "ABC", "BCA", "ABC", the
history (0, 0) and the index c = 0, decoding the ciphertext byte
`Key_encode(H, c)` under the same history yields the byte at position 1 of
`order`, not at position c. -/
theorem decode_after_encode_fails :
    decode_after_encode sample_data [0, 0] 0 = some 1 := by
  decide

/-- State continuation for a key of at most `2 ^ 15` blocks. Let `E1` be a
processor built from such a key and a primer, and `after1` its state once it
has processed `a` (as an Encrypter or as a Decrypter). The primer exported from
`after1` is accepted by the key, the processor rebuilt from it has the same
history, oldest first, and on every input `b` it returns the output that
`after1` returns, both as an Encrypter and as a Decrypter. -/
theorem state_continuation (data : list) (K : Key) (vector : Primer) (a b out1 : bytes)
    (E1 after1 : _Processor) (hn : data.length ≤ 32768) (hK : Key_call data = some K)
    (hE1 : _Processor_call K vector = some E1)
    (ha : Encrypter_process E1 a = some (out1, after1) ∨
      Decrypter_process E1 a = some (out1, after1)) :
    ∃ vector2 E2, _Processor_get_primer after1 = some vector2 ∧
      Encrypter_call K vector2 = some E2 ∧ Decrypter_call K vector2 = some E2 ∧
      deque_items E2.prefix_ = deque_items after1.prefix_ ∧
      (∃ out A B, Encrypter_process E2 b = some (out, A) ∧
        Encrypter_process after1 b = some (out, B)) ∧
      (∃ out A B, Decrypter_process E2 b = some (out, A) ∧
        Decrypter_process after1 b = some (out, B)) := by
  have hR : Reachable K after1 := by
    rcases ha with ha | ha
    · exact Reachable.encrypt E1 a out1 after1 (Reachable.init vector E1 hE1) ha
    · exact Reachable.decrypt E1 a out1 after1 (Reachable.init vector E1 hE1) ha
  obtain ⟨vector2, E2, h1, h2, h3, h4, h5⟩ :=
    continuation_of_reachable K after1 b (Key_call_wf data K hn hK) hR
  exact ⟨vector2, E2, h1, h2, h2, h3, h4, h5⟩

/-- The key of "ABC", "BCA", "ABC", the primer "AA", and an Encrypter that
has processed "BaC": an instance of `state_continuation`. -/
theorem state_continuation_witness :
    ∃ vector2 E2,
      _Processor_get_primer
        { processor_tables (key_tables sample_data) sample_primer with
          prefix_ := { buffer := [1, 2], offset := 0 } } = some vector2 ∧
      Encrypter_call (key_tables sample_data) vector2 = some E2 ∧
      Decrypter_call (key_tables sample_data) vector2 = some E2 ∧
      deque_items E2.prefix_ = deque_items ({ buffer := [1, 2], offset := 0 } : deque) ∧
      (∃ out A B, Encrypter_process E2 [67, 65] = some (out, A) ∧
        Encrypter_process
          { processor_tables (key_tables sample_data) sample_primer with
            prefix_ := { buffer := [1, 2], offset := 0 } } [67, 65] = some (out, B)) ∧
      (∃ out A B, Decrypter_process E2 [67, 65] = some (out, A) ∧
        Decrypter_process
          { processor_tables (key_tables sample_data) sample_primer with
            prefix_ := { buffer := [1, 2], offset := 0 } } [67, 65] = some (out, B)) :=
  state_continuation sample_data (key_tables sample_data) sample_primer [66, 97, 67] [67, 65]
    [66, 97, 65] (processor_tables (key_tables sample_data) sample_primer) _ (by decide)
    sample_key_call sample_processor_call (Or.inl sample_encrypt)

/-- C4: pass-through.  For every processor state, as an Encrypter and as a
Decrypter: (1) whenever processing returns, each input byte that is not a key
of the encoder stands unchanged at its position in the output; (2) such a byte
`v` between two chunks `a` and `b` leaves the prefix as it is: processing
`a ++ v :: b` is processing `a`, copying `v`, and processing `b` from the state
reached after `a`; (3) an input without any recognised byte is returned as it
is and the state is unchanged.  (4) In a state reachable from a valid key, the
keys of the encoder are exactly the bytes of the key's alphabet. -/
theorem pass_through (self : _Processor) :
    (∀ data out after, Encrypter_process self data = some (out, after) →
      ∀ (i : Nat) (h : i < data.length), dict_contains self.encoder data[i] = false →
        out[i]? = some data[i]) ∧
    (∀ data out after, Decrypter_process self data = some (out, after) →
      ∀ (i : Nat) (h : i < data.length), dict_contains self.encoder data[i] = false →
        out[i]? = some data[i]) ∧
    (∀ (a b : bytes) (v : byte), dict_contains self.encoder v = false →
      Encrypter_process self (a ++ v :: b) =
        (Encrypter_process self a).bind fun r =>
          (Encrypter_process r.2 b).map fun s => (r.1 ++ v :: s.1, s.2)) ∧
    (∀ (a b : bytes) (v : byte), dict_contains self.encoder v = false →
      Decrypter_process self (a ++ v :: b) =
        (Decrypter_process self a).bind fun r =>
          (Decrypter_process r.2 b).map fun s => (r.1 ++ v :: s.1, s.2)) ∧
    (∀ data : bytes, (∀ v ∈ data, dict_contains self.encoder v = false) →
      Encrypter_process self data = some (data, self) ∧
      Decrypter_process self data = some (data, self)) ∧
    (∀ (blocks : list) (K : Key), Key_call blocks = some K → Reachable K self →
      ∀ v : byte, dict_contains self.encoder v = true ↔ v ∈ K.base) := by
  refine ⟨?_, ?_, ?_, ?_, ?_, ?_⟩
  · intro data out after h i hi hc
    rw [Encrypter_process_eq_run] at h
    cases hr : run (Encrypter_step self.encoder self.primary) (dict_contains self.encoder)
        self.prefix_ data with
    | none => rw [hr] at h; simp at h
    | some r =>
      rw [hr] at h
      simp only [Option.map_some', Option.some.injEq, Prod.mk.injEq] at h
      rw [← h.1]
      exact run_getElem_unrecognised _ _ data _ r.1 r.2 hr i hi hc
  · intro data out after h i hi hc
    rw [Decrypter_process_eq_run] at h
    cases hr : run (Decrypter_step self.encoder self.primary) (dict_contains self.encoder)
        self.prefix_ data with
    | none => rw [hr] at h; simp at h
    | some r =>
      rw [hr] at h
      simp only [Option.map_some', Option.some.injEq, Prod.mk.injEq] at h
      rw [← h.1]
      exact run_getElem_unrecognised _ _ data _ r.1 r.2 hr i hi hc
  · intro a b v hv
    rw [Encrypter_process_eq_run, Encrypter_process_eq_run, run_append]
    cases hr : run (Encrypter_step self.encoder self.primary) (dict_contains self.encoder)
        self.prefix_ a with
    | none => simp
    | some r =>
      simp only [Option.some_bind, Option.map_some', Encrypter_process_eq_run, run, hv,
        Bool.false_eq_true, if_false]
      cases run (Encrypter_step self.encoder self.primary) (dict_contains self.encoder) r.2 b
        <;> simp
  · intro a b v hv
    rw [Decrypter_process_eq_run, Decrypter_process_eq_run, run_append]
    cases hr : run (Decrypter_step self.encoder self.primary) (dict_contains self.encoder)
        self.prefix_ a with
    | none => simp
    | some r =>
      simp only [Option.some_bind, Option.map_some', Decrypter_process_eq_run, run, hv,
        Bool.false_eq_true, if_false]
      cases run (Decrypter_step self.encoder self.primary) (dict_contains self.encoder) r.2 b
        <;> simp
  · intro data h
    constructor
    · rw [Encrypter_process_eq_run, run_unrecognised _ _ data _ h]
      rfl
    · rw [Decrypter_process_eq_run, run_unrecognised _ _ data _ h]
      rfl
  · intro blocks K hK hR v
    have hwf := Key_call_base blocks K hK
    obtain ⟨-, he, -, -⟩ := Reachable_base K self hwf hR
    obtain ⟨-, -, -, hmem⟩ := KeyBase_order K hwf
    rw [he, encoder_dict_contains, decide_eq_true_eq, hmem]

/-- Length preservation for a key of at most `2 ^ 15` blocks. In every state
reachable from such a key and a compatible primer, `Encrypter_process` and
`Decrypter_process` return, for every input `x`, an output of exactly `|x|`
bytes; and in every processor state whatever, an output that either of them
returns has `|x|` bytes. -/
theorem length_preservation (data : list) (K : Key) (P : _Processor) (x : bytes)
    (hn : data.length ≤ 32768) (hK : Key_call data = some K) (hP : Reachable K P) :
    (∃ out after, Encrypter_process P x = some (out, after) ∧ out.length = x.length) ∧
    (∃ out after, Decrypter_process P x = some (out, after) ∧ out.length = x.length) ∧
    (∀ (Q : _Processor) (y out : bytes) (after : _Processor),
      Encrypter_process Q y = some (out, after) ∨ Decrypter_process Q y = some (out, after) →
        out.length = y.length) := by
  have hwf := Key_call_wf data K hn hK
  obtain ⟨hp, he, -, hd⟩ := Reachable_inv K P hwf hP
  refine ⟨?_, ?_, ?_⟩
  · obtain ⟨out, d2, h1, -, h3⟩ := Encrypter_process_of_inv K P x hwf hp he hd
    exact ⟨out, _, h1, h3⟩
  · obtain ⟨out, d2, h1, -, h3⟩ := Decrypter_process_of_inv K P x hwf hp he hd
    exact ⟨out, _, h1, h3⟩
  · intro Q y out after h
    rcases h with h | h
    · rw [Encrypter_process_eq_run] at h
      cases hr : run (Encrypter_step Q.encoder Q.primary) (dict_contains Q.encoder)
          Q.prefix_ y with
      | none => rw [hr] at h; simp at h
      | some r =>
        rw [hr] at h
        simp only [Option.map_some', Option.some.injEq, Prod.mk.injEq] at h
        rw [← h.1]
        exact run_length _ _ y _ r.1 r.2 hr
    · rw [Decrypter_process_eq_run] at h
      cases hr : run (Decrypter_step Q.encoder Q.primary) (dict_contains Q.encoder)
          Q.prefix_ y with
      | none => rw [hr] at h; simp at h
      | some r =>
        rw [hr] at h
        simp only [Option.map_some', Option.some.injEq, Prod.mk.injEq] at h
        rw [← h.1]
        exact run_length _ _ y _ r.1 r.2 hr

/-- The processor of the key "ABC", "BCA", "ABC" and the primer "AA", on the
input "BaC": an instance of `length_preservation`. -/
theorem length_preservation_witness :
    (∃ out after,
      Encrypter_process (processor_tables (key_tables sample_data) sample_primer) [66, 97, 67] =
        some (out, after) ∧ out.length = 3) ∧
    (∃ out after,
      Decrypter_process (processor_tables (key_tables sample_data) sample_primer) [66, 97, 67] =
        some (out, after) ∧ out.length = 3) :=
  have h := length_preservation sample_data (key_tables sample_data)
    (processor_tables (key_tables sample_data) sample_primer) [66, 97, 67] (by decide)
    sample_key_call (Reachable.init sample_primer _ sample_processor_call)
  ⟨h.1, h.2.1⟩

/-- Key validation is exact on a list of at most `2 ^ 15` blocks.
`Key_test_data` accepts the data, and `Key_call` returns a key, if and only if
the data has at least two blocks, every block has at least two bytes, the bytes
within each block are pairwise distinct, all blocks have the same length, and
every block has the byte set of the first block; otherwise both raise and no
key is produced. -/
theorem key_validation_exact (data : list) (hn : data.length ≤ 32768) :
    (Key_test_data data = some () ↔ KeyRules data) ∧
    ((∃ K, Key_call data = some K) ↔ KeyRules data) ∧
    (Key_test_data data = none ↔ ¬ KeyRules data) ∧
    (Key_call data = none ↔ ¬ KeyRules data) := by
  have h1 := Key_test_data_iff data hn
  have h2 : (∃ K, Key_call data = some K) ↔ KeyRules data := by
    constructor
    · rintro ⟨K, hK⟩
      exact ((Key_call_eq_some_iff data K hn).1 hK).1
    · intro h
      exact ⟨key_tables data, (Key_call_eq_some_iff data _ hn).2 ⟨h, rfl⟩⟩
  refine ⟨h1, h2, ?_, ?_⟩
  · rw [← h1]
    cases Key_test_data data <;> simp
  · rw [← h2]
    cases Key_call data <;> simp

/-- C7: primer compatibility is exact.  For a valid key `K`, `Primer_test_key`
raises if and only if the primer does not have `prefix_len` bytes or one of its
bytes is not a byte of the base; `Key_test_primer` is the same test, and the
construction of a processor, an Encrypter or a Decrypter raises exactly when
the test raises.  `Primer_call` raises if and only if the data is empty. -/
theorem primer_compatibility_exact (data : list) (K : Key) (p : Primer)
    (hK : Key_call data = some K) :
    (Primer_test_key p K = none ↔
      (p.data.length ≠ K.prefix_len ∨ ∃ b ∈ p.data, b ∉ K.base)) ∧
    Key_test_primer K p = Primer_test_key p K ∧
    (_Processor_call K p = none ↔ Primer_test_key p K = none) ∧
    (Encrypter_call K p = none ↔ Primer_test_key p K = none) ∧
    (Decrypter_call K p = none ↔ Primer_test_key p K = none) ∧
    (∀ bs : bytes, Primer_call bs = none ↔ bs = []) := by
  have hwf := Key_call_base data K hK
  obtain ⟨hnd, hs, -, hmem⟩ := KeyBase_order K hwf
  have h1 : Primer_test_key p K = none ↔
      (p.data.length ≠ K.prefix_len ∨ ∃ b ∈ p.data, b ∉ K.base) := by
    rw [Primer_test_key_eq_none_iff, Compatible, not_and_or]
    simp only [not_forall, exists_prop]
  have h3 : _Processor_call K p = none ↔ Primer_test_key p K = none := by
    rw [Primer_test_key_eq_none_iff]
    by_cases hc : Compatible K p
    · rw [_Processor_call_of_compatible K p hs hnd hmem hc]
      simp [hc]
    · rw [_Processor_call_of_not_compatible K p hc]
      simp [hc]
  refine ⟨h1, rfl, h3, h3, h3, ?_⟩
  intro bs
  cases bs with
  | nil => simp [Primer_call, Primer_test_data, bytes_bool, assert]
  | cons a t => simp [Primer_call, Primer_test_data, bytes_bool, assert]

/-- Witness of C7: the key of "ABC", "BCA", "ABC" and the primer "AA". -/
theorem primer_compatibility_exact_witness :
    (Primer_test_key sample_primer (key_tables sample_data) = none ↔
      (sample_primer.data.length ≠ (key_tables sample_data).prefix_len ∨
        ∃ b ∈ sample_primer.data, b ∉ (key_tables sample_data).base)) ∧
    (_Processor_call (key_tables sample_data) sample_primer = none ↔
      Primer_test_key sample_primer (key_tables sample_data) = none) :=
  have h := primer_compatibility_exact sample_data (key_tables sample_data) sample_primer
    sample_key_call
  ⟨h.1, h.2.2.1⟩

/-- C10: primer export round trip.  For a valid key and a primer that the key
accepts, the processor is constructed, and the primer exported from the fresh
processor has the bytes of the original primer. -/
theorem primer_export_round_trip (data : list) (K : Key) (vector : Primer)
    (hK : Key_call data = some K) (hc : Primer_test_key vector K = some ()) :
    ∃ P exported, _Processor_call K vector = some P ∧
      _Processor_get_primer P = some exported ∧ exported.data = vector.data := by
  have hwf := Key_call_base data K hK
  obtain ⟨hnd, hs, -, hmem⟩ := KeyBase_order K hwf
  have hcomp := (Primer_test_key_iff vector K).1 hc
  have hcall := _Processor_call_of_compatible K vector hs hnd hmem hcomp
  have hget := _Processor_get_primer_of_base K (processor_tables K vector) hwf rfl
    (processor_tables_base K vector hwf hcomp)
  refine ⟨_, _, hcall, hget, ?_⟩
  show List.map _ (deque_view (deque_call (vector.data.map (code_of K.order)))) = vector.data
  rw [deque_view_call, List.map_map]
  conv_rhs => rw [← List.map_id vector.data]
  apply List.map_congr_left
  intro v hv
  have hv2 := (hmem v).1 (hcomp.2 v hv)
  have hlt := code_of_lt K.order hnd v hv2
  have hg := getElem_code_of K.order hnd v hv2
  simp only [Function.comp, id]
  rw [List.getD_eq_getElem _ _ hlt]
  rw [List.getElem?_eq_getElem hlt] at hg
  exact Option.some.inj hg

/-- Witness of C10: the key of "ABC", "BCA", "ABC" and the primer "AA". -/
theorem primer_export_round_trip_witness :
    ∃ P exported, _Processor_call (key_tables sample_data) sample_primer = some P ∧
      _Processor_get_primer P = some exported ∧ exported.data = sample_primer.data :=
  primer_export_round_trip sample_data (key_tables sample_data) sample_primer sample_key_call
    sample_primer_test

/-- Shape of `Key_create` for a chain size below `2 ^ 15`. For `bytes_used`
with `n ≥ 2` distinct bytes and `2 ≤ chain_size < 2 ^ 15`, whatever bytes the
random source delivers: `Key_create` never raises; it returns unless the source
runs out of accepted bytes (which happens exactly when `n > 2` and the source
holds fewer than `chain_size * n` bytes that `random_range(n - 1)` accepts);
and the key it returns satisfies the validation rules, has `chain_size` blocks,
`prefix_len = chain_size - 1`, and `base` and `order` of length `n` made of
exactly the distinct bytes of `bytes_used`. -/
theorem Key_create_shape (source : List byte) (bytes_used : bytes) (chain_size : Nat)
    (hn : 2 ≤ bytes_used.dedup.length) (hc : 2 ≤ chain_size) (hb : chain_size ≤ 32767) :
    Key_create source bytes_used chain_size ≠ Drawn.raised ∧
    (Key_create source bytes_used chain_size = Drawn.starved ↔
      2 < bytes_used.dedup.length ∧
      source.countP (accepted (bytes_used.dedup.length - 1)) <
        chain_size * bytes_used.dedup.length) ∧
    (∀ K rest, Key_create source bytes_used chain_size = Drawn.value K rest →
      Key_test_data K.data = some () ∧ Key_call K.data = some K ∧
      K.data.length = chain_size ∧ K.prefix_len = chain_size - 1 ∧
      K.base.length = bytes_used.dedup.length ∧ K.order.length = bytes_used.dedup.length ∧
      K.base.Nodup ∧ K.order.Nodup ∧
      (∀ b, b ∈ K.base ↔ b ∈ bytes_used) ∧ (∀ b, b ∈ K.order ↔ b ∈ bytes_used)) := by
  rw [← set_len_from_bytes] at hn ⊢
  obtain ⟨hnd, hlen, hmem⟩ := selection_facts bytes_used
  rcases Key_create_spec source bytes_used chain_size hn hc hb with
    ⟨hs, h2, hcount⟩ | ⟨blocks, rest, hv, hrules, hbl, hperm, hcount, hsame⟩
  · refine ⟨by rw [hs]; simp, ?_, ?_⟩
    · constructor
      · intro _; exact ⟨h2, hcount⟩
      · intro _; exact hs
    · intro K rest hv
      rw [hs] at hv
      cases hv
  · refine ⟨by rw [hv]; simp, ?_, ?_⟩
    · constructor
      · intro hs; rw [hv] at hs; cases hs
      · rintro ⟨h2, hlt⟩
        have := hcount h2
        omega
    · intro K rest2 hv2
      rw [hv] at hv2
      simp only [Drawn.value.injEq] at hv2
      obtain ⟨hK, -⟩ := hv2
      subst hK
      obtain ⟨hb0, hb2, hbnd⟩ := KeyRules_base blocks hrules
      have hhead : blocks.headD [] ∈ blocks := by
        cases blocks with
        | nil => simp at hbl; omega
        | cons a t => simp
      have hbase := hperm _ hhead
      have hcall := (Key_call_eq_some_iff blocks (key_tables blocks) (by omega)).2 ⟨hrules, rfl⟩
      refine ⟨(Key_test_data_iff blocks (by omega)).2 hrules, hcall, hbl, ?_, ?_, ?_, hbnd,
        bytes_sort_nodup _ hbnd, ?_, ?_⟩
      · show blocks.length - 1 = chain_size - 1
        rw [hbl]
      · show (blocks.headD []).length = _
        rw [hbase.length_eq, hlen]
      · show (bytes_sort (blocks.headD [])).length = _
        rw [bytes_sort_length, hbase.length_eq, hlen]
      · intro b
        show b ∈ blocks.headD [] ↔ _
        rw [hbase.mem_iff, hmem]
      · intro b
        show b ∈ bytes_sort (blocks.headD []) ↔ _
        rw [mem_bytes_sort, hbase.mem_iff, hmem]

set_option maxRecDepth 100000 in
/-- "Source Code" has nine distinct bytes; with chain size 9 and a source of
81 zero bytes, `Key_create` returns a key with `prefix_len = 8`, nine blocks,
and `base` and `order` of length 9: an instance of `Key_create_shape`. -/
theorem Key_create_shape_witness :
    ∃ K rest, Key_create (List.replicate 81 0) source_code 9 = Drawn.value K rest ∧
      K.prefix_len = 8 ∧ K.data.length = 9 ∧ K.base.length = 9 ∧ K.order.length = 9 := by
  have hd : source_code.dedup.length = 9 := by decide
  have h := Key_create_shape (List.replicate 81 0) source_code 9 (by rw [hd]; decide)
    (by decide) (by decide)
  rw [hd] at h
  cases hk : Key_create (List.replicate 81 0) source_code 9 with
  | value K rest =>
    obtain ⟨-, -, h3, h4, h5, h6, -⟩ := h.2.2 K rest hk
    exact ⟨K, rest, rfl, h4, h3, h5, h6⟩
  | raised => exact absurd hk h.1
  | starved =>
    have hc := (h.2.1.1 hk).2
    have ha : accepted (9 - 1) (0 : byte) = true := by decide
    rw [List.countP_replicate, if_pos ha] at hc
    omega

/-- `Primer_create` is compatible with a key of at most `2 ^ 15` blocks. For
such a key `K`, whatever bytes the random source delivers: `Primer_create`
never raises; it returns unless the source runs out of accepted bytes (exactly
when the source holds fewer than `prefix_len` bytes that `random_range(size)`
accepts); and the primer it returns has `prefix_len` bytes, all of them bytes
of the base, so that `Primer_test_key` and `Key_test_primer` accept it. -/
theorem Primer_create_compatible (source : List byte) (data : list) (K : Key)
    (hn : data.length ≤ 32768) (hK : Key_call data = some K) :
    Primer_create source K ≠ Drawn.raised ∧
    (Primer_create source K = Drawn.starved ↔
      source.countP (accepted K.size) < K.prefix_len) ∧
    (∀ p rest, Primer_create source K = Drawn.value p rest →
      p.data.length = K.prefix_len ∧ (∀ b ∈ p.data, b ∈ K.base) ∧
      Primer_test_key p K = some () ∧ Key_test_primer K p = some ()) := by
  have hwf := Key_call_base data K hK
  have hL : K.prefix_len ≤ 32767 := by
    obtain ⟨-, -, -, o, axes, -, -, -, rfl⟩ := Key_call_parts data K hK
    show data.length - 1 ≤ 32767
    omega
  rcases Primer_create_spec source K hwf hL with ⟨hs, hcount⟩ | ⟨p, rest, hv, hcomp, hcount⟩
  · refine ⟨by rw [hs]; simp, ?_, ?_⟩
    · constructor
      · intro _; exact hcount
      · intro _; exact hs
    · intro p rest hv
      rw [hs] at hv
      cases hv
  · refine ⟨by rw [hv]; simp, ?_, ?_⟩
    · constructor
      · intro hs; rw [hv] at hs; cases hs
      · intro hlt
        omega
    · intro p2 rest2 hv2
      rw [hv] at hv2
      simp only [Drawn.value.injEq] at hv2
      obtain ⟨hp, -⟩ := hv2
      subst hp
      have ht := (Primer_test_key_iff p K).2 hcomp
      exact ⟨hcomp.1, hcomp.2, ht, ht⟩

set_option maxRecDepth 100000 in
/-- The key of "ABC", "BCA", "ABC" and a source that delivers the bytes 1, 2:
an instance of `Primer_create_compatible`. -/
theorem Primer_create_compatible_witness :
    Primer_create [1, 2] (key_tables sample_data) ≠ Drawn.raised ∧
    (∀ p rest, Primer_create [1, 2] (key_tables sample_data) = Drawn.value p rest →
      p.data.length = (key_tables sample_data).prefix_len ∧
      (∀ b ∈ p.data, b ∈ (key_tables sample_data).base) ∧
      Primer_test_key p (key_tables sample_data) = some () ∧
      Key_test_primer (key_tables sample_data) p = some ()) ∧
    Primer_create [1, 2] (key_tables sample_data) = Drawn.value { data := [66, 67] } [] :=
  have h := Primer_create_compatible [1, 2] sample_data (key_tables sample_data) (by decide)
    sample_key_call
  ⟨h.1, h.2.2, by decide⟩

/-! ## The claims, continued -/

set_option maxRecDepth 100000 in
/-- C11: the test vector of `main` on the tiny alphabet.  With the key of
three copies of "ABC" and the primer "AB", a fresh Encrypter turns the plain
text into the cypher text of the test, and a fresh Decrypter with the same key
and primer turns that cypher text back into the plain text. -/
theorem main_process_vector :
    main_process_test (bytes_from_string "aCBAacbcAbcAcbAcCcCACAAaaBcccCBBBbBcCaCb") =
      some (bytes_from_string "aABAacbcBbcAcbAcCcBBBCCaaBcccABBAbAcBaCb",
        bytes_from_string "aCBAacbcAbcAcbAcCcCACAAaaBcccCBBBbBcCaCb") := by
  decide!

set_option maxRecDepth 100000 in
/-- C12: the test vector of `main` on `Key_encode` and `Key_decode`.  With the
key of four copies of "ejpszgwufrdmxbhkcatvolnyqi" and a deque holding 1, 2, 3,
the indices 4, 5, 6, 7, 8 (each appended after its step) give the bytes
'd', 'h', 't', 'n', 'e' from `Key_encode` and 'u', 'z', 't', 'z', 'h' from
`Key_decode`, paired here step by step. -/
theorem main_key_vector :
    main_key_test =
      some [(100, 117), (104, 122), (116, 116), (110, 122), (101, 104)] ∧
    bytes_from_string "dhtne" = [100, 104, 116, 110, 101] ∧
    bytes_from_string "uztzh" = [117, 122, 116, 122, 104] := by
  refine ⟨?_, by decide!, by decide!⟩
  rw [main_key_test_unfold, main_key_call]
  decide!

/-- Processing is total with a key of at most `2 ^ 15` blocks. For such a key
and every processor state reachable from construction: `Encrypter_process` and
`Decrypter_process` return on every input (and the state they leave is
reachable again); the check of the prefix length in `Key_calculate_sum` passes;
for every byte of the alphabet both converters return, whatever the cache
position written; and construction itself returns for every primer that the key
accepts. -/
theorem process_total (data : list) (K : Key) (P : _Processor) (x : bytes)
    (hn : data.length ≤ 32768) (hK : Key_call data = some K) (hP : Reachable K P) :
    (∃ out after, Encrypter_process P x = some (out, after) ∧ Reachable K after) ∧
    (∃ out after, Decrypter_process P x = some (out, after) ∧ Reachable K after) ∧
    (∃ sum, Key_calculate_sum P.primary P.prefix_ = some sum) ∧
    (∀ (v : byte) (cache : bytes) (offset : Nat), dict_contains P.encoder v = true →
      offset < cache.length →
      (∃ r, Encrypter_convert P.encoder v P.primary P.prefix_ cache offset = some r) ∧
      (∃ r, Decrypter_convert P.encoder v P.primary P.prefix_ cache offset = some r)) ∧
    (∀ vector : Primer, Primer_test_key vector K = some () →
      ∃ P0, _Processor_call K vector = some P0 ∧ Reachable K P0) := by
  have hwf := Key_call_wf data K hn hK
  obtain ⟨hp, he, -, hd⟩ := Reachable_inv K P hwf hP
  obtain ⟨hnd, hs, -, hmem⟩ := KeyWF_order K hwf
  refine ⟨?_, ?_, ?_, ?_, ?_⟩
  · obtain ⟨out, d2, h1, -, -⟩ := Encrypter_process_of_inv K P x hwf hp he hd
    exact ⟨out, _, h1, Reachable.encrypt P x out _ hP h1⟩
  · obtain ⟨out, d2, h1, -, -⟩ := Decrypter_process_of_inv K P x hwf hp he hd
    exact ⟨out, _, h1, Reachable.decrypt P x out _ hP h1⟩
  · rw [hp]
    exact ⟨_, Key_calculate_sum_of_inv K P.prefix_ hwf hd⟩
  · intro v cache offset hv ho
    rw [he, encoder_dict_contains, decide_eq_true_eq] at hv
    have hvb := (hmem v).2 hv
    rw [Encrypter_convert_eq, Decrypter_convert_eq, he, hp]
    obtain ⟨o1, d1, h1, -⟩ := Encrypter_step_of_inv K P.prefix_ v hwf hd hvb
    obtain ⟨o2, d2, h2, -⟩ := Decrypter_step_of_inv K P.prefix_ v hwf hd hvb
    rw [h1, h2]
    simp [bytes_setitem, ho]
  · intro vector hv
    have hc := (Primer_test_key_iff vector K).1 hv
    have hcall := _Processor_call_of_compatible K vector hs hnd hmem hc
    exact ⟨_, hcall, Reachable.init vector _ hcall⟩

/-- The processor of the key "ABC", "BCA", "ABC" and the primer "AA", on the
input "BaC": an instance of `process_total`. -/
theorem process_total_witness :
    (∃ out after,
      Encrypter_process (processor_tables (key_tables sample_data) sample_primer) [66, 97, 67] =
        some (out, after) ∧ Reachable (key_tables sample_data) after) ∧
    (∃ out after,
      Decrypter_process (processor_tables (key_tables sample_data) sample_primer) [66, 97, 67] =
        some (out, after) ∧ Reachable (key_tables sample_data) after) :=
  have h := process_total sample_data (key_tables sample_data)
    (processor_tables (key_tables sample_data) sample_primer) [66, 97, 67] (by decide)
    sample_key_call (Reachable.init sample_primer _ sample_processor_call)
  ⟨h.1, h.2.1⟩

/-- C14: streaming.  For every processor state and all inputs `a` and `b`,
processing `a ++ b` in one call is processing `a` and then `b` with the same
processor: the outputs concatenate and the final state is the same (and one
raises exactly when the other does).  The output of a beginning of the input
is the beginning of the output, so the output byte at a position depends only
on the starting state and the input bytes up to that position. -/
theorem chunk_invariance (self : _Processor) (a b : bytes) :
    Encrypter_process self (a ++ b) =
      ((Encrypter_process self a).bind fun r =>
        (Encrypter_process r.2 b).map fun s => (r.1 ++ s.1, s.2)) ∧
    Decrypter_process self (a ++ b) =
      ((Decrypter_process self a).bind fun r =>
        (Decrypter_process r.2 b).map fun s => (r.1 ++ s.1, s.2)) ∧
    (∀ (x out : bytes) (after : _Processor) (n : Nat),
      Encrypter_process self x = some (out, after) →
        ∃ mid, Encrypter_process self (x.take n) = some (out.take n, mid)) ∧
    (∀ (x out : bytes) (after : _Processor) (n : Nat),
      Decrypter_process self x = some (out, after) →
        ∃ mid, Decrypter_process self (x.take n) = some (out.take n, mid)) := by
  refine ⟨?_, ?_, ?_, ?_⟩
  · rw [Encrypter_process_eq_run, Encrypter_process_eq_run, run_append]
    cases hr : run (Encrypter_step self.encoder self.primary) (dict_contains self.encoder)
        self.prefix_ a with
    | none => simp
    | some r =>
      simp only [Option.some_bind, Option.map_some', Encrypter_process_eq_run]
      cases run (Encrypter_step self.encoder self.primary) (dict_contains self.encoder) r.2 b
        <;> simp
  · rw [Decrypter_process_eq_run, Decrypter_process_eq_run, run_append]
    cases hr : run (Decrypter_step self.encoder self.primary) (dict_contains self.encoder)
        self.prefix_ a with
    | none => simp
    | some r =>
      simp only [Option.some_bind, Option.map_some', Decrypter_process_eq_run]
      cases run (Decrypter_step self.encoder self.primary) (dict_contains self.encoder) r.2 b
        <;> simp
  · intro x out after n h
    rw [Encrypter_process_eq_run] at h
    cases hr : run (Encrypter_step self.encoder self.primary) (dict_contains self.encoder)
        self.prefix_ x with
    | none => rw [hr] at h; simp at h
    | some r =>
      rw [hr] at h
      simp only [Option.map_some', Option.some.injEq, Prod.mk.injEq] at h
      obtain ⟨mid, hm⟩ := run_take _ _ x n _ r.1 r.2 hr
      refine ⟨{ self with prefix_ := mid }, ?_⟩
      rw [Encrypter_process_eq_run, hm, ← h.1]
      rfl
  · intro x out after n h
    rw [Decrypter_process_eq_run] at h
    cases hr : run (Decrypter_step self.encoder self.primary) (dict_contains self.encoder)
        self.prefix_ x with
    | none => rw [hr] at h; simp at h
    | some r =>
      rw [hr] at h
      simp only [Option.map_some', Option.some.injEq, Prod.mk.injEq] at h
      obtain ⟨mid, hm⟩ := run_take _ _ x n _ r.1 r.2 hr
      refine ⟨{ self with prefix_ := mid }, ?_⟩
      rw [Decrypter_process_eq_run, hm, ← h.1]
      rfl

/-- C19: the encoder table.  For a valid key with offset `o` (the value
`Key_calculate_offset` returns for it): `o < size`, `encoder` is `base` rotated
left by `o` (the result of `bytes_rotate`), it has `size` bytes, its byte at
position `i` is the byte of `base` at position `(i + o) % size`, and it is a
permutation of `base`. -/
theorem encoder_table (data : list) (K : Key) (o : Nat) (hK : Key_call data = some K)
    (ho : Key_calculate_offset K.data K.prefix_len K.base K.size = some o) :
    o < K.size ∧ bytes_rotate K.base o = some K.encoder ∧ K.encoder.length = K.size ∧
    (∀ i, i < K.size → ∃ b, K.encoder[i]? = some b ∧ K.base[(i + o) % K.size]? = some b) ∧
    K.encoder.Perm K.base := by
  obtain ⟨-, -, -, o2, axes, ho2, hlt, -, rfl⟩ := Key_call_parts data K hK
  have ho3 : Key_calculate_offset data (data.length - 1) (data.headD [])
      (data.headD []).length = some o := ho
  rw [ho2] at ho3
  obtain rfl : o2 = o := Option.some.inj ho3
  refine ⟨hlt, bytes_rotate_eq _ _ hlt, ?_, ?_, ?_⟩
  · show ((data.headD []).rotate o2).length = (data.headD []).length
    rw [List.length_rotate]
  · intro i hi
    have hi2 : i < (data.headD []).length := hi
    have hm : (i + o2) % (data.headD []).length < (data.headD []).length :=
      Nat.mod_lt _ (by omega)
    refine ⟨(data.headD [])[(i + o2) % (data.headD []).length], ?_, ?_⟩
    · show ((data.headD []).rotate o2)[i]? = _
      rw [List.getElem?_rotate hi2, List.getElem?_eq_getElem hm]
    · show (data.headD [])[(i + o2) % (data.headD []).length]? = _
      rw [List.getElem?_eq_getElem hm]
  · exact List.rotate_perm _ _

/-- Witness of C19: the key of "ABC", "BCA", "ABC", whose offset is 2 and
whose encoder is "CAB". -/
theorem encoder_table_witness :
    2 < (key_tables sample_data).size ∧
    bytes_rotate (key_tables sample_data).base 2 = some (key_tables sample_data).encoder ∧
    (key_tables sample_data).encoder = [67, 65, 66] :=
  have h := encoder_table sample_data (key_tables sample_data) 2 sample_key_call (by decide!)
  ⟨h.1, h.2.1, by decide!⟩

/-- C28: the prefix invariant.  In every processor state reachable from
construction with a valid key, the prefix has exactly `prefix_len` entries, its
head is a position of the buffer, and every entry is below `size`. -/
theorem prefix_invariant (data : list) (K : Key) (P : _Processor)
    (hK : Key_call data = some K) (hP : Reachable K P) :
    deque_len P.prefix_ = K.prefix_len ∧ P.prefix_.offset < K.prefix_len ∧
    (∀ e ∈ P.prefix_.buffer, e.val < K.size) ∧
    (∃ entries, deque_items P.prefix_ = some entries ∧ entries.length = K.prefix_len ∧
      ∀ e ∈ entries, e.val < K.size) := by
  have hwf := Key_call_base data K hK
  obtain ⟨-, -, -, hv, hlen, hent⟩ := Reachable_base K P hwf hP
  have hL : 1 ≤ K.prefix_len := hwf.1
  refine ⟨hlen, ?_, hent, _, deque_items_eq _, ?_, ?_⟩
  · rcases hv with h | ⟨h, -⟩
    · omega
    · rw [h] at hlen
      simp at hlen
      omega
  · rw [deque_view_length, hlen]
  · intro e he
    exact hent e ((mem_deque_view _ e).1 he)

/-- Witness of C28: the Encrypter of the key "ABC", "BCA", "ABC" and the
primer "AA" after it has processed "BaC". -/
theorem prefix_invariant_witness :
    deque_len ({ buffer := [1, 2], offset := 0 } : deque) = 2 ∧
    ({ buffer := [1, 2], offset := 0 } : deque).offset < 2 :=
  have h := prefix_invariant sample_data (key_tables sample_data) _ sample_key_call
    (Reachable.encrypt _ _ _ _ (Reachable.init sample_primer _ sample_processor_call)
      sample_encrypt)
  ⟨h.1, h.2.1⟩

/-- C34: the order table.  For a valid key, `order` is `base` sorted: it is
the result of `bytes_sort` on `base`, a permutation of `base`, of `size` bytes,
and each of its bytes is below the next one. -/
theorem order_table (data : list) (K : Key) (hK : Key_call data = some K) :
    K.order = bytes_sort K.base ∧ K.order.Perm K.base ∧ K.order.length = K.size ∧
    (∀ i, i + 1 < K.size →
      ∃ x y, K.order[i]? = some x ∧ K.order[i + 1]? = some y ∧ x < y) := by
  have hwf := Key_call_base data K hK
  obtain ⟨hnd, hs, hol, -⟩ := KeyBase_order K hwf
  have ho : K.order = bytes_sort K.base := hwf.2.2.2.2.2.1
  refine ⟨ho, ?_, hol, ?_⟩
  · rw [ho]
    exact bytes_sort_perm _
  · intro i hi
    have h1 : i < K.order.length := by omega
    have h2 : i + 1 < K.order.length := by omega
    refine ⟨K.order[i], K.order[i + 1], List.getElem?_eq_getElem h1,
      List.getElem?_eq_getElem h2, ?_⟩
    have hlt := sorted_lt_of_sorted_nodup K.order hs hnd
    exact (List.pairwise_iff_getElem.1 hlt) i (i + 1) h1 h2 (by omega)

/-- Witness of C34: the key of "ABC", "BCA", "ABC". -/
theorem order_table_witness :
    (key_tables sample_data).order = bytes_sort (key_tables sample_data).base ∧
    (key_tables sample_data).order.Perm (key_tables sample_data).base :=
  have h := order_table sample_data (key_tables sample_data) sample_key_call
  ⟨h.1, h.2.1⟩

/-- C38: rotation.  `bytes_rotate(x, k)` raises exactly when `k` is not below
the length of `x`.  Otherwise, in either branch, it leaves a buffer of the same
length whose byte at position `i` is the old byte at position `(i + k) % n`,
and for `0 < k` a second rotation by `n - k` restores `x`. -/
theorem rotation (x : bytes) (k : Nat) :
    (bytes_rotate x k = none ↔ x.length ≤ k) ∧
    (k < x.length → ∃ y, bytes_rotate x k = some y ∧ y.length = x.length ∧
      (∀ i, i < x.length → y[i]? = x[(i + k) % x.length]?) ∧
      (0 < k → bytes_rotate y (x.length - k) = some x)) := by
  constructor
  · by_cases h : k < x.length
    · rw [bytes_rotate_eq x k h]
      simp
      omega
    · have : bytes_rotate x k = none := by simp [bytes_rotate, h]
      rw [this]
      simp
      omega
  · intro h
    refine ⟨x.rotate k, bytes_rotate_eq x k h, List.length_rotate _ _, ?_, ?_⟩
    · intro i hi
      exact List.getElem?_rotate hi
    · intro hk
      rw [bytes_rotate_eq _ _ (by rw [List.length_rotate]; omega), List.rotate_rotate]
      have : k + (x.length - k) = x.length := by omega
      rw [this, List.rotate_length]

/-- C39: `int_mod` is the floor modulo.  For a divisor `m > 0` the result is
in `[0, m)` and congruent to the dividend modulo `m` (it is the remainder of
the Euclidean division); for `m < 0` it is in `(m, 0]` and congruent to the
dividend modulo `m`.  Every assertion of `main` on `int_mod` (dividends -5 to
5, divisors ±1 to ±5) holds. -/
theorem int_mod_floor (a m : Int) :
    (0 < m → 0 ≤ int_mod a m ∧ int_mod a m < m ∧ (int_mod a m - a) % m = 0 ∧
      int_mod a m = a % m) ∧
    (m < 0 → m < int_mod a m ∧ int_mod a m ≤ 0 ∧ (int_mod a m - a) % m = 0) ∧
    (∀ e ∈ main_int_mod_assertions, int_mod e.1 e.2.1 = e.2.2) := by
  refine ⟨?_, ?_, by decide⟩
  · intro hm
    refine ⟨?_, ?_, int_mod_congr a m, int_mod_eq_emod a m hm⟩
    · rw [int_mod_eq_emod a m hm]
      exact Int.emod_nonneg _ (by omega)
    · rw [int_mod_eq_emod a m hm]
      exact Int.emod_lt_of_pos _ hm
  · intro hm
    exact ⟨(int_mod_neg a m hm).1, (int_mod_neg a m hm).2, int_mod_congr a m⟩

/-- C40 (fails on the code): `int_ceildiv(-3, -2)` is 1 and
`int_ceildiv(3, -2)` is 0, while the ceilings of (-3) / (-2) and 3 / (-2) are 2
and -1: with a negative divisor and a remainder, `remainder > 0` is not the
test for rounding up.  `iter_range_init` counts with it: the range from 3 down
to 0 by -2 yields 3 only, not 3 and 1. -/
theorem int_ceildiv_negative_divisor :
    int_ceildiv (-3) (-2) = 1 ∧ Int.ceil ((-3 : ℚ) / (-2 : ℚ)) = 2 ∧
    int_ceildiv 3 (-2) = 0 ∧ Int.ceil ((3 : ℚ) / (-2 : ℚ)) = -1 ∧
    range_items { start := 3, stop := 0, step := -2 } = [3] := by
  refine ⟨by decide, ?_, by decide, ?_, by decide⟩
  · rw [Int.ceil_eq_iff]
    norm_num
  · rw [Int.ceil_eq_iff]
    norm_num

/-- The offset formula for a key of at most `2 ^ 15` blocks. For such a key,
`Key_calculate_offset` returns a value `o` below `size` with `o = (-(sum over k
= 1 .. L - 1 of indexIn(base, data[k][0]))) mod size`. The last block does not
contribute: for `L = 1` the offset is 0, and with any other block in place of
`data[L]` the function returns the same value. -/
theorem offset_formula (data : list) (K : Key) (hn : data.length ≤ 32768)
    (hK : Key_call data = some K) :
    ∃ o, Key_calculate_offset K.data K.prefix_len K.base K.size = some o ∧ o < K.size ∧
      (o : Int) = (-(offset_sum K.data K.prefix_len K.base : Int)) % (K.size : Int) ∧
      offset_sum K.data K.prefix_len K.base =
        ((List.range (K.prefix_len - 1)).map
          (fun k => List.indexOf ((K.data.getD (1 + k) []).headD 0) K.base)).sum ∧
      (K.prefix_len = 1 → o = 0) ∧
      (∀ block : bytes,
        Key_calculate_offset (K.data.set K.prefix_len block) K.prefix_len K.base K.size =
          some o) := by
  obtain ⟨hr, rfl⟩ := (Key_call_eq_some_iff data K hn).1 hK
  refine ⟨key_offset data, key_offset_call data hn hr, key_offset_lt data hr,
    key_offset_int data hr, rfl, ?_, fun block => Key_calculate_offset_set data hn hr block⟩
  intro hL
  have hL2 : data.length - 1 = 1 := hL
  have h := key_offset_int data hr
  rw [hL2] at h
  simp [offset_sum] at h
  exact h

/-- The key of "ABC", "BCA", "ABC": the sum is 1 (the block "BCA" begins with
the byte at position 1 of the base) and the offset is 2: an instance of
`offset_formula`. -/
theorem offset_formula_witness :
    ∃ o, Key_calculate_offset (key_tables sample_data).data (key_tables sample_data).prefix_len
        (key_tables sample_data).base (key_tables sample_data).size = some o ∧
      o < (key_tables sample_data).size ∧ o = 2 := by
  obtain ⟨o, h1, h2, -⟩ := offset_formula sample_data (key_tables sample_data) (by decide)
    sample_key_call
  refine ⟨o, h1, h2, ?_⟩
  have h : Key_calculate_offset (key_tables sample_data).data
      (key_tables sample_data).prefix_len (key_tables sample_data).base
      (key_tables sample_data).size = some 2 := by decide!
  rw [h] at h1
  exact (Option.some.inj h1).symm

/-- The axes tables as the code builds them for a key of at most `2 ^ 15`
blocks: `axes` has `L` tables of `size` bytes, and the table `axes[j]` holds at
each position `i` the index in `base` of the byte `data[L - j][i]`. -/
theorem axes_tables (data : list) (K : Key) (hn : data.length ≤ 32768)
    (hK : Key_call data = some K) :
    K.axes.length = K.prefix_len ∧
    (∀ j, j < K.prefix_len → ∀ i, i < K.size →
      ∃ table block b idx, K.axes[j]? = some table ∧ table.length = K.size ∧
        K.data[K.prefix_len - j]? = some block ∧ block[i]? = some b ∧
        bytes_index K.base b = some idx ∧ (table[i]?).map Fin.val = some idx) := by
  have hwf := Key_call_wf data K hn hK
  obtain ⟨hr, rfl⟩ := (Key_call_eq_some_iff data K hn).1 hK
  obtain ⟨-, -, hbnd⟩ := KeyRules_base data hr
  have h256 := nodup_length_le_256 _ hbnd
  refine ⟨hwf.2.2.2.2.2.2.1, ?_⟩
  intro j hj i hi
  obtain ⟨block, e1, e2, e3, e4⟩ := key_tables_axes_getElem data hr j hj
  have hi2 : i < block.length := by rw [e2]; exact hi
  have hb : block[i] ∈ data.headD [] := e3 _ (List.getElem_mem hi2)
  have hidx : List.indexOf block[i] (data.headD []) < (data.headD []).length :=
    List.indexOf_lt_length.2 hb
  refine ⟨_, block, block[i], List.indexOf block[i] (data.headD []), e4, ?_, e1,
    List.getElem?_eq_getElem hi2, bytes_index_of_mem _ _ hb, ?_⟩
  · rw [axes_table, List.length_map, e2]
    rfl
  · rw [axes_table, List.getElem?_map, List.getElem?_eq_getElem hi2]
    simp only [Option.map_some', Option.some.injEq]
    exact fin_ofNat_val _ (by omega)

/-- The key of "ABC", "BCA", "ABC" has two tables: an instance of
`axes_tables`. -/
theorem axes_tables_witness : (key_tables sample_data).axes.length = 2 :=
  (axes_tables sample_data (key_tables sample_data) (by decide) sample_key_call).1

set_option maxRecDepth 100000 in
/-- C21 (fails on the code as the specification words it): for the valid key
of the blocks "ABC", "BCA", "ABC", the table `axes[1]`, built from the block
`data[1]` = "BCA", does not map the byte 'B' (index 1 in `base`) to its
position 0 in the block: it holds 2 there. -/
theorem axes_not_as_stated :
    Key_call sample_data = some (key_tables sample_data) ∧
    axes_as_stated (key_tables sample_data) = false ∧
    (key_tables sample_data).axes[1]? = some [1, 2, 0] ∧
    (key_tables sample_data).data[1]? = some [66, 67, 65] ∧
    bytes_index (key_tables sample_data).base 66 = some 1 :=
  ⟨sample_key_call, by decide!, by decide!, by decide!, by decide!⟩

/-- C21, amended: for a valid key of at most `2 ^ 15` blocks, `axes` is the
list of the tables of the blocks `data[L]`, `data[L - 1]`, ..., `data[1]` in
this order, and the table of a block holds, position by position, the index in
`base` of the byte of the block at that position (the table maps the position
`i` to the index of the byte, not the byte to `i`). -/
theorem axes_from_blocks (data : list) (K : Key) (hn : data.length ≤ 32768)
    (hK : Key_call data = some K) :
    K.axes = (List.range K.prefix_len).map
      (fun j => (K.data.getD (K.prefix_len - j) []).map
        (fun b => (Fin.ofNat (List.indexOf b K.base) : byte))) ∧
    (∀ j, j < K.prefix_len → ∃ block, K.data[K.prefix_len - j]? = some block ∧
      K.axes[j]? = some (block.map (fun b => (Fin.ofNat (List.indexOf b K.base) : byte)))) := by
  obtain ⟨hr, rfl⟩ := (Key_call_eq_some_iff data K hn).1 hK
  refine ⟨rfl, ?_⟩
  intro j hj
  obtain ⟨block, e1, -, -, e4⟩ := key_tables_axes_getElem data hr j hj
  exact ⟨block, e1, e4⟩

/-- Witness of C21, amended: the key of "ABC", "BCA", "ABC". -/
theorem axes_from_blocks_witness :
    (key_tables sample_data).axes = [[0, 1, 2], [1, 2, 0]] := by
  rw [(axes_from_blocks sample_data (key_tables sample_data) (by decide) sample_key_call).1]
  decide!

set_option maxRecDepth 100000 in
/-- C26 (fails on the code as worded): for the valid key of the blocks "ABC",
"BCA", "ABC" (`prefix_len` 2, `size` 3), the prefix holding 5, 5 has the
capacity 2 of the key, and `Key_calculate_sum` raises all the same (the entry 5
is not a position of a table of the axes). -/
theorem history_sum_raises_in_capacity :
    Key_call sample_data = some (key_tables sample_data) ∧
    deque_len (deque_call [5, 5]) = (key_tables sample_data).prefix_len ∧
    Key_calculate_sum (key_tables sample_data) (deque_call [5, 5]) = none :=
  ⟨sample_key_call, by decide!, by decide!⟩

/-- C26, amended: for a valid key of at most `2 ^ 15` blocks and a prefix whose
entries are below `size`, `Key_calculate_sum` raises if and only if the
capacity of the prefix differs from `prefix_len`; otherwise it returns the sum
over `k` of `axes[k][h_k]`, where `h_k`, the `k`-th oldest entry, is the byte
at the physical position `(head + k) % L` of the buffer. -/
theorem history_sum_formula (data : list) (K : Key) (prefix_ : deque)
    (hn : data.length ≤ 32768) (hK : Key_call data = some K)
    (hent : ∀ e ∈ prefix_.buffer, e.val < K.size) :
    (Key_calculate_sum K prefix_ = none ↔ deque_len prefix_ ≠ K.prefix_len) ∧
    (deque_len prefix_ = K.prefix_len →
      ∃ h, deque_items prefix_ = some h ∧ h.length = K.prefix_len ∧
        (∀ k, k < K.prefix_len →
          h[k]? = prefix_.buffer[(prefix_.offset + k) % K.prefix_len]?) ∧
        Key_calculate_sum K prefix_ =
          some (h.enum.map
            (fun entry => ((K.axes.getD entry.1 []).getD entry.2.val 0).val)).sum) := by
  have hwf := Key_call_wf data K hn hK
  obtain ⟨-, -, -, -, -, -, hal, hat, -⟩ := hwf
  have hsum : deque_len prefix_ = K.prefix_len →
      Key_calculate_sum K prefix_ = some (history_sum K.axes (deque_view prefix_)) := by
    intro hlen
    apply Key_calculate_sum_eq K prefix_ hlen
    intro k hk
    have hk2 : k < K.axes.length := by omega
    refine ⟨K.axes[k], List.getElem?_eq_getElem hk2, ?_⟩
    intro e he
    rw [hat _ (List.getElem_mem hk2)]
    exact hent e he
  constructor
  · constructor
    · intro h hlen
      rw [hsum hlen] at h
      cases h
    · intro h
      have : decide (deque_len prefix_ = K.prefix_len) = false := by simpa using h
      simp [Key_calculate_sum, assert, this]
  · intro hlen
    refine ⟨deque_view prefix_, deque_items_eq _, ?_, ?_, hsum hlen⟩
    · rw [deque_view_length]
      exact hlen
    · intro k hk
      have hlen2 : prefix_.buffer.length = K.prefix_len := hlen
      rw [← hlen2] at hk ⊢
      exact deque_view_getElem prefix_ k hk

set_option maxRecDepth 100000 in
/-- Witness of C26, amended: the key of "ABC", "BCA", "ABC" and the prefix
holding 1, 2 with head 1 (oldest entry 2): the sum is `axes[0][2] + axes[1][1]`,
that is 2 + 2. -/
theorem history_sum_formula_witness :
    Key_calculate_sum (key_tables sample_data) { buffer := [1, 2], offset := 1 } = some 4 := by
  obtain ⟨h, h1, -, -, h4⟩ :=
    (history_sum_formula sample_data (key_tables sample_data) { buffer := [1, 2], offset := 1 }
      (by decide) sample_key_call (by decide!)).2 (by decide!)
  have hv : deque_items ({ buffer := [1, 2], offset := 1 } : deque) = some [2, 1] := by decide!
  rw [hv] at h1
  rw [h4, ← Option.some.inj h1]
  decide!

/-- C27: the circular prefix is a sliding window.  For a deque of capacity
`L ≥ 1` with head below `L` and contents `h`, oldest first, `deque_append(v)`
writes `v` at the physical position `head`, sets the head to `(head + 1) % L`,
keeps the capacity, and leaves the contents `h` without its first entry,
followed by `v`. -/
theorem deque_sliding_window (d : deque) (v : byte) (hL : 1 ≤ d.buffer.length)
    (hh : d.offset < d.buffer.length) :
    ∃ d2 h, deque_append d v = some d2 ∧ deque_items d = some h ∧
      h.length = d.buffer.length ∧
      d2.buffer = d.buffer.set d.offset v ∧ d2.offset = (d.offset + 1) % d.buffer.length ∧
      deque_len d2 = deque_len d ∧ deque_items d2 = some (h.drop 1 ++ [v]) := by
  obtain ⟨d2, h1, -, h3, h4⟩ := deque_append_view d v (Or.inl hh)
  have hne : d.buffer ≠ [] := by
    intro e; rw [e] at hL; simp at hL
  have hb : bytes_bool d.buffer = true := by simp [bytes_bool]; omega
  have h5 : deque_append d v =
      some (⟨d.buffer.set d.offset v, (d.offset + 1) % d.buffer.length⟩ : deque) := by
    simp [deque_append, hb, bytes_setitem, hh, bytes_len]
  rw [h5] at h1
  have h6 := Option.some.inj h1
  refine ⟨d2, deque_view d, by rw [h5, h6], deque_items_eq d, deque_view_length d, ?_, ?_, h3, ?_⟩
  · rw [← h6]
  · rw [← h6]
  · rw [deque_items_eq, h4, if_neg hne]

/-- Witness of C27: the deque with the buffer 1, 2, 3 and head 1, whose
contents are 2, 3, 1; appending 9 gives the buffer 1, 9, 3, head 2 and the
contents 3, 1, 9. -/
theorem deque_sliding_window_witness :
    ∃ d2 h, deque_append { buffer := [1, 2, 3], offset := 1 } 9 = some d2 ∧
      deque_items { buffer := [1, 2, 3], offset := 1 } = some h ∧ h = [2, 3, 1] ∧
      d2.buffer = [1, 9, 3] ∧ d2.offset = 2 ∧ deque_items d2 = some [3, 1, 9] := by
  obtain ⟨d2, h, h1, h2, -, h4, h5, -, h7⟩ :=
    deque_sliding_window { buffer := [1, 2, 3], offset := 1 } 9 (by decide) (by decide)
  have hv : deque_items ({ buffer := [1, 2, 3], offset := 1 } : deque) = some [2, 3, 1] := by
    decide
  have hh : h = [2, 3, 1] := by
    rw [hv] at h2
    exact (Option.some.inj h2).symm
  refine ⟨d2, h, h1, h2, hh, h4, h5, ?_⟩
  rw [h7, hh]
  rfl

/-- C29: the index tables of a processor are mutually inverse.  After
`_Processor_init` with a valid key (and a primer it accepts): the keys of the
dictionary `encoder` are exactly the bytes of the alphabet; `encoder[order[i]]`
is `i` for every `i` below `size`; `decoder[encoder[v]]` is `v` for every byte
`v` of the alphabet; and `decoder` is `order`. -/
theorem processor_tables_inverse (data : list) (K : Key) (vector : Primer) (P : _Processor)
    (hK : Key_call data = some K) (hP : _Processor_call K vector = some P) :
    (∀ v, dict_contains P.encoder v = true ↔ v ∈ K.base) ∧
    (∀ i, i < K.size →
      ∃ b, K.order[i]? = some b ∧ (dict_getitem P.encoder b).map Fin.val = some i) ∧
    (∀ v ∈ K.base, ∃ c, dict_getitem P.encoder v = some c ∧
      bytes_getitem P.decoder c.val = some v) ∧
    P.decoder = K.order := by
  have hwf := Key_call_base data K hK
  obtain ⟨hnd, hs, hol, hmem⟩ := KeyBase_order K hwf
  obtain ⟨-, rfl⟩ := (_Processor_call_base K vector P hwf).1 hP
  have h256 : K.size ≤ 256 := hwf.2.2.1
  refine ⟨?_, ?_, ?_, rfl⟩
  · intro v
    show dict_contains (encoder_dict K.order) v = true ↔ _
    rw [encoder_dict_contains, decide_eq_true_eq, hmem]
  · intro i hi
    have hi2 : i < K.order.length := by omega
    refine ⟨K.order[i], List.getElem?_eq_getElem hi2, ?_⟩
    show (dict_getitem (encoder_dict K.order) K.order[i]).map Fin.val = some i
    rw [encoder_dict_getitem K.order hnd, if_pos (List.getElem_mem hi2),
      code_of_getElem K.order hnd i hi2]
    simp only [Option.map_some', Option.some.injEq]
    exact fin_ofNat_val i (by omega)
  · intro v hv
    have hv2 := (hmem v).1 hv
    refine ⟨code_of K.order v, ?_, ?_⟩
    · show dict_getitem (encoder_dict K.order) v = _
      rw [encoder_dict_getitem K.order hnd, if_pos hv2]
    · exact getElem_code_of K.order hnd v hv2

/-- Witness of C29: the processor of the key "ABC", "BCA", "ABC" and the
primer "AA". -/
theorem processor_tables_inverse_witness :
    (∀ v, dict_contains (processor_tables (key_tables sample_data) sample_primer).encoder v =
      true ↔ v ∈ (key_tables sample_data).base) ∧
    (processor_tables (key_tables sample_data) sample_primer).decoder =
      (key_tables sample_data).order :=
  have h := processor_tables_inverse sample_data (key_tables sample_data) sample_primer _
    sample_key_call sample_processor_call
  ⟨h.1, h.2.2.2⟩

/-- Membership in the alphabet is preserved position by position with a key of
at most `2 ^ 15` blocks. For such a key, every reachable processor state and
every input `x`, both `Encrypter_process` and `Decrypter_process` return an
output of the length of `x` whose byte at each position is a byte of the
alphabet if and only if the byte of `x` at that position is. -/
theorem alphabet_positions (data : list) (K : Key) (P : _Processor) (x : bytes)
    (hn : data.length ≤ 32768) (hK : Key_call data = some K) (hP : Reachable K P) :
    (∃ out after, Encrypter_process P x = some (out, after) ∧ out.length = x.length ∧
      ∀ (i : Nat) (hi : i < x.length), ∃ o, out[i]? = some o ∧ (o ∈ K.base ↔ x[i] ∈ K.base)) ∧
    (∃ out after, Decrypter_process P x = some (out, after) ∧ out.length = x.length ∧
      ∀ (i : Nat) (hi : i < x.length), ∃ o, out[i]? = some o ∧ (o ∈ K.base ↔ x[i] ∈ K.base)) := by
  have hwf := Key_call_wf data K hn hK
  obtain ⟨hp, he, -, hd⟩ := Reachable_inv K P hwf hP
  obtain ⟨hnd, hs, -, hmem⟩ := KeyWF_order K hwf
  have hcont : ∀ v, dict_contains P.encoder v = true ↔ v ∈ K.base := by
    intro v
    rw [he, encoder_dict_contains, decide_eq_true_eq, hmem]
  constructor
  · obtain ⟨out, d2, h1, -, h3⟩ := Encrypter_process_of_inv K P x hwf hp he hd
    refine ⟨out, _, h1, h3, ?_⟩
    rw [Encrypter_process_eq_run] at h1
    cases hr : run (Encrypter_step P.encoder P.primary) (dict_contains P.encoder) P.prefix_ x with
    | none => rw [hr] at h1; simp at h1
    | some r =>
      rw [hr] at h1
      simp only [Option.map_some', Option.some.injEq, Prod.mk.injEq] at h1
      have hrel := run_rel _ _ (PrefixInv K) (fun o v => (o ∈ K.base ↔ v ∈ K.base))
        (by
          intro d v hd hv o d2 hs
          have hvb := (hcont v).1 hv
          obtain ⟨o', d2', h1', h2', h3', -⟩ := Encrypter_step_of_inv K d v hwf hd hvb
          rw [he, hp, h1'] at hs
          simp only [Option.some.injEq, Prod.mk.injEq] at hs
          rw [← hs.1, ← hs.2]
          exact ⟨h2', by simp [h3', hvb]⟩)
        (fun v _ => Iff.rfl) x P.prefix_ r.1 r.2 hd hr
      rw [← h1.1]
      exact forall₂_getElem _ _ _ hrel
  · obtain ⟨out, d2, h1, -, h3⟩ := Decrypter_process_of_inv K P x hwf hp he hd
    refine ⟨out, _, h1, h3, ?_⟩
    rw [Decrypter_process_eq_run] at h1
    cases hr : run (Decrypter_step P.encoder P.primary) (dict_contains P.encoder) P.prefix_ x with
    | none => rw [hr] at h1; simp at h1
    | some r =>
      rw [hr] at h1
      simp only [Option.map_some', Option.some.injEq, Prod.mk.injEq] at h1
      have hrel := run_rel _ _ (PrefixInv K) (fun o v => (o ∈ K.base ↔ v ∈ K.base))
        (by
          intro d v hd hv o d2 hs
          have hvb := (hcont v).1 hv
          obtain ⟨o', d2', h1', h2', h3', -⟩ := Decrypter_step_of_inv K d v hwf hd hvb
          rw [he, hp, h1'] at hs
          simp only [Option.some.injEq, Prod.mk.injEq] at hs
          rw [← hs.1, ← hs.2]
          exact ⟨h2', by simp [h3', hvb]⟩)
        (fun v _ => Iff.rfl) x P.prefix_ r.1 r.2 hd hr
      rw [← h1.1]
      exact forall₂_getElem _ _ _ hrel

/-- The processor of the key "ABC", "BCA", "ABC" and the primer "AA", on the
input "BaC": an instance of `alphabet_positions`. -/
theorem alphabet_positions_witness :
    ∃ out after,
      Encrypter_process (processor_tables (key_tables sample_data) sample_primer) [66, 97, 67] =
        some (out, after) ∧ out.length = 3 :=
  have h := alphabet_positions sample_data (key_tables sample_data)
    (processor_tables (key_tables sample_data) sample_primer) [66, 97, 67] (by decide)
    sample_key_call (Reachable.init sample_primer _ sample_processor_call)
  match h.1 with
  | ⟨out, after, h1, h2, _⟩ => ⟨out, after, h1, h2⟩

/-- C20: the decoder table.  For a valid key with offset `o`, every `r` and
every `i` below `size`: the row stored at `decoder[(r + o) % size]` holds
`order[i]` at the position that `base[(r + i) % size]` has in `order`. -/
theorem decoder_table (data : list) (K : Key) (o r i : Nat) (hK : Key_call data = some K)
    (ho : Key_calculate_offset K.data K.prefix_len K.base K.size = some o)
    (hr : r < K.size) (hi : i < K.size) :
    ∃ row b idx v, list_getitem K.decoder ((r + o) % K.size) = some row ∧
      bytes_getitem K.base ((r + i) % K.size) = some b ∧ bytes_index K.order b = some idx ∧
      bytes_getitem K.order i = some v ∧ bytes_getitem row idx = some v := by
  obtain ⟨-, hb2, hbnd, o2, axes, ho2, -, -, rfl⟩ := Key_call_parts data K hK
  have ho3 : Key_calculate_offset data (data.length - 1) (data.headD [])
      (data.headD []).length = some o := ho
  rw [ho2] at ho3
  obtain rfl : o2 = o := Option.some.inj ho3
  have hn : 0 < (data.headD []).length := by omega
  have hr2 : r < (data.headD []).length := hr
  have hi2 : i < (data.headD []).length := hi
  have hlt : (r + i) % (data.headD []).length < (data.headD []).length := Nat.mod_lt _ hn
  have hio : i < (bytes_sort (data.headD [])).length := by rw [bytes_sort_length]; exact hi2
  have hb : (data.headD [])[(r + i) % (data.headD []).length] ∈ bytes_sort (data.headD []) :=
    (mem_bytes_sort _ _).2 (List.getElem_mem hlt)
  have hrg := decoder_row_getElem (data.headD []) (bytes_sort (data.headD []))
    (data.headD []).length r i hn rfl (bytes_sort_length _) hbnd
    (fun b hb => (mem_bytes_sort _ b).2 hb) hi2
  rw [List.getD_eq_getElem _ _ hlt, List.getElem?_eq_getElem hio] at hrg
  exact ⟨_, _, _, _, decoder_grid_getElem _ _ _ o2 r hr2, List.getElem?_eq_getElem hlt,
    bytes_index_of_mem _ _ hb, List.getElem?_eq_getElem hio, hrg⟩

set_option maxRecDepth 100000 in
/-- Witness of C20: the key of "ABC", "BCA", "ABC" (offset 2), `r = 1`,
`i = 0`: the row at `decoder[0]` is "CAB", and at the position of
`base[1]` = 'B' in `order`, position 1, it holds `order[0]` = 'A'. -/
theorem decoder_table_witness :
    ∃ row b idx v, list_getitem (key_tables sample_data).decoder 0 = some row ∧
      bytes_getitem (key_tables sample_data).base 1 = some b ∧
      bytes_index (key_tables sample_data).order b = some idx ∧
      bytes_getitem (key_tables sample_data).order 0 = some v ∧
      bytes_getitem row idx = some v ∧ row = [67, 65, 66] ∧ v = 65 := by
  obtain ⟨row, b, idx, v, h1, h2, h3, h4, h5⟩ :=
    decoder_table sample_data (key_tables sample_data) 2 1 0 sample_key_call (by decide!)
      (by decide!) (by decide!)
  have e1 : list_getitem (key_tables sample_data).decoder 0 = some [67, 65, 66] := by decide!
  have e4 : bytes_getitem (key_tables sample_data).order 0 = some 65 := by decide!
  have h1' : list_getitem (key_tables sample_data).decoder 0 = some row := h1
  have hrow : row = [67, 65, 66] := by
    rw [e1] at h1'
    exact (Option.some.inj h1').symm
  have hv : v = 65 := by
    rw [e4] at h4
    exact (Option.some.inj h4).symm
  exact ⟨row, b, idx, v, h1', h2, h3, h4, h5, hrow, hv⟩

/-- The decoder rows are fully populated permutations, for every key that
`Key_call` returns, with the offset `o` that `Key_calculate_offset` returns:
the decoder list has `size` slots and `r ↦ (r + o) % size` is a bijection on
the positions below `size`, so every slot holds the row of one rotation; the
writes into a row go to each of its `size` positions exactly once, so every row
is a permutation of the alphabet; whatever `Key_decode` returns is a byte of
the alphabet; and for a key of at most `2 ^ 15` blocks `Key_decode` returns,
for a history of `L` entries below `size` and an index below `size`. -/
theorem decoder_rows_permutations (data : list) (K : Key) (o : Nat)
    (hK : Key_call data = some K)
    (ho : Key_calculate_offset K.data K.prefix_len K.base K.size = some o) :
    K.decoder.length = K.size ∧
    (∀ r1 r2, r1 < K.size → r2 < K.size → (r1 + o) % K.size = (r2 + o) % K.size → r1 = r2) ∧
    (∀ s, s < K.size → ∃ r, r < K.size ∧ (r + o) % K.size = s ∧
      K.decoder[s]? = some (decoder_row K.base K.order K.size r)) ∧
    (∀ r, r < K.size →
      ((decoder_row_writes K.base K.order K.size r).map Prod.fst).Perm (List.range K.size) ∧
      (decoder_row K.base K.order K.size r).Perm K.order ∧
      (decoder_row K.base K.order K.size r).Perm K.base) ∧
    (∀ row ∈ K.decoder, row.Perm K.base) ∧
    (∀ (d : deque) (c v : byte), Key_decode K d c = some v → v ∈ K.base) ∧
    (data.length ≤ 32768 →
      ∀ (H : bytes) (c : byte), H.length = K.prefix_len → (∀ e ∈ H, e.val < K.size) →
        c.val < K.size → ∃ v ∈ K.base, Key_decode K (deque_call H) c = some v) := by
  have hbase := Key_call_base data K hK
  have hlast : data.length ≤ 32768 →
      ∀ (H : bytes) (c : byte), H.length = K.prefix_len → (∀ e ∈ H, e.val < K.size) →
        c.val < K.size → ∃ v ∈ K.base, Key_decode K (deque_call H) c = some v := by
    intro hlen32 H c hlen hH hc
    obtain ⟨v, h1, h2, -⟩ := Key_decode_of_inv _ (deque_call H) c (Key_call_wf data K hlen32 hK)
      (deque_call_inv _ H hlen hH) hc
    exact ⟨v, h2, h1⟩
  have hmemd : ∀ (d : deque) (c v : byte), Key_decode K d c = some v → v ∈ K.base :=
    fun d c v h => Key_decode_mem K d c v hbase h
  obtain ⟨-, hb2, hbnd, o2, axes, ho2, -, -, rfl⟩ := Key_call_parts data K hK
  have ho3 : Key_calculate_offset data (data.length - 1) (data.headD [])
      (data.headD []).length = some o := ho
  rw [ho2] at ho3
  obtain rfl : o2 = o := Option.some.inj ho3
  have hn : 0 < (data.headD []).length := by omega
  have hrowperm : ∀ r, (decoder_row (data.headD []) (bytes_sort (data.headD []))
      (data.headD []).length r).Perm (bytes_sort (data.headD [])) := fun r =>
    decoder_row_perm _ _ _ r hn rfl (bytes_sort_length _) hbnd (bytes_sort_nodup _ hbnd)
      (fun b hb => (mem_bytes_sort _ b).2 hb)
  refine ⟨decoder_grid_length _ _ _ _, ?_, ?_, ?_, ?_, hmemd, hlast⟩
  · intro r1 r2 h1 h2 he
    rw [Nat.add_comm r1, Nat.add_comm r2] at he
    exact mod_add_inj _ r1 r2 _ h1 h2 he
  · intro s hs
    obtain ⟨r, hr1, hr2⟩ := shift_cover (data.headD []).length o2 s hs
    refine ⟨r, hr1, hr2, ?_⟩
    have h := decoder_grid_getElem (data.headD []) (bytes_sort (data.headD []))
      (data.headD []).length o2 r hr1
    rw [hr2] at h
    exact h
  · intro r _
    exact ⟨decoder_row_positions_perm _ _ _ r hn rfl (bytes_sort_length _) hbnd
        (fun b hb => (mem_bytes_sort _ b).2 hb),
      hrowperm r, (hrowperm r).trans (bytes_sort_perm _)⟩
  · intro row hrow
    obtain ⟨r, -, rfl⟩ := decoder_grid_mem _ _ _ _ hn row hrow
    exact (hrowperm r).trans (bytes_sort_perm _)

/-- An instance of `decoder_rows_permutations`: the key of "ABC", "BCA", "ABC",
whose offset is 2. -/
theorem decoder_rows_permutations_witness :
    (key_tables sample_data).decoder.length = (key_tables sample_data).size ∧
    (∀ row ∈ (key_tables sample_data).decoder, row.Perm (key_tables sample_data).base) :=
  have h := decoder_rows_permutations sample_data (key_tables sample_data) 2 sample_key_call
    (by decide!)
  ⟨h.1, h.2.2.2.2.1⟩

/-- The exact effect of decoding after encoding, for a key of at most `2 ^ 15`
blocks. For such a valid key with offset `o`, a history `H` of `L` entries
below `size` and an index `c`: decoding, under `H`, the position in `order` of
the byte `Key_encode(K, H, c)` gives `order[(c + 2 * o) % size]`; for `c` below
`size` this is `order[c]` if and only if `2 * o` is a multiple of `size`. -/
theorem decode_after_encode_shift (data : list) (K : Key) (o : Nat) (H : bytes) (c : byte)
    (hn : data.length ≤ 32768) (hK : Key_call data = some K)
    (ho : Key_calculate_offset K.data K.prefix_len K.base K.size = some o)
    (hlen : H.length = K.prefix_len) (hH : ∀ e ∈ H, e.val < K.size) :
    ∃ y idx z, Key_encode K (deque_call H) c = some y ∧ bytes_index K.order y = some idx ∧
      Key_decode K (deque_call H) (Fin.ofNat idx) = some z ∧
      K.order[(c.val + 2 * o) % K.size]? = some z ∧
      (c.val < K.size → (K.order[c.val]? = some z ↔ (2 * o) % K.size = 0)) := by
  have hwf := Key_call_wf data K hn hK
  obtain ⟨hrules, rfl, rfl⟩ := Key_call_offset data K o hn hK ho
  obtain ⟨hnd, hs, hol, hmem⟩ := KeyWF_order _ hwf
  obtain ⟨y, z, h1, h2, h3, h4⟩ := decode_encode_core data hrules (deque_call H) c
    (deque_call_inv _ H hlen hH)
  have hy := (hmem y).1 h2
  refine ⟨y, List.indexOf y (key_tables data).order, z, h1, bytes_index_of_mem _ _ hy, h3, h4, ?_⟩
  intro hc
  have hpos : 0 < (key_tables data).size := by omega
  have hlt : (c.val + 2 * key_offset data) % (key_tables data).size <
      (key_tables data).order.length := by
    rw [hol]; exact Nat.mod_lt _ hpos
  have hc2 : c.val < (key_tables data).order.length := by rw [hol]; exact hc
  rw [List.getElem?_eq_getElem hlt] at h4
  rw [List.getElem?_eq_getElem hc2, ← h4, Option.some.injEq,
    List.Nodup.getElem_inj_iff hnd, eq_comm]
  exact shift_fixed_iff _ _ _ hc

set_option maxRecDepth 100000 in
/-- An instance of `decode_after_encode_shift`: the key of "ABC", "BCA", "ABC"
(offset 2, size 3), the history 0, 0 and the index 0: the decoded byte is
`order[(0 + 4) % 3]` = 'B'. -/
theorem decode_after_encode_shift_witness :
    ∃ y idx z, Key_encode (key_tables sample_data) (deque_call [0, 0]) 0 = some y ∧
      bytes_index (key_tables sample_data).order y = some idx ∧
      Key_decode (key_tables sample_data) (deque_call [0, 0]) (Fin.ofNat idx) = some z ∧
      (key_tables sample_data).order[1]? = some z := by
  obtain ⟨y, idx, z, h1, h2, h3, h4, -⟩ :=
    decode_after_encode_shift sample_data (key_tables sample_data) 2 [0, 0] 0 (by decide)
      sample_key_call (by decide!) (by decide!) (by decide!)
  exact ⟨y, idx, z, h1, h2, h3, h4⟩

/-- The round trip for keys of at most `2 ^ 15` blocks whose doubled offset is
a multiple of `size`. For such a valid key with offset `o`: if `2 * o` is a
multiple of `size`, then for every primer the key accepts and every plain text,
a fresh Encrypter returns a cypher text from which a fresh Decrypter returns
the plain text. The offset is 0, so the condition holds, for every key of
exactly two blocks (`L = 1`) and for every key whose blocks `data[1 .. L - 1]`
all begin with `base[0]`. -/
theorem round_trip_zero_offset (data : list) (K : Key) (o : Nat)
    (hn : data.length ≤ 32768) (hK : Key_call data = some K)
    (ho : Key_calculate_offset K.data K.prefix_len K.base K.size = some o) :
    ((2 * o) % K.size = 0 →
      ∀ (vector : Primer) (plain : bytes), Primer_test_key vector K = some () →
        (∃ E cypher E2 D D2, Encrypter_call K vector = some E ∧
          Encrypter_process E plain = some (cypher, E2) ∧ Decrypter_call K vector = some D ∧
          Decrypter_process D cypher = some (plain, D2)) ∧
        round_trip data vector.data plain = some plain) ∧
    (K.prefix_len = 1 → o = 0) ∧
    ((∀ k, 1 ≤ k → k < K.prefix_len → (K.data.getD k []).headD 0 = K.base.headD 0) → o = 0) := by
  have hwf := Key_call_wf data K hn hK
  obtain ⟨hrules, rfl, rfl⟩ := Key_call_offset data K o hn hK ho
  obtain ⟨hnd, hs, hol, hmem⟩ := KeyWF_order _ hwf
  obtain ⟨hb0, hb2, hbnd⟩ := KeyRules_base data hrules
  have hzero : offset_sum data (data.length - 1) (data.headD []) = 0 → key_offset data = 0 := by
    intro h0
    have h := key_offset_int data hrules
    rw [h0] at h
    simp at h
    exact h
  refine ⟨?_, ?_, ?_⟩
  · intro h2 vector plain hc
    have hcomp := (Primer_test_key_iff vector _).1 hc
    have hcall := _Processor_call_of_compatible _ vector hs hnd hmem hcomp
    have hinv := processor_tables_inv _ vector hwf hcomp
    obtain ⟨out, d2, e1, e2, -⟩ := run_inverse
      (Encrypter_step (encoder_dict (key_tables data).order) (key_tables data))
      (Decrypter_step (encoder_dict (key_tables data).order) (key_tables data))
      (dict_contains (encoder_dict (key_tables data).order)) (PrefixInv (key_tables data))
      (by
        intro d v hd hv
        rw [encoder_dict_contains, decide_eq_true_eq] at hv
        obtain ⟨y, d2, h1, h2', h3, h4⟩ := round_trip_step data hrules h2 d v hd ((hmem v).2 hv)
        refine ⟨y, d2, h1, h2', h3, ?_⟩
        rw [encoder_dict_contains, decide_eq_true_eq]
        exact (hmem y).1 h4)
      plain (processor_tables (key_tables data) vector).prefix_ hinv
    have hE : Encrypter_process (processor_tables (key_tables data) vector) plain =
        some (out, { processor_tables (key_tables data) vector with prefix_ := d2 }) := by
      rw [Encrypter_process_eq_run]
      have h : run (Encrypter_step (processor_tables (key_tables data) vector).encoder
          (processor_tables (key_tables data) vector).primary)
          (dict_contains (processor_tables (key_tables data) vector).encoder)
          (processor_tables (key_tables data) vector).prefix_ plain = some (out, d2) := e1
      rw [h]
      rfl
    have hD : Decrypter_process (processor_tables (key_tables data) vector) out =
        some (plain, { processor_tables (key_tables data) vector with prefix_ := d2 }) := by
      rw [Decrypter_process_eq_run]
      have h : run (Decrypter_step (processor_tables (key_tables data) vector).encoder
          (processor_tables (key_tables data) vector).primary)
          (dict_contains (processor_tables (key_tables data) vector).encoder)
          (processor_tables (key_tables data) vector).prefix_ out = some (plain, d2) := e2
      rw [h]
      rfl
    refine ⟨⟨_, out, _, _, _, hcall, hE, hcall, hD⟩, ?_⟩
    have hne : bytes_bool vector.data = true := by
      have h1 : 1 ≤ (key_tables data).prefix_len := hwf.1
      have h3 := hcomp.1
      simp [bytes_bool]
      omega
    have hpc : Primer_call vector.data = some vector := by
      simp [Primer_call, Primer_test_data, assert, hne]
    simp only [round_trip, hK, hpc, Encrypter_call, Decrypter_call, hcall, hE, hD,
      Option.bind_eq_bind, Option.some_bind]
    rfl
  · intro hL
    apply hzero
    have hL2 : data.length - 1 = 1 := hL
    rw [hL2]
    simp [offset_sum]
  · intro hall
    apply hzero
    apply offset_sum_zero data (data.length - 1) (data.headD []) hall
    intro he
    rw [he] at hb2
    simp at hb2

set_option maxRecDepth 100000 in
/-- An instance of `round_trip_zero_offset`: the key of two blocks "ABC", "BCA"
(offset 0), the primer "A" and the plain text "BaC". -/
theorem round_trip_zero_offset_witness :
    round_trip [[65, 66, 67], [66, 67, 65]] [65] [66, 97, 67] = some [66, 97, 67] := by
  have hk : Key_call [[65, 66, 67], [66, 67, 65]] =
      some (key_tables [[65, 66, 67], [66, 67, 65]]) := by decide!
  have h := (round_trip_zero_offset [[65, 66, 67], [66, 67, 65]]
    (key_tables [[65, 66, 67], [66, 67, 65]]) 0 (by decide) hk (by decide!)).1 (by decide!)
    { data := [65] } [66, 97, 67] (by decide!)
  exact h.2

/-- The axes are permutations, for a key of at most `2 ^ 15` blocks. For such a
valid key and every `k` below `L`, the table `axes[k]` has `size` entries, and
its entries are exactly the values `0 .. size - 1`, each occurring once. -/
theorem axes_permutations (data : list) (K : Key) (k : Nat) (hn : data.length ≤ 32768)
    (hK : Key_call data = some K) (hk : k < K.prefix_len) :
    ∃ table, K.axes[k]? = some table ∧ table.length = K.size ∧
      (table.map Fin.val).Perm (List.range K.size) ∧ table.Nodup :=
  axes_permutations_aux data K k hn hK hk

/-- An instance of `axes_permutations`: the table `axes[1]` of the key of
"ABC", "BCA", "ABC". -/
theorem axes_permutations_witness :
    ∃ table, (key_tables sample_data).axes[1]? = some table ∧
      table.length = (key_tables sample_data).size ∧
      (table.map Fin.val).Perm (List.range (key_tables sample_data).size) ∧ table.Nodup :=
  axes_permutations sample_data (key_tables sample_data) 1 (by decide) sample_key_call
    (by decide!)

/-- The Latin-square property of the encoding grid, for a key of at most
`2 ^ 15` blocks.  For such a valid key, a history `H` of `L` entries below `size` and an index `c` below `size`: the map
`c' ↦ Key_encode(K, H, c')` sends the indices below `size` to bytes of the
alphabet, one to one and onto; and for every position `k` of the history so
does the map `h ↦ Key_encode(K, H with entry k replaced by h, c)`. -/
theorem latin_square (data : list) (K : Key) (H : bytes) (c : byte)
    (hn : data.length ≤ 32768) (hK : Key_call data = some K) (hlen : H.length = K.prefix_len)
    (hH : ∀ e ∈ H, e.val < K.size) (hc : c.val < K.size) :
    ((∀ c1 : byte, c1.val < K.size → ∃ b ∈ K.base, Key_encode K (deque_call H) c1 = some b) ∧
      (∀ c1 c2 : byte, c1.val < K.size → c2.val < K.size →
        Key_encode K (deque_call H) c1 = Key_encode K (deque_call H) c2 → c1 = c2) ∧
      (∀ b ∈ K.base, ∃ c1 : byte, c1.val < K.size ∧
        Key_encode K (deque_call H) c1 = some b)) ∧
    (∀ k, k < K.prefix_len →
      (∀ h : byte, h.val < K.size →
        ∃ b ∈ K.base, Key_encode K (deque_call (H.set k h)) c = some b) ∧
      (∀ h1 h2 : byte, h1.val < K.size → h2.val < K.size →
        Key_encode K (deque_call (H.set k h1)) c = Key_encode K (deque_call (H.set k h2)) c →
          h1 = h2) ∧
      (∀ b ∈ K.base, ∃ h : byte, h.val < K.size ∧
        Key_encode K (deque_call (H.set k h)) c = some b)) := by
  have hwf := Key_call_wf data K hn hK
  obtain ⟨hL, hn2, hn256, hbl, hbnd, -, hal, hat, hel, hem, -⟩ := hwf
  have hpos : 0 < K.size := by omega
  have hEperm : K.encoder.Perm K.base := by
    obtain ⟨-, rfl⟩ := (Key_call_eq_some_iff data K hn).1 hK
    exact List.rotate_perm _ _
  have hEnd : K.encoder.Nodup := hEperm.nodup_iff.2 hbnd
  constructor
  · obtain ⟨hinj, hsurj⟩ := grid_axis_bijection K.encoder K.size hn256 hel hEnd
      (fun x => history_sum K.axes H + x.val)
      (by
        intro x1 x2 h1 h2 he
        exact Fin.ext (mod_add_inj _ _ _ _ h1 h2 he))
      (by
        intro j hj
        obtain ⟨r, hr1, hr2⟩ := shift_cover K.size (history_sum K.axes H) j hj
        refine ⟨Fin.ofNat r, ?_, ?_⟩
        · rw [fin_ofNat_val r (by omega)]; exact hr1
        · beta_reduce
          rw [fin_ofNat_val r (by omega), Nat.add_comm]; exact hr2)
    refine ⟨?_, ?_, ?_⟩
    · intro c1 _
      exact (Key_encode_eq K H c1 (Key_call_wf data K hn hK) hlen hH).2
    · intro c1 c2 h1 h2 he
      rw [(Key_encode_eq K H c1 (Key_call_wf data K hn hK) hlen hH).1,
        (Key_encode_eq K H c2 (Key_call_wf data K hn hK) hlen hH).1] at he
      exact hinj c1 c2 h1 h2 he
    · intro b hb
      obtain ⟨x, hx1, hx2⟩ := hsurj b (hEperm.mem_iff.2 hb)
      exact ⟨x, hx1, by rw [(Key_encode_eq K H x (Key_call_wf data K hn hK) hlen hH).1, hx2]⟩
  · intro k hk
    have hkH : k < H.length := by omega
    obtain ⟨C, hC⟩ := history_sum_set K.axes H k hkH
    obtain ⟨table, ht1, ht2, ht3, -⟩ := axes_permutations_aux data K k hn hK hk
    have htd : K.axes.getD k [] = table := by
      rw [List.getD_eq_getElem?_getD, ht1]; rfl
    obtain ⟨tinj, tlt, tsurj⟩ := table_values table K.size ht2 ht3
    have hset : ∀ h : byte, h.val < K.size →
        (H.set k h).length = K.prefix_len ∧ ∀ e ∈ H.set k h, e.val < K.size := by
      intro h hh
      refine ⟨by rw [List.length_set]; exact hlen, ?_⟩
      intro e he
      rcases List.mem_or_eq_of_mem_set he with h1 | h1
      · exact hH e h1
      · rw [h1]; exact hh
    have henc : ∀ h : byte, h.val < K.size →
        Key_encode K (deque_call (H.set k h)) c =
          K.encoder[(C + (table.getD h.val 0).val + c.val) % K.size]? := by
      intro h hh
      rw [(Key_encode_eq K (H.set k h) c (Key_call_wf data K hn hK) (hset h hh).1 (hset h hh).2).1,
        hC h, htd]
    obtain ⟨hinj, hsurj⟩ := grid_axis_bijection K.encoder K.size hn256 hel hEnd
      (fun x => C + (table.getD x.val 0).val + c.val)
      (by
        intro x1 x2 h1 h2 he
        beta_reduce at he
        have e1 : C + (table.getD x1.val 0).val + c.val =
            (C + c.val) + (table.getD x1.val 0).val := by omega
        have e2 : C + (table.getD x2.val 0).val + c.val =
            (C + c.val) + (table.getD x2.val 0).val := by omega
        rw [e1, e2] at he
        exact tinj x1 x2 h1 h2 (mod_add_inj _ _ _ _ (tlt x1 h1) (tlt x2 h2) he))
      (by
        intro j hj
        obtain ⟨r, hr1, hr2⟩ := shift_cover K.size (C + c.val) j hj
        obtain ⟨h, hh1, hh2⟩ := tsurj r hr1
        refine ⟨Fin.ofNat h, ?_, ?_⟩
        · rw [fin_ofNat_val h (by omega)]; exact hh1
        · beta_reduce
          rw [fin_ofNat_val h (by omega), hh2]
          have e : C + r + c.val = r + (C + c.val) := by omega
          rw [e]; exact hr2)
    refine ⟨?_, ?_, ?_⟩
    · intro h hh
      exact (Key_encode_eq K (H.set k h) c (Key_call_wf data K hn hK) (hset h hh).1
        (hset h hh).2).2
    · intro h1 h2 l1 l2 he
      rw [henc h1 l1, henc h2 l2] at he
      exact hinj h1 h2 l1 l2 he
    · intro b hb
      obtain ⟨x, hx1, hx2⟩ := hsurj b (hEperm.mem_iff.2 hb)
      exact ⟨x, hx1, by rw [henc x hx1, hx2]⟩

set_option maxRecDepth 100000 in
/-- An instance of `latin_square`: the key of "ABC", "BCA", "ABC", the history
0, 0 and the index 0. -/
theorem latin_square_witness :
    (∀ c1 c2 : byte, c1.val < 3 → c2.val < 3 →
      Key_encode (key_tables sample_data) (deque_call [0, 0]) c1 =
        Key_encode (key_tables sample_data) (deque_call [0, 0]) c2 → c1 = c2) ∧
    Key_encode (key_tables sample_data) (deque_call [0, 0]) 0 = some 65 :=
  have h := latin_square sample_data (key_tables sample_data) [0, 0] 0 (by decide)
    sample_key_call (by decide!) (by decide!) (by decide!)
  ⟨h.1.2.1, by decide!⟩

/-- The exported primer is the recent plaintext, for a key of at most `2 ^ 15`
blocks. For such a valid key, a primer `Pr` the key accepts and an input `x`,
let `T` be `Pr.data` followed by the bytes of the plaintext that are in the
alphabet, in order, the plaintext being the input for an Encrypter and the
output for a Decrypter. After a fresh processor has processed `x`,
`_Processor_get_primer` returns exactly the last `L` bytes of `T`. -/
theorem exported_primer_recent (data : list) (K : Key) (vector : Primer) (x : bytes)
    (hn : data.length ≤ 32768) (hK : Key_call data = some K) (hc : Primer_test_key vector K = some ()) :
    (∃ E out after exported, Encrypter_call K vector = some E ∧
      Encrypter_process E x = some (out, after) ∧
      _Processor_get_primer after = some exported ∧
      exported.data =
        (vector.data ++ x.filter (fun b => decide (b ∈ K.base))).drop
          ((vector.data ++ x.filter (fun b => decide (b ∈ K.base))).length - K.prefix_len)) ∧
    (∃ D out after exported, Decrypter_call K vector = some D ∧
      Decrypter_process D x = some (out, after) ∧
      _Processor_get_primer after = some exported ∧
      exported.data =
        (vector.data ++ out.filter (fun b => decide (b ∈ K.base))).drop
          ((vector.data ++ out.filter (fun b => decide (b ∈ K.base))).length -
            K.prefix_len)) := by
  have hwf := Key_call_wf data K hn hK
  obtain ⟨hnd, hs, -, hmem⟩ := KeyWF_order K hwf
  have hcomp := (Primer_test_key_iff vector K).1 hc
  have hcall := _Processor_call_of_compatible K vector hs hnd hmem hcomp
  have hinv := processor_tables_inv K vector hwf hcomp
  have hview : deque_view (processor_tables K vector).prefix_ =
      vector.data.map (code_of K.order) := deque_view_call _
  have hW : ∀ T : bytes, ∀ w ∈ vector.data ++ T.filter (fun b => decide (b ∈ K.base)),
      w ∈ K.base := by
    intro T w hw
    rcases List.mem_append.mp hw with h | h
    · exact hcomp.2 w h
    · simpa using (List.mem_filter.mp h).2
  constructor
  · obtain ⟨out, d2, e1, e2, e3⟩ := run_view_encrypt K hwf x _ hinv
    have hE : Encrypter_process (processor_tables K vector) x =
        some (out, { processor_tables K vector with prefix_ := d2 }) := by
      rw [Encrypter_process_eq_run]
      have h : run (Encrypter_step (processor_tables K vector).encoder
          (processor_tables K vector).primary)
          (dict_contains (processor_tables K vector).encoder)
          (processor_tables K vector).prefix_ x = some (out, d2) := e1
      rw [h]
      rfl
    have hget := _Processor_get_primer_of_inv K
      { processor_tables K vector with prefix_ := d2 } hwf rfl e2
    refine ⟨_, out, _, _, hcall, hE, hget, ?_⟩
    show (deque_view d2).map _ = _
    rw [e3, hview, ← List.map_append, List.length_map]
    exact decode_window K hwf _ (hW x) _
  · obtain ⟨out, d2, e1, e2, e3⟩ := run_view_decrypt K hwf x _ hinv
    have hD : Decrypter_process (processor_tables K vector) x =
        some (out, { processor_tables K vector with prefix_ := d2 }) := by
      rw [Decrypter_process_eq_run]
      have h : run (Decrypter_step (processor_tables K vector).encoder
          (processor_tables K vector).primary)
          (dict_contains (processor_tables K vector).encoder)
          (processor_tables K vector).prefix_ x = some (out, d2) := e1
      rw [h]
      rfl
    have hget := _Processor_get_primer_of_inv K
      { processor_tables K vector with prefix_ := d2 } hwf rfl e2
    refine ⟨_, out, _, _, hcall, hD, hget, ?_⟩
    show (deque_view d2).map _ = _
    rw [e3, hview, ← List.map_append, List.length_map]
    exact decode_window K hwf _ (hW out) _

set_option maxRecDepth 100000 in
/-- An instance of `exported_primer_recent`: the key of "ABC", "BCA", "ABC",
the primer "AA" and the input "BaC": `T` is "AABC" and the Encrypter exports
"BC". -/
theorem exported_primer_recent_witness :
    ∃ E out after exported, Encrypter_call (key_tables sample_data) sample_primer = some E ∧
      Encrypter_process E [66, 97, 67] = some (out, after) ∧
      _Processor_get_primer after = some exported ∧ exported.data = [66, 67] := by
  obtain ⟨E, out, after, exported, h1, h2, h3, h4⟩ :=
    (exported_primer_recent sample_data (key_tables sample_data) sample_primer [66, 97, 67]
      (by decide) sample_key_call sample_primer_test).1
  refine ⟨E, out, after, exported, h1, h2, h3, ?_⟩
  rw [h4]
  decide!

set_option maxRecDepth 100000 in
/-- C35 (fails on the code as the specification words it): on the buffer
1, 2, 3 with a source delivering 0, 0, 0, `random_shuffle` visits the positions
0, 1 and 2, draws three times and leaves 3, 2, 1; the shuffle of the
specification, which visits the positions 0 and 1 only, draws twice and leaves
1, 2, 3. -/
theorem shuffle_visits_last_position :
    random_shuffle [0, 0, 0] [1, 2, 3] = Drawn.value [3, 2, 1] [] ∧
    shuffle_visit 3 (List.range (3 - 1)) [1, 2, 3] [0, 0, 0] = Drawn.value [1, 2, 3] [0] := by
  constructor <;> decide!

/-- C35, amended: on a buffer of length `len > 2`, `random_shuffle` visits
each position `i` in `[0, len)` in increasing order, the last position
included, and for each draws `j = random_range(len - 1)`, increases `j` by one
when `j ≥ i`, and swaps `seq[i]` with `seq[j]`. -/
theorem shuffle_all_positions (buffer : bytes) (source : List byte)
    (h : 2 < buffer.length) :
    random_shuffle source buffer =
      shuffle_visit buffer.length (List.range buffer.length) buffer source :=
  (random_shuffle_eq buffer source).2.2.1 h

set_option maxRecDepth 100000 in
/-- Witness of C35, amended: the buffer 1, 2, 3 and a source delivering
0, 0, 0. -/
theorem shuffle_all_positions_witness :
    random_shuffle [0, 0, 0] [1, 2, 3] = shuffle_visit 3 [0, 1, 2] [1, 2, 3] [0, 0, 0] ∧
    shuffle_visit 3 [0, 1, 2] [1, 2, 3] [0, 0, 0] = Drawn.value [3, 2, 1] [] :=
  ⟨shuffle_all_positions [1, 2, 3] [0, 0, 0] (by decide), by decide!⟩

/-- C36: the shuffle preserves the content.  For every buffer and whatever
bytes the random source delivers, `random_shuffle` never raises (no index it
uses is out of range), and the buffer it leaves is a permutation of the buffer
it was given: same length, same bytes with the same multiplicities. -/
theorem shuffle_preserves_content (buffer : bytes) (source : List byte) :
    random_shuffle source buffer ≠ Drawn.raised ∧
    (∀ out rest, random_shuffle source buffer = Drawn.value out rest →
      out.Perm buffer ∧ out.length = buffer.length ∧ ∀ b : byte, out.count b = buffer.count b) := by
  obtain ⟨h1, h2, -⟩ := random_shuffle_eq buffer source
  refine ⟨h1, ?_⟩
  intro out rest h
  have hp := h2 out rest h
  exact ⟨hp, hp.length_eq, fun b => hp.count_eq b⟩

/-- C37: the shuffle of a short buffer does nothing.  For a buffer of length
0, 1 or 2, `random_shuffle` leaves the buffer as it is and draws nothing from
the random source. -/
theorem shuffle_short_buffer (buffer : bytes) (source : List byte)
    (h : buffer.length ≤ 2) :
    random_shuffle source buffer = Drawn.value buffer source :=
  (random_shuffle_eq buffer source).2.2.2 h

/-- Witness of C37: the buffer 7, 9 and an empty source. -/
theorem shuffle_short_buffer_witness : random_shuffle [] [7, 9] = Drawn.value [7, 9] [] :=
  shuffle_short_buffer [7, 9] [] (by decide)

/-- `Key_create` rejects degenerate input, for a chain size below `2 ^ 15`.
Whatever bytes the random source delivers: if `Key_create` raises, then
`bytes_used` has fewer than two distinct bytes or `chain_size < 2`; and in that
case it never returns a key: it raises (the only other outcome is that the
listed bytes of the source run out before the shuffle of the single block of a
chain of size 1 is done). -/
theorem Key_create_rejects_degenerate (source : List byte) (bytes_used : bytes)
    (chain_size : Nat) (hb : chain_size ≤ 32767) :
    (Key_create source bytes_used chain_size = Drawn.raised →
      bytes_used.dedup.length < 2 ∨ chain_size < 2) ∧
    (bytes_used.dedup.length < 2 ∨ chain_size < 2 →
      (∀ K rest, Key_create source bytes_used chain_size ≠ Drawn.value K rest) ∧
      (Key_create source bytes_used chain_size = Drawn.raised ∨
        (Key_create source bytes_used chain_size = Drawn.starved ∧
          2 < bytes_used.dedup.length ∧ chain_size = 1 ∧
          source.countP (accepted (bytes_used.dedup.length - 1)) <
            bytes_used.dedup.length))) := by
  rw [← set_len_from_bytes]
  constructor
  · intro hr
    by_contra hcon
    rcases Key_create_spec source bytes_used chain_size (by omega) (by omega) hb with
      ⟨hs, -⟩ | ⟨blocks, rest, hv, -⟩
    · rw [hs] at hr; cases hr
    · rw [hv] at hr; cases hr
  · intro hd
    have h := Key_create_degenerate source bytes_used chain_size hb hd
    refine ⟨?_, h⟩
    intro K rest hv
    rcases h with h | ⟨h, -⟩
    · rw [h] at hv; cases hv
    · rw [h] at hv; cases hv

/-- An instance of `Key_create_rejects_degenerate`: `bytes_used` = "AAA", of
one distinct byte, and a chain of size 3: `Key_create` raises. -/
theorem Key_create_rejects_degenerate_witness :
    ∀ K rest, Key_create [] [65, 65, 65] 3 ≠ Drawn.value K rest :=
  ((Key_create_rejects_degenerate [] [65, 65, 65] 3 (by decide)).2
    (Or.inl (by decide))).1

/-- Two-byte alphabets give a fixed key, for a chain size below `2 ^ 15`. For
`bytes_used` with exactly two distinct bytes and `2 ≤ chain_size < 2 ^ 15`,
whatever bytes the random source delivers, `Key_create` returns the key whose
blocks all are the two bytes in ascending order, and it draws nothing from the
source. -/
theorem Key_create_two_bytes (bytes_used : bytes) (chain_size : Nat)
    (h2 : bytes_used.dedup.length = 2) (hc : 2 ≤ chain_size) (hb : chain_size ≤ 32767) :
    ∃ a b : byte, a < b ∧ (∀ x, x ∈ bytes_used ↔ x = a ∨ x = b) ∧
      Key_call (List.replicate chain_size [a, b]) =
        some (key_tables (List.replicate chain_size [a, b])) ∧
      ∀ source : List byte, Key_create source bytes_used chain_size =
        Drawn.value (key_tables (List.replicate chain_size [a, b])) source := by
  rw [← set_len_from_bytes] at h2
  obtain ⟨hnd, hlen, hmem⟩ := selection_facts bytes_used
  obtain ⟨a, b, hab, hlt⟩ := sorted_pair (bytes_from_set (set_from_bytes bytes_used))
    (set_members_sorted _) (by rw [hlen, h2])
  refine ⟨a, b, hlt, ?_, ?_, ?_⟩
  · intro x
    rw [← hmem, hab]
    simp
  · rw [← hab]
    exact (Key_call_eq_some_iff _ _ (by rw [List.length_replicate]; omega)).2
      ⟨KeyRules_replicate _ chain_size hc (by rw [hlen, h2]) hnd, rfl⟩
  · intro source
    rw [← hab]
    exact Key_create_short source bytes_used chain_size h2 hc hb

set_option maxRecDepth 100000 in
/-- An instance of `Key_create_two_bytes`: `bytes_used` = "BAAB" and a chain of
size 3: every block is "AB". -/
theorem Key_create_two_bytes_witness :
    ∃ a b : byte, a < b ∧ (∀ x, x ∈ ([66, 65, 65, 66] : bytes) ↔ x = a ∨ x = b) ∧
      ∀ source : List byte, Key_create source [66, 65, 65, 66] 3 =
        Drawn.value (key_tables (List.replicate 3 [a, b])) source := by
  obtain ⟨a, b, h1, h2, -, h4⟩ := Key_create_two_bytes [66, 65, 65, 66] 3 (by decide) (by decide)
    (by decide)
  exact ⟨a, b, h1, h2, h4⟩

/-- The rejection sampling of `random_range` over an injected byte source, for
`stop` up to `2 ^ 30` (a bit length up to 30, where the mask `(1 << bits) - 1`
is the `int` the source computes). For `stop < 2` it returns 0 and draws
nothing. For `stop ≥ 2`, with `k` the bit length of `stop - 1` (the result of
`int_bit_length`) and `(k + 7) / 8` the number of bytes of a draw (the result
of `int_ceildiv(k, 8)`): every value it returns is below `stop`, and the value
is the first of the candidates that is below `stop`, the candidates being the
big-endian values of the successive chunks of `(k + 7) / 8` bytes of the
source, each masked to its low `k` bits. -/
theorem random_range_rejection (source : List byte) (stop : Nat) (hstop : stop ≤ 2 ^ 30) :
    (stop < 2 → random_range source stop = some (0, source)) ∧
    (2 ≤ stop →
      int_bit_length (stop - 1) = Nat.size (stop - 1) ∧
      stop - 1 < 2 ^ Nat.size (stop - 1) ∧ 2 ^ (Nat.size (stop - 1) - 1) ≤ stop - 1 ∧
      (int_ceildiv (int_bit_length (stop - 1)) 8).toNat = (Nat.size (stop - 1) + 7) / 8 ∧
      (∀ n rest, random_range source stop = some (n, rest) → n < stop) ∧
      (random_range source stop).map Prod.fst =
        (draw_candidates ((Nat.size (stop - 1) + 7) / 8) (Nat.size (stop - 1))
          (source.length + 1) source).find? (fun c => decide (c < stop))) := by
  constructor
  · intro h
    exact random_range_small stop h source
  · intro h2
    have hb : int_bit_length (stop - 1) = Nat.size (stop - 1) :=
      int_bit_length_eq_size _ (by
        have : (2 : Nat) ^ 30 ≤ 2 ^ 255 := Nat.pow_le_pow_right (by omega) (by omega)
        omega)
    have hpos : 0 < Nat.size (stop - 1) := Nat.size_pos.2 (by omega)
    refine ⟨hb, Nat.lt_size_self _, ?_, ?_, ?_, random_range_find source stop h2 hstop⟩
    · exact Nat.lt_size.1 (by omega)
    · rw [hb]
      exact int_ceildiv_eight _
    · intro n rest h
      exact random_range_lt source stop n rest h2 h

set_option maxRecDepth 100000 in
/-- An instance of `random_range_rejection`: `stop` = 10 (`k` = 4, one byte for
each draw) and a source delivering 255, 19: the candidate 15 is rejected and
the candidate 3 is returned. -/
theorem random_range_rejection_witness :
    random_range [255, 19] 10 = some (3, []) ∧
    (∀ n rest, random_range [255, 19] 10 = some (n, rest) → n < 10) ∧
    draw_candidates 1 4 3 [255, 19] = [15, 3] :=
  have h := (random_range_rejection [255, 19] 10 (by decide)).2 (by decide)
  ⟨by decide!, h.2.2.2.2.1, by decide!⟩

/-! ## The claims on keys of more than `2 ^ 15` blocks

The range iterator keeps the number of its items in a 16-bit field.  From
`2 ^ 15` items on the field is negative and the loop is not run: `Key_call`
then tests the first block only and stores no table in `axes`, `Key_create`
stores no block, and `Primer_create` draws no byte. -/

/-- C5 (fails on the code): the processor of the key of `2 ^ 15 + 2` blocks
"AB" and the primer of `2 ^ 15 + 1` bytes 'A' is a state reachable from a valid
key; on the input "aA", of two bytes, neither `Encrypter_process` nor
`Decrypter_process` returns a byte sequence: both raise. -/
theorem length_preservation_long_key :
    Key_call long_data = some (key_tables_cut long_data) ∧
    Reachable (key_tables_cut long_data) long_processor ∧
    Encrypter_process long_processor [97, 65] = none ∧
    Decrypter_process long_processor [97, 65] = none := by
  have h := long_processor_raises [97, 65] (Or.inl (by decide))
  exact ⟨long_key_call, long_processor_reachable, h.1, h.2⟩

/-- C6 (fails on the code): the list of the blocks "AB", "AA" and `2 ^ 15`
more blocks "AB" breaks the rules (the bytes of its second block are not
distinct), and `Key_test_data` accepts it and `Key_call` returns a key. -/
theorem key_validation_long_list :
    long_data_repeated[1]? = some [65, 65] ∧ ¬ KeyRules long_data_repeated ∧
    Key_test_data long_data_repeated = some () ∧
    Key_call long_data_repeated = some (key_tables_cut long_data_repeated) := by
  refine ⟨?_, long_data_repeated_rules, ?_, long_data_repeated_call⟩
  · rw [long_data_repeated, List.getElem?_cons_succ, List.getElem?_cons_zero]
  · have hl : (([65, 65] : bytes) :: List.replicate 32768 [65, 66]).length = 32769 :=
      (List.length_cons _ _).trans (congrArg (· + 1) (List.length_replicate _ _))
    exact (Key_test_data_cut [65, 66] _ (by rw [hl]; omega) (by rw [hl]; omega)).2
      ⟨by decide, by decide⟩

/-- C8 (fails on the code): "Source Code" has nine distinct bytes, and with
the chain size `2 ^ 15` `Key_create` raises, whatever the random source
delivers. -/
theorem Key_create_shape_long_chain :
    2 ≤ source_code.dedup.length ∧
    ∀ source : List byte, Key_create source source_code 32768 = Drawn.raised :=
  ⟨by decide, fun source => Key_create_cut source source_code 32768 (by decide) (by decide)⟩

/-- C9 (fails on the code): for the valid key of `2 ^ 15 + 2` blocks "AB",
`Primer_create` draws nothing from the random source and returns the buffer of
`2 ^ 15 + 1` bytes as it was allocated (zero bytes here); the byte 0 is not a
byte of the base, and `Primer_test_key` rejects the primer. -/
theorem Primer_create_long_key :
    Key_call long_data = some (key_tables_cut long_data) ∧
    (∀ source : List byte, Primer_create source (key_tables_cut long_data) =
      Drawn.value { data := bytes_call 32769 } source) ∧
    (0 : byte) ∉ (key_tables_cut long_data).base ∧
    Primer_test_key { data := bytes_call 32769 } (key_tables_cut long_data) = none := by
  have hbase : (0 : byte) ∉ (key_tables_cut long_data).base := by
    rw [key_tables_cut_base, long_data_head]
    decide
  refine ⟨long_key_call, ?_, hbase, ?_⟩
  · intro source
    have h := Primer_create_cut source (key_tables_cut long_data)
      (by rw [long_key_prefix_len]; omega) (by rw [long_key_prefix_len]; omega)
    rw [long_key_prefix_len] at h
    exact h
  · rw [Primer_test_key_eq_none_iff]
    intro hc
    exact hbase (hc.2 0 (List.mem_replicate.2 ⟨by decide, rfl⟩))

/-- C13 (fails on the code): in the state reached by construction from the
valid key of `2 ^ 15 + 2` blocks "AB" and the primer of `2 ^ 15 + 1` bytes 'A',
which the key accepts, `Key_calculate_sum` raises on the prefix (the first
table of `axes` is unassigned), both converters raise on the byte 'A', and
`Encrypter_process` and `Decrypter_process` raise on the input "A". -/
theorem process_total_long_key :
    Key_call long_data = some (key_tables_cut long_data) ∧
    Primer_test_key long_primer (key_tables_cut long_data) = some () ∧
    Reachable (key_tables_cut long_data) long_processor ∧
    Key_calculate_sum long_processor.primary long_processor.prefix_ = none ∧
    Encrypter_convert long_processor.encoder 65 long_processor.primary long_processor.prefix_
      [0] 0 = none ∧
    Decrypter_convert long_processor.encoder 65 long_processor.primary long_processor.prefix_
      [0] 0 = none ∧
    Encrypter_process long_processor [65] = none ∧
    Decrypter_process long_processor [65] = none := by
  have h := long_processor_raises [65] (Or.inl (List.mem_singleton.2 rfl))
  have he := Key_encode_unassigned long_processor.primary long_processor.prefix_
  have hd := Key_decode_unassigned long_processor.primary long_processor.prefix_
  refine ⟨long_key_call, (Primer_test_key_iff _ _).2 long_primer_compatible,
    long_processor_reachable,
    Key_calculate_sum_unassigned _ _ long_key_axes_zero long_processor_prefix, ?_, ?_, h.1, h.2⟩
  · rw [Encrypter_convert_eq]
    simp only [Encrypter_step, he _ long_key_axes_zero long_processor_prefix]
    cases dict_getitem long_processor.encoder 65 <;> simp
  · rw [Decrypter_convert_eq]
    simp only [Decrypter_step, hd _ long_key_axes_zero long_processor_prefix]
    cases dict_getitem long_processor.encoder 65 <;> simp

set_option maxRecDepth 100000 in
/-- C15 (fails on the code): for `stop` = `2 ^ 32` the bit length of
`stop - 1` is 32 and a draw has four bytes; from the bytes 255, 255, 255, 255
the candidate masked to its low 32 bits is `2 ^ 32 - 1`, which is below `stop`,
and `random_range` returns 0: the mask `(1 << 32) - 1`, computed in `int`, is
0. -/
theorem random_range_wide_stop :
    int_bit_length (4294967296 - 1) = 32 ∧
    (int_ceildiv (int_bit_length (4294967296 - 1)) 8).toNat = 4 ∧
    draw_candidates 4 32 1 [255, 255, 255, 255] = [4294967295] ∧
    random_range [255, 255, 255, 255] 4294967296 = some (0, []) := by
  refine ⟨by decide!, by decide!, by decide!, by decide!⟩

/-- C16 (fails on the code): for the valid key of `2 ^ 15 + 2` blocks "AB"
(offset 0), the history of `2 ^ 15 + 1` entries 0 and the index 0,
`Key_encode` returns no byte to decode: it raises, and so does `Key_decode`. -/
theorem decode_after_encode_long_key :
    Key_call long_data = some (key_tables_cut long_data) ∧
    long_history.length = (key_tables_cut long_data).prefix_len ∧
    Key_encode (key_tables_cut long_data) (deque_call long_history) 0 = none ∧
    Key_decode (key_tables_cut long_data) (deque_call long_history) 0 = none ∧
    decode_after_encode long_data long_history 0 = none := by
  have he := Key_encode_unassigned (key_tables_cut long_data) (deque_call long_history) 0
    long_key_axes_zero long_history_ne
  exact ⟨long_key_call, long_history_length.trans long_key_prefix_len.symm, he,
    Key_decode_unassigned _ _ _ long_key_axes_zero long_history_ne,
    decode_after_encode_raises _ _ _ _ long_key_call he⟩

/-- C17 (fails on the code): the valid key of `2 ^ 15 + 2` blocks "AB" has
the offset 0 (and all its blocks begin with `base[0]`), it accepts the primer
of `2 ^ 15 + 1` bytes 'A', and the round trip of the plain text "A" returns
nothing: the Encrypter raises. -/
theorem round_trip_long_key :
    Key_call long_data = some (key_tables_cut long_data) ∧
    Key_calculate_offset (key_tables_cut long_data).data (key_tables_cut long_data).prefix_len
      (key_tables_cut long_data).base (key_tables_cut long_data).size = some 0 ∧
    Primer_test_key long_primer (key_tables_cut long_data) = some () ∧
    round_trip long_data long_primer.data [65] = none := by
  have h := long_processor_raises [65] (Or.inl (List.mem_singleton.2 rfl))
  exact ⟨long_key_call, long_key_offset, (Primer_test_key_iff _ _).2 long_primer_compatible,
    round_trip_raises _ _ _ _ _ _ long_key_call (Primer_call_of_ne _ long_primer_ne)
      long_processor_call h.1⟩

/-- C18 (fails on the code): for the valid key of the blocks "AB", "BA" and
`2 ^ 15` more blocks "AB", the sum of the formula is 1 (the block "BA" begins
with the byte at position 1 of the base) and the formula gives the offset 1;
`Key_calculate_offset` returns 0. -/
theorem offset_formula_long_key :
    Key_call long_data_shifted = some (key_tables_cut long_data_shifted) ∧
    Key_calculate_offset long_data_shifted 32769 [65, 66] 2 = some 0 ∧
    offset_sum long_data_shifted 32769 [65, 66] = 1 ∧
    (-((offset_sum long_data_shifted 32769 [65, 66] : Nat) : Int)) % ((2 : Nat) : Int) = 1 := by
  refine ⟨long_data_shifted_call,
    Key_calculate_offset_cut _ _ _ _ (by decide) (by decide) (by decide),
    long_data_shifted_sum, ?_⟩
  rw [long_data_shifted_sum]
  decide

/-- C22 (fails on the code): in the valid key of `2 ^ 15 + 2` blocks "AB",
`axes` has `L` slots and none of them holds a table: at `axes[0]` there is no
entry for the position 0 of the block `data[L]` = "AB", whose byte 'A' has the
index 0 in `base`. -/
theorem axes_tables_long_key :
    Key_call long_data = some (key_tables_cut long_data) ∧
    (key_tables_cut long_data).axes.length = (key_tables_cut long_data).prefix_len ∧
    (key_tables_cut long_data).data[(key_tables_cut long_data).prefix_len - 0]? =
      some [65, 66] ∧
    bytes_index (key_tables_cut long_data).base 65 = some 0 ∧
    (key_tables_cut long_data).axes[0]? = some [] ∧
    bytes_getitem ([] : bytes) 0 = none := by
  refine ⟨long_key_call, key_tables_cut_axes_length _, ?_, ?_, long_key_axes_zero, rfl⟩
  · rw [long_key_prefix_len, key_tables_cut_data, Nat.sub_zero, long_data,
      List.getElem?_cons_succ, List.getElem?_replicate, if_pos (by decide)]
  · rw [key_tables_cut_base, long_data_head]
    decide

/-- C23 (fails on the code): in the valid key of `2 ^ 15 + 2` blocks "AB",
whose `size` is 2, every table `axes[k]` with `k` below `L` is the unassigned
slot: it has no entry at all. -/
theorem axes_permutations_long_key :
    Key_call long_data = some (key_tables_cut long_data) ∧
    (key_tables_cut long_data).size = 2 ∧
    ∀ k, k < (key_tables_cut long_data).prefix_len →
      (key_tables_cut long_data).axes[k]? = some [] := by
  refine ⟨long_key_call, ?_, ?_⟩
  · rw [key_tables_cut_size, long_data_head]
    rfl
  · intro k hk
    exact key_tables_cut_axes long_data k hk

/-- C24 (fails on the code): for the valid key of `2 ^ 15 + 2` blocks "AB" and
the history of `2 ^ 15 + 1` entries 0, `Key_encode` returns a byte for no
index at all, also when an entry of the history is replaced: it raises. -/
theorem latin_square_long_key :
    Key_call long_data = some (key_tables_cut long_data) ∧
    long_history.length = (key_tables_cut long_data).prefix_len ∧
    (∀ c : byte, Key_encode (key_tables_cut long_data) (deque_call long_history) c = none) ∧
    (∀ (k : Nat) (h c : byte),
      Key_encode (key_tables_cut long_data) (deque_call (long_history.set k h)) c = none) := by
  refine ⟨long_key_call, long_history_length.trans long_key_prefix_len.symm, ?_, ?_⟩
  · intro c
    exact Key_encode_unassigned _ _ c long_key_axes_zero long_history_ne
  · intro k h c
    apply Key_encode_unassigned _ _ c long_key_axes_zero
    intro e
    have hl := congrArg List.length e
    have h2 : (deque_call (long_history.set k h)).buffer.length = 32769 :=
      (List.length_set _ _ _).trans (List.length_replicate _ _)
    rw [h2] at hl
    exact absurd hl (by decide)

/-- C30 (fails on the code): with the valid key of `2 ^ 15 + 2` blocks "AB"
and the primer of `2 ^ 15 + 1` bytes 'A', which the key accepts, a fresh
Encrypter and a fresh Decrypter are built, and on the input "BA" each raises:
there is no state after `process(x)` to export a primer from. -/
theorem exported_primer_long_key :
    Key_call long_data = some (key_tables_cut long_data) ∧
    Primer_test_key long_primer (key_tables_cut long_data) = some () ∧
    Encrypter_call (key_tables_cut long_data) long_primer = some long_processor ∧
    Decrypter_call (key_tables_cut long_data) long_primer = some long_processor ∧
    Encrypter_process long_processor [66, 65] = none ∧
    Decrypter_process long_processor [66, 65] = none := by
  have h := long_processor_raises [66, 65] (Or.inl (by decide))
  exact ⟨long_key_call, (Primer_test_key_iff _ _).2 long_primer_compatible,
    long_processor_call, long_processor_call, h.1, h.2⟩

/-- C31 (fails on the code): in the state reached by construction from the
valid key of `2 ^ 15 + 2` blocks "AB", the input "B", a byte of the alphabet,
gives no output byte at position 0, in either direction: processing raises. -/
theorem alphabet_positions_long_key :
    Key_call long_data = some (key_tables_cut long_data) ∧
    Reachable (key_tables_cut long_data) long_processor ∧
    (66 : byte) ∈ (key_tables_cut long_data).base ∧
    Encrypter_process long_processor [66] = none ∧
    Decrypter_process long_processor [66] = none := by
  have h := long_processor_raises [66] (Or.inr (List.mem_singleton.2 rfl))
  refine ⟨long_key_call, long_processor_reachable, ?_, h.1, h.2⟩
  rw [key_tables_cut_base, long_data_head]
  decide

/-- C32 (fails on the code): "AB" has two distinct bytes and the chain size
`2 ^ 15` is not below 2, and `Key_create` raises, whatever the random source
delivers. -/
theorem Key_create_long_chain_raises :
    ¬ ((([65, 66] : bytes).dedup.length < 2) ∨ 32768 < 2) ∧
    ∀ source : List byte, Key_create source [65, 66] 32768 = Drawn.raised :=
  ⟨by decide, fun source => Key_create_cut source [65, 66] 32768 (by decide) (by decide)⟩

/-- C33 (fails on the code): "BAAB" has exactly two distinct bytes, and with
the chain size `2 ^ 16 - 1` `Key_create` returns no key, whatever the random
source delivers: it raises. -/
theorem Key_create_two_bytes_long_chain :
    ([66, 65, 65, 66] : bytes).dedup.length = 2 ∧
    ∀ source : List byte, Key_create source [66, 65, 65, 66] 65535 = Drawn.raised :=
  ⟨by decide, fun source => Key_create_cut source [66, 65, 65, 66] 65535 (by decide) (by decide)⟩

set_option maxRecDepth 100000 in
/-- C25 (fails on the code): for the valid key of `2 ^ 15 + 2` blocks "AB" the
decoder holds its two rows, "AB" and "BA", and for the history of `2 ^ 15 + 1`
entries 0 and the index 0, all below `size`, `Key_decode` returns no byte: it
raises in `Key_calculate_sum`, on the first table of `axes`, which is
unassigned. -/
theorem Key_decode_long_key :
    Key_call long_data = some (key_tables_cut long_data) ∧
    (key_tables_cut long_data).decoder = [[65, 66], [66, 65]] ∧
    long_history.length = (key_tables_cut long_data).prefix_len ∧
    (∀ e ∈ long_history, e.val < (key_tables_cut long_data).size) ∧
    Key_calculate_sum (key_tables_cut long_data) (deque_call long_history) = none ∧
    Key_decode (key_tables_cut long_data) (deque_call long_history) 0 = none := by
  refine ⟨long_key_call, ?_, long_history_length.trans long_key_prefix_len.symm, ?_,
    Key_calculate_sum_unassigned _ _ long_key_axes_zero long_history_ne,
    Key_decode_unassigned _ _ _ long_key_axes_zero long_history_ne⟩
  · show decoder_grid [65, 66] (bytes_sort [65, 66]) 2 0 = [[65, 66], [66, 65]]
    decide!
  · intro e he
    have : e = 0 := List.eq_of_mem_replicate he
    subst this
    rw [key_tables_cut_size, long_data_head]
    decide

end ME
